import Mathlib

/-!
Verification development for the xbdistro-web version tracker.

The development shallowly embeds the Version Store (db.py, class
PackageDatabase over three SQLite tables), the Reconciler
(cron.py, PackageDatabaseUpdater.update_database) and the Notification
Dispatch (email_notifier.py).  SQLite tables are lists of row structures,
CURRENT_TIMESTAMP is an explicit natural-number clock argument, callbacks
are modelled as an emitted event trace, and Python exceptions that escape
a function are modelled with Except.
-/

namespace Xbdistro

/-! ## String ordering helpers (SQL ORDER BY name, BINARY collation) -/

/-- Lexicographic order on character lists by code point; this is the
SQLite BINARY collation used by ORDER BY on the name columns. -/
def listCharLe : List Char → List Char → Bool
  | [], _ => true
  | _ :: _, [] => false
  | a :: as, b :: bs => if a = b then listCharLe as bs else decide (a < b)

/-- String comparison used to model ORDER BY name. -/
def strLe (a b : String) : Bool := listCharLe a.data b.data

/-- Insert a string into a sorted list (insertion sort step). -/
def insertLe (x : String) : List String → List String
  | [] => [x]
  | y :: ys => if strLe x y then x :: y :: ys else y :: insertLe x ys

/-- Sort a list of strings, modelling ORDER BY name. -/
def sortStrings : List String → List String
  | [] => []
  | x :: xs => insertLe x (sortStrings xs)

/-! ## Data model: the three tables of db.py -/

/-- A row of the sources table: sources(id INTEGER PRIMARY KEY, name TEXT UNIQUE). -/
structure SourceRow where
  id : Nat
  name : String
deriving DecidableEq, Repr

/-- A row of the versions table:
versions(id, source_id, version, source, timestamp, UNIQUE(source_id, version, source)).
The column named source holds the origin (for example local or nixos). -/
structure VersionRow where
  id : Nat
  source_id : Nat
  version : String
  source : String
  timestamp : Nat
deriving DecidableEq, Repr

/-- A row of the packages table:
packages(name TEXT PRIMARY KEY, source_id, maintainer, homepage_url, license,
category, summary, description).  Nullable TEXT columns are Option String. -/
structure PackageRow where
  name : String
  source_id : Nat
  maintainer : Option String
  homepage_url : Option String
  license : Option String
  category : Option String
  summary : Option String
  description : Option String
deriving DecidableEq, Repr

/-- The persistent state of class PackageDatabase: the three tables plus
the next free INTEGER PRIMARY KEY value of sources and versions. -/
structure PackageDatabase where
  sources : List SourceRow
  packages : List PackageRow
  versions : List VersionRow
  nextSourceId : Nat
  nextVersionId : Nat
deriving DecidableEq, Repr

/-- A freshly created database (empty tables). -/
def emptyDB : PackageDatabase := ⟨[], [], [], 0, 0⟩

/-- Well-formedness of reachable database states: names are unique
(UNIQUE and PRIMARY KEY constraints), ids are unique, and every id in use
is below the next free id. -/
def WF (db : PackageDatabase) : Prop :=
  (db.sources.map SourceRow.name).Nodup ∧
  (db.sources.map SourceRow.id).Nodup ∧
  (db.packages.map PackageRow.name).Nodup ∧
  (∀ s ∈ db.sources, s.id < db.nextSourceId) ∧
  (∀ r ∈ db.versions, r.source_id < db.nextSourceId)

instance (db : PackageDatabase) : Decidable (WF db) := by
  unfold WF; infer_instance

/-! ## Version Store operations (db.py, class PackageDatabase) -/

/-- The first statement of add_source_version: INSERT OR IGNORE INTO
sources (name), which inserts a fresh row only when the name is absent. -/
def ensureSource (db : PackageDatabase) (source_name : String) :
    PackageDatabase :=
  if db.sources.any (fun s => s.name = source_name) then db
  else { db with
         sources := db.sources ++ [⟨db.nextSourceId, source_name⟩],
         nextSourceId := db.nextSourceId + 1 }

/-- PackageDatabase.add_source_version.  INSERT OR IGNORE the source row,
look up its id, then INSERT OR REPLACE the version row: any existing row
with the same (source_id, version, source) key is replaced by a fresh row
stamped with the current time.  Returns the new state and the boolean
result (True on success). -/
def add_source_version (db : PackageDatabase) (now : Nat)
    (source_name version source : String) : PackageDatabase × Bool :=
  let db1 := ensureSource db source_name
  match db1.sources.find? (fun s => s.name = source_name) with
  | none => (db1, false)  -- unreachable: the row was just ensured to exist
  | some srow =>
    let keep := db1.versions.filter
      (fun r => !(r.source_id = srow.id && r.version = version && r.source = source))
    ({ db1 with
       versions := keep ++ [⟨db1.nextVersionId, srow.id, version, source, now⟩],
       nextVersionId := db1.nextVersionId + 1 }, true)

/-- The rows of the versions table that the SQL join attributes to a given
source name and origin (JOIN sources s ON v.source_id = s.id WHERE
s.name = source_name AND v.source = repository_source). -/
def joinedRows (db : PackageDatabase) (source_name repository_source : String) :
    List VersionRow :=
  db.versions.filter (fun r =>
    r.source = repository_source &&
    db.sources.any (fun s => s.id = r.source_id && s.name = source_name))

/-- The row selected by ORDER BY timestamp DESC LIMIT 1: a row of maximal
timestamp.  On timestamp ties the earliest stored row is kept, a
determinization of the unspecified SQLite tie order; all theorems below
use it only where the maximum is unique or the tie is irrelevant. -/
def maxByTimestamp : List VersionRow → Option VersionRow
  | [] => none
  | r :: rs =>
    match maxByTimestamp rs with
    | none => some r
    | some m => if r.timestamp ≥ m.timestamp then some r else some m

/-- PackageDatabase.get_latest_version_from_source: the most recent
(version, timestamp) fact for one source name and one origin, or None. -/
def get_latest_version_from_source (db : PackageDatabase)
    (source_name repository_source : String) : Option (String × Nat) :=
  (maxByTimestamp (joinedRows db source_name repository_source)).map
    (fun r => (r.version, r.timestamp))

/-- The distinct origins occurring among the joined version rows of a
source, in ORDER BY source (origin) order. -/
def originsOf (db : PackageDatabase) (source_name : String) : List String :=
  sortStrings ((db.versions.filter (fun r =>
      db.sources.any (fun s => s.id = r.source_id && s.name = source_name))).map
      VersionRow.source).dedup

/-- PackageDatabase.get_latest_versions_each_source: one
(origin, version) row per origin, each the most recent fact inside that
origin partition, ordered by origin name. -/
def get_latest_versions_each_source (db : PackageDatabase)
    (source_name : String) : List (String × String) :=
  (originsOf db source_name).filterMap (fun o =>
    (maxByTimestamp (joinedRows db source_name o)).map (fun r => (o, r.version)))

/-! ## Version Comparator

The comparator of db.py delegates to libversion.version_compare2, an
external C library that is not part of this repository.  It is modelled
from the spec below (section 4.2): version strings are split into
segments on transitions between numeric runs, alphabetic runs and
separator runs; numeric segments compare as arbitrary precision
integers; the pre-release keywords alpha, beta and rc weigh less than
the end of the version (a final release), which in turn weighs less than
any other present segment; alphabetic segments compare case-insensitively
and letter segments (patch letters) weigh less than numeric segments. -/

/-- ASCII lower-casing of a character (SQLite LIKE and libversion both
fold only ASCII letters). -/
def asciiFold (c : Char) : Char :=
  if 'A' ≤ c ∧ c ≤ 'Z' then Char.ofNat (c.toNat + 32) else c

/-- Is the character an ASCII digit. -/
def isDigitCh (c : Char) : Bool := decide ('0' ≤ c) && decide (c ≤ '9')

/-- Is the character an ASCII letter. -/
def isLetterCh (c : Char) : Bool :=
  (decide ('a' ≤ c) && decide (c ≤ 'z')) || (decide ('A' ≤ c) && decide (c ≤ 'Z'))

/-- Numeric value of a digit run. -/
def natOfDigits (cs : List Char) : Nat :=
  cs.foldl (fun n c => n * 10 + (c.toNat - 48)) 0

/-- Modelled from the spec: one comparison segment of a version string. -/
inductive VSeg where
  | pre (rank : Nat)
  | letters (run : List Char)
  | num (value : Nat)
deriving DecidableEq, Repr

/-- Modelled from the spec: the relative weight rank of the recognized
pre-release keywords alpha, beta, rc. -/
def keywordRank (run : List Char) : Option Nat :=
  if run = [ 'a', 'l', 'p', 'h', 'a' ] then some 0
  else if run = [ 'b', 'e', 't', 'a' ] then some 1
  else if run = [ 'r', 'c' ] then some 2
  else none

/-- Modelled from the spec: classify a lower-cased alphabetic run. -/
def segOfRun (run : List Char) : VSeg :=
  match keywordRank run with
  | some k => .pre k
  | none => .letters run

/-- Modelled from the spec: segmentation worker with explicit fuel (the
remaining character count bounds the recursion; the fuel never runs out
because every step consumes at least one character). -/
def tokenizeF : Nat → List Char → List VSeg
  | 0, _ => []
  | _, [] => []
  | fuel + 1, c :: cs =>
    if isDigitCh c then
      .num (natOfDigits (c :: cs.takeWhile isDigitCh)) ::
        tokenizeF fuel (cs.dropWhile isDigitCh)
    else if isLetterCh c then
      segOfRun ((c :: cs.takeWhile isLetterCh).map asciiFold) ::
        tokenizeF fuel (cs.dropWhile isLetterCh)
    else
      tokenizeF fuel cs

/-- Modelled from the spec: split a version string into segments on
transitions between numeric, alphabetic and separator runs; separator
runs only delimit and produce no segment. -/
def tokenize (cs : List Char) : List VSeg := tokenizeF cs.length cs

/-- Modelled from the spec: the numeric key of one segment.  The first
element ranks the kind (pre-release 0, end of version 1, letters 2,
number 3), the remaining elements rank inside the kind.  Letter payloads
are code points of lower-case letters, all at least 97, so a key is never
a proper prefix of a key it must compare against at another kind. -/
def segKey : VSeg → List Nat
  | .pre k => [0, k]
  | .letters run => 2 :: run.map Char.toNat
  | .num n => [3, n]

/-- Modelled from the spec: the full comparison key of a version string;
the final 1 marks the end of the version (the weight of a final release),
so that a trailing pre-release segment compares below it and any other
trailing segment above it. -/
def verKey (v : String) : List Nat :=
  ((tokenize v.data).map segKey).flatten ++ [1]

/-- Lexicographic three-way comparison of two lists of naturals. -/
def natListCmp : List Nat → List Nat → Ordering
  | [], [] => .eq
  | [], _ :: _ => .lt
  | _ :: _, [] => .gt
  | a :: as, b :: bs =>
    if a < b then .lt else if b < a then .gt else natListCmp as bs

/-- Modelled from the spec: libversion.version_compare2 as used by db.py,
returning -1, 0 or 1. -/
def version_compare2 (a b : String) : Int :=
  match natListCmp (verKey a) (verKey b) with
  | .lt => -1
  | .eq => 0
  | .gt => 1

/-- PackageDatabase.compare_two_versions: compares the first components of
two (version, origin, timestamp) triples through the libversion model. -/
def compare_two_versions (version1 version2 : String × String × String) : Int :=
  version_compare2 version1.1 version2.1

/-- Stable insertion of an element into a list sorted by a three-way
comparator; models the ordering contract of Python sorted with
functools.cmp_to_key. -/
def insertCmp (cmp : α → α → Int) (x : α) : List α → List α
  | [] => [x]
  | y :: ys => if cmp x y ≤ 0 then x :: y :: ys else y :: insertCmp cmp x ys

/-- Stable comparator sort (ascending), modelling Python sorted with
functools.cmp_to_key. -/
def sortCmp (cmp : α → α → Int) : List α → List α
  | [] => []
  | x :: xs => insertCmp cmp x (sortCmp cmp xs)

/-- PackageDatabase.get_latest_version: among the per-origin latest
versions, the comparator-maximal one, ties resolved toward the first row
of the per-origin listing (the behavior of the stable descending sort in
the source); returns (origin, version) or None. -/
def get_latest_version (db : PackageDatabase) (source_name : String) :
    Option (String × String) :=
  match get_latest_versions_each_source db source_name with
  | [] => none
  | lv :: lvs =>
    some (lvs.foldl (fun best cand =>
      if version_compare2 cand.2 best.2 > 0 then cand else best) lv)

/-! ## Remaining Version Store operations -/

/-- PackageDatabase.get_all_source_names: all source names, ORDER BY name. -/
def get_all_source_names (db : PackageDatabase) : List String :=
  sortStrings (db.sources.map SourceRow.name)

/-- PackageDatabase.get_all_package_names: all package names, ORDER BY name. -/
def get_all_package_names (db : PackageDatabase) : List String :=
  sortStrings (db.packages.map PackageRow.name)

/-- PackageDatabase.add_package_metadata: resolve the source by name
(returning False if unknown), default the package name to the source
name, then INSERT a new metadata row or UPDATE every metadata column of
the existing row, including source_id. -/
def add_package_metadata (db : PackageDatabase) (source_name : String)
    (name : Option String) (maintainer homepage_url license category
    summary description : Option String) : PackageDatabase × Bool :=
  match db.sources.find? (fun s => s.name = source_name) with
  | none => (db, false)
  | some srow =>
    let pname := name.getD source_name
    if db.packages.any (fun p => p.name = pname) then
      ({ db with packages := db.packages.map (fun p =>
          if p.name = pname then
            ⟨pname, srow.id, maintainer, homepage_url, license, category,
             summary, description⟩
          else p) }, true)
    else
      ({ db with packages := db.packages ++
          [⟨pname, srow.id, maintainer, homepage_url, license, category,
            summary, description⟩] }, true)

/-- PackageDatabase.get_package_by_name: the metadata row of a package
joined with the name of its owning source, or None when no joined row
exists (also when the package row exists but its source row does not). -/
def get_package_by_name (db : PackageDatabase) (package_name : String) :
    Option (PackageRow × String) :=
  (db.packages.filter (fun p => p.name = package_name)).findSome?
    (fun p => (db.sources.find? (fun s => s.id = p.source_id)).map
      (fun s => (p, s.name)))

/-- PackageDatabase.get_packages_by_source_name: the metadata rows of all
packages attached to the first source row of that name; empty when the
source is unknown. -/
def get_packages_by_source_name (db : PackageDatabase) (source_name : String) :
    List PackageRow :=
  match db.sources.find? (fun s => s.name = source_name) with
  | none => []
  | some srow => db.packages.filter (fun p => p.source_id = srow.id)

/-- PackageDatabase.delete_package: DELETE FROM packages WHERE name = ?,
commit, return True; a missing package deletes zero rows and still
returns True. -/
def delete_package (db : PackageDatabase) (package_name : String) :
    PackageDatabase × Bool :=
  ({ db with packages := db.packages.filter (fun p => !(p.name = package_name)) },
   true)

/-- PackageDatabase.delete_source: look up the source id (returning False
when the name is unknown), delete its version rows, delete the source
row, return True. -/
def delete_source (db : PackageDatabase) (source_name : String) :
    PackageDatabase × Bool :=
  match db.sources.find? (fun s => s.name = source_name) with
  | none => (db, false)
  | some srow =>
    ({ db with
       versions := db.versions.filter (fun r => !(r.source_id = srow.id)),
       sources := db.sources.filter (fun s => !(s.id = srow.id)) }, true)

/-! ## search_sources and LIKE matching -/

/-- SQLite LIKE matching: percent matches any run, underscore matches one
character, plain characters match up to ASCII case folding (the SQLite
default collation for LIKE is case-insensitive on ASCII). -/
def likeMatch : List Char → List Char → Bool
  | [], s => s.isEmpty
  | '%' :: ps, s => s.tails.any (fun t => likeMatch ps t)
  | '_' :: _, [] => false
  | '_' :: ps, _ :: s2 => likeMatch ps s2
  | _ :: _, [] => false
  | p :: ps, c :: s2 => (asciiFold p = asciiFold c) && likeMatch ps s2

/-- One record returned by PackageDatabase.search_sources. -/
structure SearchRecord where
  name : String
  local_version : String
  latest_version : String
deriving DecidableEq, Repr

/-- PackageDatabase.search_sources: select the source names LIKE
percent-term-percent in name order, then enrich each with the stored
local version and the overall latest version.  Subscripting the result of
get_latest_version_from_source (or get_latest_version) while it is None
raises a TypeError, which the except clause for sqlite3.Error does not
catch; this is modelled by Except.error. -/
def search_sources (db : PackageDatabase) (search_term : String) :
    Except String (List SearchRecord) :=
  let pattern := '%' :: search_term.data ++ [ '%' ]
  let names := sortStrings ((db.sources.map SourceRow.name).filter
    (fun n => likeMatch pattern n.data))
  names.mapM (fun n =>
    match get_latest_version_from_source db n "local" with
    | none => .error "TypeError"
    | some lv =>
      match get_latest_version db n with
      | none => .error "TypeError"
      | some latest => .ok ⟨n, lv.1, latest.2⟩)

/-! ## Reconciler (cron.py, PackageDatabaseUpdater.update_database) -/

/-- The outcome of reading the declared local version of a source from
the distribution snapshot (source.version may raise). -/
inductive LocalVersionFetch where
  | ok (version : String)
  | rollingIdUnavailable
  | raised (excName : String)
deriving DecidableEq, Repr

/-- The sentinel string the updater stores for each fetch outcome. -/
def effectiveLocalVersion : LocalVersionFetch → String
  | .ok v => v
  | .rollingIdUnavailable => "RollingIDUnavailable"
  | .raised n => "Error: " ++ n

/-- One source of the live distribution snapshot. -/
structure SnapshotSource where
  name : String
  version : LocalVersionFetch
deriving DecidableEq, Repr

/-- One package of the live distribution snapshot, with the metadata
fields already extracted by _extract_package_metadata (a missing key in
the metadata yml yields None). -/
structure SnapshotPackage where
  name : String
  source : String
  maintainer : Option String
  homepage_url : Option String
  license : Option String
  category : Option String
  summary : Option String
  description : Option String
deriving DecidableEq, Repr

/-- A live snapshot: the sequences produced by distro.all_sources() and
distro.all_pkgs(). -/
structure Snapshot where
  sources : List SnapshotSource
  pkgs : List SnapshotPackage
deriving DecidableEq, Repr

/-- The trace of one reconciliation cycle: the four observable callbacks,
plus markers for the delete_package and delete_source store calls. -/
inductive Event where
  | packageAdded (name source : String)
  | packageRemoved (name source : String)
  | localVersionUpdated (sourceName version origin : String)
  | upstreamVersionUpdated (sourceName version origin : String)
  | deletePackageCall (name : String)
  | deleteSourceCall (name : String)
deriving DecidableEq, Repr

/-- The _get_latest_version helper of the updater: only the version
string of the most recent fact. -/
def updater_get_latest_version (db : PackageDatabase)
    (source_name repository_source : String) : Option String :=
  (get_latest_version_from_source db source_name repository_source).map
    Prod.fst

/-- The body of the per-source loop of update_database: compare the
declared local version with the stored latest, upsert and fire the
local callback when the source is not new, then do the same per
configured upstream provider.  A provider exception or a None or empty
answer leaves both store and trace untouched, so the provider is
modelled as a function to Option String. -/
def sourceStep (existingSources : List String) (upstreams : List String)
    (prov : String → Option String) (now : Nat)
    (st : PackageDatabase × List Event) (s : SnapshotSource) :
    PackageDatabase × List Event :=
  let isNew := !(existingSources.contains s.name)
  let localVersion := effectiveLocalVersion s.version
  let st1 :=
    if updater_get_latest_version st.1 s.name "local" ≠ some localVersion then
      ((add_source_version st.1 now s.name localVersion "local").1,
       if isNew then st.2
       else st.2 ++ [.localVersionUpdated s.name localVersion "local"])
    else st
  upstreams.foldl (fun st2 up =>
    if up = "nixos" then
      match prov s.name with
      | some uv =>
        if uv = "" then st2
        else if updater_get_latest_version st2.1 s.name up ≠ some uv then
          ((add_source_version st2.1 now s.name uv up).1,
           if isNew then st2.2
           else st2.2 ++ [.upstreamVersionUpdated s.name uv up])
        else st2
      | none => st2
    else st2) st1

/-- The body of the per-package loop of update_database: fire
package_added when no joined row exists yet, then upsert the metadata
unconditionally. -/
def packageStep (st : PackageDatabase × List Event) (p : SnapshotPackage) :
    PackageDatabase × List Event :=
  let evs :=
    if get_package_by_name st.1 p.name = none then
      st.2 ++ [.packageAdded p.name p.source]
    else st.2
  ((add_package_metadata st.1 p.source (some p.name) p.maintainer
      p.homepage_url p.license p.category p.summary p.description).1, evs)

/-- The body of the removed-package sweep: fetch the stored record for
its source name, fire package_removed when a joined row exists, then
delete the package unconditionally. -/
def removedPackageStep (st : PackageDatabase × List Event) (n : String) :
    PackageDatabase × List Event :=
  let evs :=
    match get_package_by_name st.1 n with
    | some pr => st.2 ++ [.packageRemoved n pr.2]
    | none => st.2
  ((delete_package st.1 n).1, evs ++ [.deletePackageCall n])

/-- The body of the removed-source sweep: fetch the packages still
attached to the source once, fire package_removed and delete each, then
delete the source. -/
def removedSourceStep (st : PackageDatabase × List Event) (n : String) :
    PackageDatabase × List Event :=
  let pks := get_packages_by_source_name st.1 n
  let st1 := pks.foldl (fun st2 p =>
    ((delete_package st2.1 p.name).1,
     st2.2 ++ [.packageRemoved p.name n, .deletePackageCall p.name])) st
  ((delete_source st1.1 n).1, st1.2 ++ [.deleteSourceCall n])

/-- PackageDatabaseUpdater.update_database: one reconciliation cycle.
The baseline source and package name sets are read once; the four phases
then run in program order.  Python iterates the removed sets in
unspecified set order; here they are iterated in the sorted baseline
order, a determinization that no theorem below depends on.  The clock
argument now models CURRENT_TIMESTAMP during the cycle. -/
def update_database (db0 : PackageDatabase) (snap : Snapshot)
    (upstreams : List String) (prov : String → Option String) (now : Nat) :
    PackageDatabase × List Event :=
  let existingSources := get_all_source_names db0
  let existingPackages := get_all_package_names db0
  let currentSources := snap.sources.map SnapshotSource.name
  let currentPackages := snap.pkgs.map SnapshotPackage.name
  let st1 := snap.sources.foldl
    (sourceStep existingSources upstreams prov now) (db0, [])
  let st2 := snap.pkgs.foldl packageStep st1
  let st3 := (existingPackages.filter
      (fun n => !(currentPackages.contains n))).foldl removedPackageStep st2
  (existingSources.filter
      (fun n => !(currentSources.contains n))).foldl removedSourceStep st3

/-! ## Notification Dispatch (email_notifier.py) -/

/-- The characters of a string after its last opening angle bracket;
models maintainer.split(.less.)[-1] in notify_package_update (written
with the bracket spelled out in the source). -/
def afterLastLt (cs : List Char) : List Char :=
  cs.foldl (fun acc c => if c = '<' then [] else acc ++ [c]) []

/-- The maintainer-address extraction of notify_package_update: the field
must be non-empty and contain an at sign; then, when it contains an
opening angle bracket, the contact is the text after the last opening
bracket up to the next closing bracket, else the whole field. -/
def extract_maintainer_email (maintainer : Option String) : Option String :=
  match maintainer with
  | none => none
  | some m =>
    if m = "" then none
    else if m.data.contains '@' then
      if m.data.contains '<' then
        some (String.mk ((afterLastLt m.data).takeWhile (fun c => c ≠ '>')))
      else some m
    else none

/-- The message assembled by EmailNotifier.send_update_notification:
recipient, subject and the unmaintained marking of the body. -/
structure EmailMessage where
  recipient : String
  subject : String
  unmaintainedNote : Bool
deriving DecidableEq, Repr

/-- EmailNotifier.send_update_notification: the recipient comes from the
truthiness test maintainer_email if maintainer_email else fallback, so
both an absent and an empty address route to the fallback; the
UNMAINTAINED subject tag and body note instead key on maintainer_email
is None, so an empty address still gets the maintained wording. -/
def send_update_notification (fallback_email : String) (package_name : String)
    (maintainer_email : Option String) : EmailMessage :=
  match maintainer_email with
  | some addr =>
    ⟨if addr = "" then fallback_email else addr,
     "Package update available: " ++ package_name, false⟩
  | none =>
    ⟨fallback_email,
     "[UNMAINTAINED] Package update available: " ++ package_name, true⟩

/-- One dispatched notification of notify_package_update, keeping the
package maintainer field it was derived from. -/
structure SendRecord where
  package_name : String
  source_name : String
  local_version : String
  upstream_version : String
  repository : String
  maintainer_field : Option String
  maintainer_email : Option String
  message : EmailMessage
deriving DecidableEq, Repr

/-- notify_package_update with a configured notifier: abort without
sending when no local version is stored; fall back to a single synthetic
package named after the source with no maintainer when the source owns no
packages; then send one notification per package with the extracted
maintainer address. -/
def notify_package_update (db : PackageDatabase)
    (source_name version repository fallback_email : String) :
    List SendRecord :=
  match get_latest_version_from_source db source_name "local" with
  | none => []
  | some lv =>
    let pkgs : List (String × Option String) :=
      match get_packages_by_source_name db source_name with
      | [] => [(source_name, none)]
      | ps => ps.map (fun p => (p.name, p.maintainer))
    pkgs.map (fun pm =>
      let me := extract_maintainer_email pm.2
      ⟨pm.1, source_name, lv.1, version, repository, pm.2, me,
       send_update_notification fallback_email pm.1 me⟩)

/-- The maintainer-extraction rule exactly as the claim words it: if the
maintainer field is text followed by an address in angle brackets, the
address between the angle brackets; otherwise the whole field if it
contains an at sign; otherwise absent. -/
def claimStatedExtract (maintainer : Option String) : Option String :=
  match maintainer with
  | none => none
  | some m =>
    if m.data.contains '<' then
      some (String.mk ((afterLastLt m.data).takeWhile (fun c => c ≠ '>')))
    else if m.data.contains '@' then some m
    else none

/-- The amended maintainer-extraction rule: a non-empty field containing
an at sign yields a contact, namely the text after the last opening
angle bracket up to the next closing one when the field contains an
opening bracket, else the whole field; any other field yields no
contact. -/
def claimAmendedExtract (maintainer : Option String) : Option String :=
  match maintainer with
  | none => none
  | some m =>
    if m = "" then none
    else if !(m.data.contains '@') then none
    else if m.data.contains '<' then
      some (String.mk ((afterLastLt m.data).takeWhile (fun c => c ≠ '>')))
    else some m

/-- Is the event a package_added callback for the given package name. -/
def isPackageAddedFor (pkg : String) : Event → Bool
  | .packageAdded n _ => n = pkg
  | _ => false

/-- Is the event a package_removed callback for the given package name. -/
def isPackageRemovedFor (pkg : String) : Event → Bool
  | .packageRemoved n _ => n = pkg
  | _ => false

/-- Is the event a local or upstream version-updated callback for the
given source name. -/
def isVersionUpdFor (src : String) : Event → Bool
  | .localVersionUpdated n _ _ => n = src
  | .upstreamVersionUpdated n _ _ => n = src
  | _ => false

/-- Is the event a delete_source store call for the given source name. -/
def isDeleteSourceCallFor (src : String) : Event → Bool
  | .deleteSourceCall n => n = src
  | _ => false

/-- An upstream provider that knows no versions (every lookup is None). -/
def noProvider : String → Option String := fun _ => none

/-- A one-source one-package snapshot used to exercise the reconciler on
concrete runs. -/
def snapOne : Snapshot :=
  ⟨[⟨"s1", .ok "1.0"⟩], [⟨"p1", "s1", none, none, none, none, none, none⟩]⟩

/-- A concrete store in which source s2 (id 0) owns packages p2 and p3,
used to exercise the removal sweeps. -/
def dbTwoOwned : PackageDatabase :=
  ⟨[⟨0, "s2"⟩],
   [⟨"p2", 0, none, none, none, none, none, none⟩,
    ⟨"p3", 0, none, none, none, none, none, none⟩],
   [], 1, 0⟩

/-- A snapshot whose only package names a source that the snapshot does
not declare (a dangling package-to-source reference). -/
def snapDangling : Snapshot :=
  ⟨[], [⟨"p", "ghost", none, none, none, none, none, none⟩]⟩

/-- A package row of a store, found resolvable through a source whose
name lies in the allowed list. -/
def resolvableVia (db : PackageDatabase) (pn : String)
    (allowed : List String) : Prop :=
  ∃ row ∈ db.packages, row.name = pn ∧
    ∃ y ∈ db.sources, y.id = row.source_id ∧ y.name ∈ allowed

/-- The stored version rows of one (source, origin, version_string)
triple, the unit of the uniqueness contract of the Version table. -/
def storedTripleRows (db : PackageDatabase)
    (source_name origin version : String) : List VersionRow :=
  (joinedRows db source_name origin).filter (fun r => r.version = version)

/-- The body of the per-upstream inner loop of sourceStep, named so that
the reconciliation proofs can speak about one upstream iteration. -/
def upsStep (prov : String → Option String) (now : Nat)
    (s : SnapshotSource) (isNew : Bool)
    (st2 : PackageDatabase × List Event) (up : String) :
    PackageDatabase × List Event :=
  if up = "nixos" then
    match prov s.name with
    | some uv =>
      if uv = "" then st2
      else if updater_get_latest_version st2.1 s.name up ≠ some uv then
        ((add_source_version st2.1 now s.name uv up).1,
         if isNew then st2.2
         else st2.2 ++ [.upstreamVersionUpdated s.name uv up])
      else st2
    | none => st2
  else st2

/-- A snapshot source whose declared versions the store already agrees
with: the stored latest local fact is its effective local version, and
when nixos upstream checking is configured and the provider answers a
non-empty version, the stored latest nixos fact is that answer. -/
def EstSource (ups : List String) (prov : String → Option String)
    (s : SnapshotSource) (db : PackageDatabase) : Prop :=
  updater_get_latest_version db s.name "local" =
    some (effectiveLocalVersion s.version) ∧
  ("nixos" ∈ ups → ∀ uv, prov s.name = some uv → uv ≠ "" →
    updater_get_latest_version db s.name "nixos" = some uv)

/-- The induction invariant of the per-source phase of update_database:
a well-formed store, no timestamp beyond the cycle clock, rows stamped
at the cycle clock joined only to already-processed source names, and
every processed source established. -/
def Phase1Inv (ups : List String) (prov : String → Option String)
    (now1 : Nat) (done : List SnapshotSource)
    (st : PackageDatabase × List Event) : Prop :=
  WF st.1 ∧
  (∀ r ∈ st.1.versions, r.timestamp ≤ now1) ∧
  (∀ r ∈ st.1.versions, r.timestamp = now1 →
    ∀ x ∈ st.1.sources, x.id = r.source_id →
      x.name ∈ done.map SnapshotSource.name) ∧
  (∀ s2 ∈ done, EstSource ups prov s2 st.1)

/-- The invariant carried through the inner upstream loop of one
sourceStep: the Phase1Inv facts for the processed sources, the local
fact of the current source already established, and its nixos fact
either established or backed only by strictly older rows. -/
def CoreInv (ups : List String) (prov : String → Option String)
    (now1 : Nat) (done : List SnapshotSource) (s : SnapshotSource)
    (st2 : PackageDatabase × List Event) : Prop :=
  WF st2.1 ∧
  (∀ r ∈ st2.1.versions, r.timestamp ≤ now1) ∧
  (∀ r ∈ st2.1.versions, r.timestamp = now1 →
    ∀ x ∈ st2.1.sources, x.id = r.source_id →
      x.name ∈ (done ++ [s]).map SnapshotSource.name) ∧
  updater_get_latest_version st2.1 s.name "local" =
    some (effectiveLocalVersion s.version) ∧
  (∀ uv, prov s.name = some uv → uv ≠ "" →
    (updater_get_latest_version st2.1 s.name "nixos" = some uv ∨
     ∀ r ∈ joinedRows st2.1 s.name "nixos", r.timestamp < now1)) ∧
  (∀ s2 ∈ done, EstSource ups prov s2 st2.1)

/-! ## Basic lemmas about the helpers -/

theorem foldl_preserve {α β : Type} (P : β → Prop) (f : β → α → β) (l : List α)
    (h : ∀ b, ∀ a ∈ l, P b → P (f b a)) (init : β) (h0 : P init) :
    P (l.foldl f init) := by
  induction l generalizing init with
  | nil => exact h0
  | cons x xs ih =>
    exact ih (fun b a ha => h b a (List.mem_cons_of_mem _ ha)) _
      (h init x (List.mem_cons_self _ _) h0)

theorem insertLe_perm (x : String) (l : List String) :
    (insertLe x l).Perm (x :: l) := by
  induction l with
  | nil => exact List.Perm.refl _
  | cons y ys ih =>
    simp only [insertLe]
    split
    · exact List.Perm.refl _
    · exact (List.Perm.cons y ih).trans (List.Perm.swap x y ys)

theorem sortStrings_perm (l : List String) : (sortStrings l).Perm l := by
  induction l with
  | nil => exact List.Perm.refl _
  | cons x xs ih =>
    exact (insertLe_perm x (sortStrings xs)).trans (List.Perm.cons x ih)

theorem mem_sortStrings {a : String} {l : List String} :
    a ∈ sortStrings l ↔ a ∈ l := (sortStrings_perm l).mem_iff

theorem nodup_sortStrings {l : List String} (h : l.Nodup) :
    (sortStrings l).Nodup := ((sortStrings_perm l).nodup_iff).2 h

theorem count_sortStrings (a : String) (l : List String) :
    (sortStrings l).count a = l.count a := (sortStrings_perm l).count_eq a

theorem find?_eq_of_nodup_key {α : Type} (key : α → Bool) (l : List α) (x : α)
    (hx : x ∈ l) (hkey : key x = true)
    (huniq : ∀ y ∈ l, key y = true → y = x) :
    l.find? key = some x := by
  induction l with
  | nil => cases hx
  | cons y ys ih =>
    by_cases h : key y = true
    · have hxy : y = x := huniq y (List.mem_cons_self _ _) h
      subst hxy
      simp [List.find?, h]
    · have hx2 : x ∈ ys := by
        rcases List.mem_cons.1 hx with rfl | hm
        · exact absurd hkey h
        · exact hm
      simp only [List.find?, h]
      exact ih hx2 (fun y2 hy2 hk => huniq y2 (List.mem_cons_of_mem _ hy2) hk)

theorem map_nodup_inj {α β : Type} (f : α → β) (l : List α)
    (hnd : (l.map f).Nodup) {x y : α} (hx : x ∈ l) (hy : y ∈ l)
    (h : f x = f y) : x = y :=
  List.inj_on_of_nodup_map hnd hx hy h

/-! ## C9: missing-target behavior of delete_package and delete_source -/

/-- C9: delete_package returns true even when no package with that name
exists (leaving the store unchanged), whereas delete_source returns false
when no source with that name exists; the two delete operations treat a
missing target asymmetrically. -/
theorem claim_C9_delete_missing_asymmetry (db : PackageDatabase) (n : String)
    (hp : n ∉ db.packages.map PackageRow.name)
    (hs : n ∉ db.sources.map SourceRow.name) :
    delete_package db n = (db, true) ∧ delete_source db n = (db, false) := by
  constructor
  · unfold delete_package
    have hfilter : db.packages.filter (fun p => !(p.name = n)) = db.packages := by
      apply List.filter_eq_self.2
      intro p hpmem
      simp only [Bool.not_eq_true', decide_eq_false_iff_not]
      intro hcontra
      exact hp (hcontra ▸ List.mem_map_of_mem PackageRow.name hpmem)
    rw [hfilter]
  · unfold delete_source
    have hfind : db.sources.find? (fun s => s.name = n) = none := by
      apply List.find?_eq_none.2
      intro s hsmem
      simp only [decide_eq_true_eq]
      intro hcontra
      exact hs (hcontra ▸ List.mem_map_of_mem SourceRow.name hsmem)
    rw [hfind]

/-- Witness for C9 at a concrete store. -/
theorem claim_C9_witness :
    ("x" ∉ emptyDB.packages.map PackageRow.name) ∧
    ("x" ∉ emptyDB.sources.map SourceRow.name) ∧
    (delete_package emptyDB "x" = (emptyDB, true) ∧
     delete_source emptyDB "x" = (emptyDB, false)) :=
  ⟨by decide, by decide,
   claim_C9_delete_missing_asymmetry emptyDB "x" (by decide) (by decide)⟩

/-! ## C10: add_package_metadata re-parents an existing package -/

theorem filter_map_upsert (l : List PackageRow) (nm : String)
    (new : PackageRow) (hnew : new.name = nm)
    (hnd : (l.map PackageRow.name).Nodup)
    (hmem : ∃ p ∈ l, p.name = nm) :
    (l.map (fun p => if p.name = nm then new else p)).filter
      (fun p => p.name = nm) = [new] := by
  induction l with
  | nil =>
    rcases hmem with ⟨p, hp, _⟩
    cases hp
  | cons q qs ih =>
    simp only [List.map_cons, List.map, List.nodup_cons] at hnd
    by_cases hq : q.name = nm
    · simp only [List.map_cons, hq, if_pos, List.filter_cons]
      have : ∀ p ∈ qs, ¬(p.name = nm) := by
        intro p hp hcontra
        apply hnd.1
        have hqp : q.name = p.name := by rw [hcontra, hq]
        rw [hqp]
        exact List.mem_map_of_mem PackageRow.name hp
      have hrest : (qs.map (fun p => if p.name = nm then new else p)).filter
          (fun p => p.name = nm) = [] := by
        apply List.filter_eq_nil_iff.2
        intro p hp
        rcases List.mem_map.1 hp with ⟨p0, hp0, rfl⟩
        rw [if_neg (this p0 hp0)]
        simpa using this p0 hp0
      simp [hnew, hrest]
    · have hmem2 : ∃ p ∈ qs, p.name = nm := by
        rcases hmem with ⟨p, hp, hpn⟩
        rcases List.mem_cons.1 hp with rfl | hm
        · exact absurd hpn hq
        · exact ⟨p, hm, hpn⟩
      simp only [List.map_cons, if_neg hq, List.filter_cons]
      rw [ih hnd.2 hmem2]
      simp [hq]

/-- C10: when add_package_metadata is called for an already-existing
package name naming a different existing source, the update also
replaces source_id, so the package is re-parented: afterwards
get_package_by_name reports the new source as owner together with the
new metadata fields. -/
theorem claim_C10_upsert_reparents (db : PackageDatabase) (hwf : WF db)
    (sB : SourceRow) (hB : sB ∈ db.sources)
    (P : PackageRow) (hP : P ∈ db.packages)
    (m hu li ca su de : Option String) :
    (add_package_metadata db sB.name (some P.name) m hu li ca su de).2 = true ∧
    get_package_by_name
      (add_package_metadata db sB.name (some P.name) m hu li ca su de).1
      P.name =
      some (⟨P.name, sB.id, m, hu, li, ca, su, de⟩, sB.name) := by
  obtain ⟨hsn, hsi, hpn, _, _⟩ := hwf
  have hfind : db.sources.find? (fun s => s.name = sB.name) = some sB := by
    apply find?_eq_of_nodup_key _ _ _ hB (by simp)
    intro y hy hk
    exact map_nodup_inj SourceRow.name db.sources hsn hy hB
      (by simpa using hk)
  unfold add_package_metadata
  rw [hfind]
  simp only [Option.getD_some]
  have hany : db.packages.any (fun p => p.name = P.name) = true := by
    apply List.any_eq_true.2
    exact ⟨P, hP, by simp⟩
  rw [if_pos hany]
  refine ⟨rfl, ?_⟩
  unfold get_package_by_name
  have hfilter := filter_map_upsert db.packages P.name
    ⟨P.name, sB.id, m, hu, li, ca, su, de⟩ rfl hpn ⟨P, hP, rfl⟩
  rw [hfilter]
  have hfindid : db.sources.find? (fun s => s.id = sB.id) = some sB := by
    apply find?_eq_of_nodup_key _ _ _ hB (by simp)
    intro y hy hk
    exact map_nodup_inj SourceRow.id db.sources hsi hy hB (by simpa using hk)
  simp [List.findSome?, hfindid]

/-- Witness for C10 at a concrete store: package p owned by source a is
re-parented to source b. -/
theorem claim_C10_witness :
    WF ⟨[⟨0, "a"⟩, ⟨1, "b"⟩], [⟨"p", 0, none, none, none, none, none, none⟩],
        [], 2, 0⟩ ∧
    (add_package_metadata
      ⟨[⟨0, "a"⟩, ⟨1, "b"⟩], [⟨"p", 0, none, none, none, none, none, none⟩],
       [], 2, 0⟩ "b" (some "p") (some "m") none none none none none).2 = true ∧
    get_package_by_name
      (add_package_metadata
        ⟨[⟨0, "a"⟩, ⟨1, "b"⟩], [⟨"p", 0, none, none, none, none, none, none⟩],
         [], 2, 0⟩ "b" (some "p") (some "m") none none none none none).1
      "p" = some (⟨"p", 1, some "m", none, none, none, none, none⟩, "b") := by
  refine ⟨by decide, ?_⟩
  have h := claim_C10_upsert_reparents
    ⟨[⟨0, "a"⟩, ⟨1, "b"⟩], [⟨"p", 0, none, none, none, none, none, none⟩],
     [], 2, 0⟩ (by decide) ⟨1, "b"⟩ (by decide)
    ⟨"p", 0, none, none, none, none, none, none⟩ (by decide)
    (some "m") none none none none none
  exact h

/-! ## Lemmas about ensureSource and add_source_version -/

theorem ensureSource_packages (db : PackageDatabase) (s : String) :
    (ensureSource db s).packages = db.packages := by
  unfold ensureSource; split <;> rfl

theorem ensureSource_versions (db : PackageDatabase) (s : String) :
    (ensureSource db s).versions = db.versions := by
  unfold ensureSource; split <;> rfl

theorem ensureSource_nextVersionId (db : PackageDatabase) (s : String) :
    (ensureSource db s).nextVersionId = db.nextVersionId := by
  unfold ensureSource; split <;> rfl

theorem ensureSource_sources_sub (db : PackageDatabase) (s : String) :
    ∀ x ∈ db.sources, x ∈ (ensureSource db s).sources := by
  unfold ensureSource
  split
  · intro x hx; exact hx
  · intro x hx; exact List.mem_append_left _ hx

theorem ensureSource_find (db : PackageDatabase) (s : String)
    (hnd : (db.sources.map SourceRow.name).Nodup) :
    ∃ srow,
      (ensureSource db s).sources.find? (fun x => x.name = s) = some srow ∧
      srow.name = s ∧ srow ∈ (ensureSource db s).sources ∧
      ∀ y ∈ (ensureSource db s).sources, y.name = s → y = srow := by
  unfold ensureSource
  by_cases h : db.sources.any (fun x => x.name = s) = true
  · rw [if_pos h]
    rcases List.any_eq_true.1 h with ⟨x, hx, hxs⟩
    have hxs2 : x.name = s := by simpa using hxs
    have huniq : ∀ y ∈ db.sources, y.name = s → y = x := fun y hy hys =>
      map_nodup_inj SourceRow.name _ hnd hy hx (by rw [hys, hxs2])
    exact ⟨x, find?_eq_of_nodup_key _ _ _ hx (by simpa using hxs2)
      (fun y hy hk => huniq y hy (by simpa using hk)), hxs2, hx, huniq⟩
  · rw [if_neg h]
    have hnone : ∀ y ∈ db.sources, ¬(y.name = s) := by
      intro y hy hys
      exact h (List.any_eq_true.2 ⟨y, hy, by simpa using hys⟩)
    refine ⟨⟨db.nextSourceId, s⟩, ?_, rfl, by simp, ?_⟩
    · rw [List.find?_append]
      have hleft : db.sources.find? (fun x => x.name = s) = none :=
        List.find?_eq_none.2 (fun y hy => by simpa using hnone y hy)
      rw [hleft]
      simp [List.find?]
    · intro y hy hys
      rcases List.mem_append.1 hy with hy1 | hy2
      · exact absurd hys (hnone y hy1)
      · simpa using hy2

theorem WF_ensureSource (db : PackageDatabase) (s : String) (hwf : WF db) :
    WF (ensureSource db s) := by
  obtain ⟨hsn, hsi, hpn, hslt, hvlt⟩ := hwf
  unfold ensureSource
  by_cases h : db.sources.any (fun x => x.name = s) = true
  · rw [if_pos h]; exact ⟨hsn, hsi, hpn, hslt, hvlt⟩
  · rw [if_neg h]
    have hnames : s ∉ db.sources.map SourceRow.name := by
      intro hmem
      rcases List.mem_map.1 hmem with ⟨y, hy, hys⟩
      exact h (List.any_eq_true.2 ⟨y, hy, by simpa using hys⟩)
    have hid : db.nextSourceId ∉ db.sources.map SourceRow.id := by
      intro hmem
      rcases List.mem_map.1 hmem with ⟨y, hy, hyid⟩
      exact absurd (hyid ▸ hslt y hy) (Nat.lt_irrefl _)
    refine ⟨?_, ?_, hpn, ?_, ?_⟩
    · rw [List.map_append, List.nodup_append]
      exact ⟨hsn, List.nodup_singleton _, by
        intro a ha hb
        simp only [List.map_cons, List.map_nil, List.mem_singleton] at hb
        exact hnames (hb ▸ ha)⟩
    · rw [List.map_append, List.nodup_append]
      exact ⟨hsi, List.nodup_singleton _, by
        intro a ha hb
        simp only [List.map_cons, List.map_nil, List.mem_singleton] at hb
        exact hid (hb ▸ ha)⟩
    · intro x hx
      rcases List.mem_append.1 hx with hx1 | hx2
      · exact Nat.lt_succ_of_lt (hslt x hx1)
      · simp only [List.mem_singleton] at hx2
        rw [hx2]
        exact Nat.lt_succ_self _
    · intro r hr
      exact Nat.lt_succ_of_lt (hvlt r hr)

theorem add_source_version_spec (db : PackageDatabase) (now : Nat)
    (s v o : String) (hnd : (db.sources.map SourceRow.name).Nodup) :
    ∃ srow,
      (ensureSource db s).sources.find? (fun x => x.name = s) = some srow ∧
      srow.name = s ∧ srow ∈ (ensureSource db s).sources ∧
      (∀ y ∈ (ensureSource db s).sources, y.name = s → y = srow) ∧
      add_source_version db now s v o =
        ({ ensureSource db s with
           versions := (ensureSource db s).versions.filter
             (fun r => !(r.source_id = srow.id && r.version = v &&
               r.source = o)) ++
             [⟨(ensureSource db s).nextVersionId, srow.id, v, o, now⟩],
           nextVersionId := (ensureSource db s).nextVersionId + 1 }, true) := by
  rcases ensureSource_find db s hnd with ⟨srow, hfind, hname, hmem, huniq⟩
  refine ⟨srow, hfind, hname, hmem, huniq, ?_⟩
  simp only [add_source_version]
  rw [hfind]

theorem add_source_version_snd (db : PackageDatabase) (now : Nat)
    (s v o : String) (hnd : (db.sources.map SourceRow.name).Nodup) :
    (add_source_version db now s v o).2 = true := by
  rcases add_source_version_spec db now s v o hnd with ⟨srow, _, _, _, _, heq⟩
  rw [heq]

theorem WF_add_source_version (db : PackageDatabase) (now : Nat)
    (s v o : String) (hwf : WF db) :
    WF (add_source_version db now s v o).1 := by
  rcases add_source_version_spec db now s v o hwf.1 with ⟨srow, _, _, hmem, _, heq⟩
  rw [heq]
  have hwf1 := WF_ensureSource db s hwf
  obtain ⟨hsn, hsi, hpn, hslt, hvlt⟩ := hwf1
  refine ⟨hsn, hsi, hpn, hslt, ?_⟩
  intro r hr
  rcases List.mem_append.1 hr with hr1 | hr2
  · exact hvlt r (List.mem_filter.1 hr1).1
  · simp only [List.mem_singleton] at hr2
    rw [hr2]
    exact hslt srow hmem

theorem storedTripleRows_after_add (db : PackageDatabase) (now : Nat)
    (s v o : String) (hwf : WF db) :
    ∃ srow : SourceRow,
      (storedTripleRows (add_source_version db now s v o).1 s o v) =
        [⟨(ensureSource db s).nextVersionId, srow.id, v, o, now⟩] := by
  rcases add_source_version_spec db now s v o hwf.1
    with ⟨srow, hfind, hname, hmem, huniq, heq⟩
  refine ⟨srow, ?_⟩
  rw [heq]
  unfold storedTripleRows joinedRows
  simp only [List.filter_filter]
  rw [List.filter_append]
  have hsingle :
      List.filter (fun r => decide (r.version = v) &&
        (decide (r.source = o) &&
         List.any (ensureSource db s).sources
           (fun x => decide (x.id = r.source_id) && decide (x.name = s))))
      [(⟨(ensureSource db s).nextVersionId, srow.id, v, o, now⟩ : VersionRow)] =
      [⟨(ensureSource db s).nextVersionId, srow.id, v, o, now⟩] := by
    have hany : (ensureSource db s).sources.any
        (fun x => decide (x.id = srow.id) && decide (x.name = s)) = true :=
      List.any_eq_true.2 ⟨srow, hmem, by simp [hname]⟩
    simp [List.filter, hany]
  have hempty :
      List.filter (fun r => decide (r.version = v) &&
        (decide (r.source = o) &&
         List.any (ensureSource db s).sources
           (fun x => decide (x.id = r.source_id) && decide (x.name = s))))
      ((ensureSource db s).versions.filter
        (fun r => !(r.source_id = srow.id && r.version = v &&
          r.source = o))) = [] := by
    rw [List.filter_filter]
    apply List.filter_eq_nil_iff.2
    intro r hr
    simp only [Bool.and_eq_true, decide_eq_true_eq, List.any_eq_true,
      Bool.not_eq_true', Bool.and_eq_false_iff, decide_eq_false_iff_not]
    rintro ⟨⟨hv, ho, y, hy, hyid, hys⟩, hkeep⟩
    have : y = srow := huniq y hy hys
    rcases hkeep with hk | hk
    · rcases hk with hk | hk
      · exact hk (by rw [← hyid, this])
      · exact hk hv
    · exact hk ho
  rw [hsingle, hempty]
  rfl

/-! ## C1: re-upserting an identical triple refreshes the timestamp -/

/-- C1 counterexample: on the concrete store obtained by adding the
triple (s, local, 1.0) at time 0, re-adding the identical triple at time
1 keeps exactly one stored row for the triple but replaces its timestamp
with the time of the second call, so the timestamp is not unchanged. -/
theorem claim_C1_counterexample :
    (storedTripleRows (add_source_version emptyDB 0 "s" "1.0" "local").1
      "s" "local" "1.0").map VersionRow.timestamp = [0] ∧
    (storedTripleRows
      (add_source_version (add_source_version emptyDB 0 "s" "1.0" "local").1
        1 "s" "1.0" "local").1
      "s" "local" "1.0").map VersionRow.timestamp = [1] ∧
    (0 : Nat) ≠ 1 := by
  refine ⟨?_, ?_, by decide⟩ <;> decide

/-- C1 amended: a second call to add_source_version with the identical
triple after a successful first call succeeds and the store still
contains exactly one version row for the triple, but INSERT OR REPLACE
replaces the stored row, so its timestamp becomes the time of the second
call instead of staying at the time of the first. -/
theorem claim_C1_amended (db : PackageDatabase) (t1 t2 : Nat)
    (s v o : String) (hwf : WF db) :
    (add_source_version db t1 s v o).2 = true ∧
    (add_source_version (add_source_version db t1 s v o).1 t2 s v o).2 =
      true ∧
    (storedTripleRows (add_source_version db t1 s v o).1 s o v).map
      VersionRow.timestamp = [t1] ∧
    (storedTripleRows
      (add_source_version (add_source_version db t1 s v o).1 t2 s v o).1
      s o v).map VersionRow.timestamp = [t2] := by
  have hwf1 := WF_add_source_version db t1 s v o hwf
  refine ⟨add_source_version_snd db t1 s v o hwf.1,
    add_source_version_snd _ t2 s v o hwf1.1, ?_, ?_⟩
  · rcases storedTripleRows_after_add db t1 s v o hwf with ⟨srow, hrows⟩
    rw [hrows]
    rfl
  · rcases storedTripleRows_after_add (add_source_version db t1 s v o).1
      t2 s v o hwf1 with ⟨srow, hrows⟩
    rw [hrows]
    rfl

/-- Witness for C1 amended at the concrete store of the counterexample. -/
theorem claim_C1_witness :
    WF emptyDB ∧
    ((add_source_version emptyDB 0 "s" "1.0" "local").2 = true ∧
     (add_source_version (add_source_version emptyDB 0 "s" "1.0" "local").1
       1 "s" "1.0" "local").2 = true ∧
     (storedTripleRows (add_source_version emptyDB 0 "s" "1.0" "local").1
       "s" "local" "1.0").map VersionRow.timestamp = [0] ∧
     (storedTripleRows
       (add_source_version (add_source_version emptyDB 0 "s" "1.0" "local").1
         1 "s" "1.0" "local").1
       "s" "local" "1.0").map VersionRow.timestamp = [1]) :=
  ⟨by decide, claim_C1_amended emptyDB 0 1 "s" "1.0" "local" (by decide)⟩

/-! ## C7: search_sources raises past the Store boundary -/

/-- C7: the claim says every Version Store read returns an explicit
absent or empty result and never raises; but on a store whose source foo
has a version fact only for the nixos origin and none for local,
search_sources subscripts the None result of
get_latest_version_from_source and raises a TypeError that the handler
for sqlite3.Error does not catch.  The model evaluates to an error at
that input. -/
theorem claim_C7_search_sources_raises :
    search_sources (add_source_version emptyDB 0 "foo" "1.0" "nixos").1
      "foo" = Except.error "TypeError" := by rfl

/-! ## C8: maintainer extraction and unmaintained routing -/

theorem extract_eq_amended (m : Option String) :
    extract_maintainer_email m = claimAmendedExtract m := by
  cases m with
  | none => rfl
  | some m =>
    unfold extract_maintainer_email claimAmendedExtract
    by_cases h1 : m = ""
    · simp [h1]
    · by_cases h2 : m.data.contains '@'
      · simp [h1, h2]
      · simp [h1, h2]

/-- C8 counterexample: for the stored package p1 whose maintainer field
is text followed by a bracketed address without an at sign, the claim
rule extracts the bracketed address, but notify_package_update extracts
no contact at all and routes the notification to the fallback address
marked unmaintained. -/
theorem claim_C8_counterexample :
    claimStatedExtract (some "Jane <jane.example.org>") =
      some "jane.example.org" ∧
    notify_package_update
      (add_package_metadata (add_source_version emptyDB 0 "s1" "1.0" "local").1
        "s1" (some "p1") (some "Jane <jane.example.org>") none none none none
        none).1
      "s1" "2.0" "nixos" "admin@fallback.org" =
      [⟨"p1", "s1", "1.0", "2.0", "nixos", some "Jane <jane.example.org>",
        none,
        ⟨"admin@fallback.org", "[UNMAINTAINED] Package update available: p1",
         true⟩⟩] := by
  constructor
  · decide
  · decide

/-- C8 amended: for every package record processed by
notify_package_update, the contact is extracted as: nothing unless the
maintainer field is non-empty and contains an at sign; then the text
after the last opening angle bracket up to the next closing one when the
field contains an opening bracket, else the whole field.  When the
contact is absent the notification is routed to the fallback address,
marked unmaintained, and its subject is tagged UNMAINTAINED. -/
theorem claim_C8_amended (db : PackageDatabase)
    (s v r fb : String) :
    ∀ rec ∈ notify_package_update db s v r fb,
      rec.maintainer_email = claimAmendedExtract rec.maintainer_field ∧
      rec.message = send_update_notification fb rec.package_name
        rec.maintainer_email ∧
      (rec.maintainer_email = none →
        rec.message.recipient = fb ∧
        rec.message.unmaintainedNote = true ∧
        rec.message.subject =
          "[UNMAINTAINED] Package update available: " ++ rec.package_name) := by
  intro rec hrec
  unfold notify_package_update at hrec
  rcases hcase : get_latest_version_from_source db s "local" with _ | lv
  · rw [hcase] at hrec
    cases hrec
  · rw [hcase] at hrec
    simp only at hrec
    rcases List.mem_map.1 hrec with ⟨pm, _, rfl⟩
    refine ⟨(extract_eq_amended pm.2).symm ▸ rfl, rfl, ?_⟩
    intro hnone
    simp only at hnone ⊢
    rw [hnone]
    exact ⟨rfl, rfl, rfl⟩

/-- Witness for C8 amended at a concrete store with one unmaintained
package. -/
theorem claim_C8_witness :
    (⟨"p1", "s1", "1.0", "2.0", "nixos", none, none,
      ⟨"fb@example.org", "[UNMAINTAINED] Package update available: p1",
       true⟩⟩ : SendRecord) ∈
      notify_package_update
        (add_package_metadata
          (add_source_version emptyDB 0 "s1" "1.0" "local").1
          "s1" (some "p1") none none none none none none).1
        "s1" "2.0" "nixos" "fb@example.org" ∧
    ((⟨"p1", "s1", "1.0", "2.0", "nixos", none, none,
       ⟨"fb@example.org", "[UNMAINTAINED] Package update available: p1",
        true⟩⟩ : SendRecord).maintainer_email =
       claimAmendedExtract none ∧
     (⟨"p1", "s1", "1.0", "2.0", "nixos", none, none,
       ⟨"fb@example.org", "[UNMAINTAINED] Package update available: p1",
        true⟩⟩ : SendRecord).message =
       send_update_notification "fb@example.org" "p1" none ∧
     ((none : Option String) = none →
       ("fb@example.org" : String) = "fb@example.org" ∧
       true = true ∧
       ("[UNMAINTAINED] Package update available: p1" : String) =
         "[UNMAINTAINED] Package update available: " ++ "p1")) := by
  constructor
  · decide
  · exact claim_C8_amended
      (add_package_metadata
        (add_source_version emptyDB 0 "s1" "1.0" "local").1
        "s1" (some "p1") none none none none none none).1
      "s1" "2.0" "nixos" "fb@example.org" _ (by decide)

/-! ## C5: the version comparator is a strict total order -/

theorem natListCmp_refl (l : List Nat) : natListCmp l l = .eq := by
  induction l with
  | nil => rfl
  | cons a as ih =>
    simp only [natListCmp, Nat.lt_irrefl, if_false]
    exact ih

theorem natListCmp_swap (a b : List Nat) :
    natListCmp b a = (natListCmp a b).swap := by
  induction a generalizing b with
  | nil => cases b <;> rfl
  | cons x xs ih =>
    cases b with
    | nil => rfl
    | cons y ys =>
      rcases Nat.lt_trichotomy x y with h | h | h
      · simp [natListCmp, h, Nat.lt_asymm h, Ordering.swap]
      · subst h
        simp [natListCmp, Nat.lt_irrefl, ih ys]
      · simp [natListCmp, h, Nat.lt_asymm h, Ordering.swap]

theorem natListCmp_eq_iff (a b : List Nat) :
    natListCmp a b = .eq ↔ a = b := by
  constructor
  · intro h
    induction a generalizing b with
    | nil => cases b with
      | nil => rfl
      | cons y ys => simp [natListCmp] at h
    | cons x xs ih =>
      cases b with
      | nil => simp [natListCmp] at h
      | cons y ys =>
        simp only [natListCmp] at h
        by_cases h1 : x < y
        · rw [if_pos h1] at h; cases h
        · rw [if_neg h1] at h
          by_cases h2 : y < x
          · rw [if_pos h2] at h; cases h
          · rw [if_neg h2] at h
            have hxy : x = y := Nat.le_antisymm (Nat.not_lt.1 h2) (Nat.not_lt.1 h1)
            rw [hxy, ih ys h]
  · rintro rfl
    exact natListCmp_refl a

theorem natListCmp_trans_lt {a b c : List Nat}
    (h1 : natListCmp a b = .lt) (h2 : natListCmp b c = .lt) :
    natListCmp a c = .lt := by
  induction a generalizing b c with
  | nil =>
    cases b with
    | nil => cases h1
    | cons y ys =>
      cases c with
      | nil => cases h2
      | cons z zs => rfl
  | cons x xs ih =>
    cases b with
    | nil => cases h1
    | cons y ys =>
      cases c with
      | nil => cases h2
      | cons z zs =>
        simp only [natListCmp] at h1 h2 ⊢
        by_cases hxy : x < y
        · by_cases hyz : y < z
          · rw [if_pos (Nat.lt_trans hxy hyz)]
          · rw [if_neg hyz] at h2
            by_cases hzy : z < y
            · rw [if_pos hzy] at h2; cases h2
            · have : y = z := Nat.le_antisymm (Nat.not_lt.1 hzy) (Nat.not_lt.1 hyz)
              rw [if_pos (this ▸ hxy)]
        · rw [if_neg hxy] at h1
          by_cases hyx : y < x
          · rw [if_pos hyx] at h1; cases h1
          · rw [if_neg hyx] at h1
            have hxy2 : x = y := Nat.le_antisymm (Nat.not_lt.1 hyx) (Nat.not_lt.1 hxy)
            subst hxy2
            by_cases hxz : x < z
            · rw [if_pos hxz]
            · rw [if_neg hxz] at h2 ⊢
              by_cases hzx : z < x
              · rw [if_pos hzx] at h2; cases h2
              · rw [if_neg hzx] at h2 ⊢
                exact ih h1 h2

theorem version_compare2_lt_iff (a b : String) :
    version_compare2 a b = -1 ↔ natListCmp (verKey a) (verKey b) = .lt := by
  unfold version_compare2
  cases h : natListCmp (verKey a) (verKey b) <;> simp [h]

/-- C5: compare_two_versions induces a strict total order with reflexive
equality on version strings (reflexivity, antisymmetry of the three-way
result, transitivity of strictly-below), it works as a multi-way sort
key, and sorting the four versions of the claim ranks them ascending in
exactly the listed order; each adjacent pair also compares strictly
below. -/
theorem claim_C5_comparator_total_order :
    (∀ x : String × String × String, compare_two_versions x x = 0) ∧
    (∀ a b : String × String × String,
      compare_two_versions b a = - compare_two_versions a b) ∧
    (∀ a b c : String × String × String,
      compare_two_versions a b = -1 → compare_two_versions b c = -1 →
      compare_two_versions a c = -1) ∧
    sortCmp compare_two_versions
      [("2.0.0", "", ""), ("1.0.1", "", ""), ("2.0.0~rc1", "", ""),
       ("1.0.0", "", "")] =
      [("1.0.0", "", ""), ("1.0.1", "", ""), ("2.0.0~rc1", "", ""),
       ("2.0.0", "", "")] ∧
    compare_two_versions ("1.0.0", "", "") ("1.0.1", "", "") = -1 ∧
    compare_two_versions ("1.0.1", "", "") ("2.0.0~rc1", "", "") = -1 ∧
    compare_two_versions ("2.0.0~rc1", "", "") ("2.0.0", "", "") = -1 := by
  refine ⟨?_, ?_, ?_, by decide, by decide, by decide, by decide⟩
  · intro x
    unfold compare_two_versions version_compare2
    rw [natListCmp_refl]
  · intro a b
    unfold compare_two_versions version_compare2
    rw [natListCmp_swap (verKey a.1) (verKey b.1)]
    cases natListCmp (verKey a.1) (verKey b.1) <;> rfl
  · intro a b c h1 h2
    unfold compare_two_versions at h1 h2 ⊢
    rw [version_compare2_lt_iff] at h1 h2 ⊢
    exact natListCmp_trans_lt h1 h2

/-- Witness for C5: the transitivity conjunct applied at concrete
versions. -/
theorem claim_C5_witness :
    compare_two_versions ("1.0.0", "", "") ("1.0.1", "", "") = -1 ∧
    compare_two_versions ("1.0.1", "", "") ("2.0.0", "", "") = -1 ∧
    compare_two_versions ("1.0.0", "", "") ("2.0.0", "", "") = -1 :=
  ⟨by decide, by decide,
   claim_C5_comparator_total_order.2.2.1 ("1.0.0", "", "")
     ("1.0.1", "", "") ("2.0.0", "", "") (by decide) (by decide)⟩

/-! ## C6: search_sources matching, ordering and enrichment -/

theorem likeMatch_plain_nil (c : Char) (hc1 : c ≠ '%') (hc2 : c ≠ '_')
    (ps : List Char) :
    likeMatch (c :: ps) [] = false := by
  rw [likeMatch.eq_def]
  split
  all_goals first
    | rfl
    | (exact absurd rfl hc1)
    | (exact absurd rfl hc2)
    | simp_all

theorem likeMatch_plain_cons (c : Char) (hc1 : c ≠ '%') (hc2 : c ≠ '_')
    (ps : List Char) (d : Char) (s2 : List Char) :
    likeMatch (c :: ps) (d :: s2) =
      ((asciiFold c = asciiFold d) && likeMatch ps s2) := by
  rw [likeMatch.eq_def]
  split
  all_goals first
    | rfl
    | (exact absurd rfl hc1)
    | (exact absurd rfl hc2)
    | simp_all

theorem likeMatch_pct (ps s : List Char) :
    likeMatch ('%' :: ps) s = s.tails.any (fun t => likeMatch ps t) := by
  cases s <;> rfl

theorem likeMatch_lit_pct (p : List Char)
    (hp : ∀ c ∈ p, c ≠ '%' ∧ c ≠ '_') (s : List Char) :
    likeMatch (p ++ [ '%' ]) s = true ↔
      (p.map asciiFold) <+: (s.map asciiFold) := by
  induction p generalizing s with
  | nil =>
    simp only [List.nil_append, List.map_nil]
    constructor
    · intro _
      exact List.nil_prefix
    · intro _
      rw [likeMatch_pct]
      apply List.any_eq_true.2
      exact ⟨[], (List.mem_tails _ _).2 List.nil_suffix, rfl⟩
  | cons c p2 ih =>
    have hc := hp c (List.mem_cons_self _ _)
    cases s with
    | nil =>
      rw [List.cons_append, likeMatch_plain_nil c hc.1 hc.2]
      simp
    | cons d s2 =>
      rw [List.cons_append, likeMatch_plain_cons c hc.1 hc.2]
      simp only [List.map_cons, List.cons_prefix_cons, Bool.and_eq_true,
        decide_eq_true_eq]
      constructor
      · rintro ⟨h1, h2⟩
        exact ⟨h1, (ih (fun x hx => hp x (List.mem_cons_of_mem _ hx)) s2).1 h2⟩
      · rintro ⟨h1, h2⟩
        exact ⟨h1, (ih (fun x hx => hp x (List.mem_cons_of_mem _ hx)) s2).2 h2⟩

theorem likeMatch_pct_lit_pct (p : List Char)
    (hp : ∀ c ∈ p, c ≠ '%' ∧ c ≠ '_') (s : List Char) :
    likeMatch ('%' :: p ++ [ '%' ]) s = true ↔
      (p.map asciiFold) <:+: (s.map asciiFold) := by
  rw [List.cons_append, likeMatch_pct, List.any_eq_true]
  constructor
  · rintro ⟨t, hmem, hmatch⟩
    have hsuf : t <:+ s := (List.mem_tails _ _).1 hmem
    have hpre := (likeMatch_lit_pct p hp t).1 hmatch
    exact List.infix_iff_prefix_suffix.2
      ⟨t.map asciiFold, hpre, List.IsSuffix.map asciiFold hsuf⟩
  · intro hinf
    rcases List.infix_iff_prefix_suffix.1 hinf with ⟨u, hpre, hsuf⟩
    rcases hsuf with ⟨w, hw⟩
    rcases List.map_eq_append_iff.1 hw.symm with ⟨s1, s2, rfl, hm1, hm2⟩
    refine ⟨s2, (List.mem_tails _ _).2 (List.suffix_append s1 s2), ?_⟩
    apply (likeMatch_lit_pct p hp s2).2
    rw [hm2]
    exact hpre

theorem mapM_ok {β : Type} (f : String → Except String β) (g : String → β)
    (l : List String) (h : ∀ a ∈ l, f a = .ok (g a)) :
    l.mapM f = .ok (l.map g) := by
  induction l with
  | nil => rfl
  | cons x xs ih =>
    rw [List.mapM_cons, h x (List.mem_cons_self _ _),
      ih (fun a ha => h a (List.mem_cons_of_mem _ ha))]
    rfl

/-- C6 counterexample: with the single stored source Foo, searching for
the term foo returns the enriched record for Foo even though foo is not
a case-sensitive substring of Foo, so the matching is not
case-sensitive. -/
theorem claim_C6_counterexample :
    search_sources (add_source_version emptyDB 0 "Foo" "1.0" "local").1
      "foo" = Except.ok [⟨"Foo", "1.0", "1.0"⟩] ∧
    ¬ ("foo".data <:+: "Foo".data) := by
  exact ⟨by rfl, by decide⟩

/-- C6 amended: provided the search term contains no LIKE wildcard
characters and every matching source has a stored local version and at
least one version fact, search_sources returns normally with one
enriched record per source whose name contains the term as a
case-insensitive (ASCII) substring, listed in the store's ORDER BY name
order, each record carrying the stored local version and the overall
latest version of its source. -/
theorem claim_C6_amended (db : PackageDatabase) (term : String)
    (hterm : ∀ c ∈ term.data, c ≠ '%' ∧ c ≠ '_')
    (hlocal : ∀ n ∈ db.sources.map SourceRow.name,
      (term.data.map asciiFold) <:+: (n.data.map asciiFold) →
      get_latest_version_from_source db n "local" ≠ none ∧
      get_latest_version db n ≠ none) :
    ∃ l, search_sources db term = .ok l ∧
      l.map SearchRecord.name =
        sortStrings ((db.sources.map SourceRow.name).filter
          (fun n => decide
            ((term.data.map asciiFold) <:+: (n.data.map asciiFold)))) ∧
      ∀ rec ∈ l,
        some rec.local_version =
          (get_latest_version_from_source db rec.name "local").map Prod.fst ∧
        some rec.latest_version =
          (get_latest_version db rec.name).map Prod.snd := by
  have hfilter :
      (db.sources.map SourceRow.name).filter
        (fun n => likeMatch ('%' :: term.data ++ [ '%' ]) n.data) =
      (db.sources.map SourceRow.name).filter
        (fun n => decide
          ((term.data.map asciiFold) <:+: (n.data.map asciiFold))) := by
    apply List.filter_congr
    intro n _
    rcases hlm : likeMatch ('%' :: term.data ++ [ '%' ]) n.data with _ | _
    · have hnot : ¬ ((term.data.map asciiFold) <:+: (n.data.map asciiFold)) := by
        intro hP
        have h2 := (likeMatch_pct_lit_pct term.data hterm n.data).2 hP
        rw [hlm] at h2
        cases h2
      simp [hnot]
    · have hyes := (likeMatch_pct_lit_pct term.data hterm n.data).1 hlm
      simp [hyes]
  have hmem_names : ∀ n ∈ sortStrings ((db.sources.map SourceRow.name).filter
      (fun n => likeMatch ('%' :: term.data ++ [ '%' ]) n.data)),
      n ∈ db.sources.map SourceRow.name ∧
      (term.data.map asciiFold) <:+: (n.data.map asciiFold) := by
    intro n hn
    have hn2 := mem_sortStrings.1 hn
    have hn3 := List.mem_filter.1 hn2
    exact ⟨hn3.1, (likeMatch_pct_lit_pct term.data hterm n.data).1 hn3.2⟩
  let g : String → SearchRecord := fun n =>
    ⟨n, ((get_latest_version_from_source db n "local").getD ("", 0)).1,
     ((get_latest_version db n).getD ("", "")).2⟩
  refine ⟨(sortStrings ((db.sources.map SourceRow.name).filter
    (fun n => likeMatch ('%' :: term.data ++ [ '%' ]) n.data))).map g,
    ?_, ?_, ?_⟩
  · unfold search_sources
    apply mapM_ok
    intro n hn
    rcases hmem_names n hn with ⟨hmemdb, hinf⟩
    rcases hlocal n hmemdb hinf with ⟨h1, h2⟩
    rcases hv1 : get_latest_version_from_source db n "local" with _ | lv
    · exact absurd hv1 h1
    · rcases hv2 : get_latest_version db n with _ | latest
      · exact absurd hv2 h2
      · simp only [g, hv1, hv2, Option.getD_some]
  · rw [List.map_map]
    rw [hfilter]
    have : (SearchRecord.name ∘ g) = id := by
      funext n
      rfl
    rw [this, List.map_id]
  · intro rec hrec
    rcases List.mem_map.1 hrec with ⟨n, hn, rfl⟩
    rcases hmem_names n hn with ⟨hmemdb, hinf⟩
    rcases hlocal n hmemdb hinf with ⟨h1, h2⟩
    rcases hv1 : get_latest_version_from_source db n "local" with _ | lv
    · exact absurd hv1 h1
    · rcases hv2 : get_latest_version db n with _ | latest
      · exact absurd hv2 h2
      · simp [g, hv1, hv2]

/-- Witness for C6 amended on a concrete store holding the source Foo
with a local version fact. -/
theorem claim_C6_witness :
    (∀ c ∈ "foo".data, c ≠ '%' ∧ c ≠ '_') ∧
    (∀ n ∈ (add_source_version emptyDB 0 "Foo" "1.0" "local").1.sources.map
        SourceRow.name,
      ("foo".data.map asciiFold) <:+: (n.data.map asciiFold) →
      get_latest_version_from_source
        (add_source_version emptyDB 0 "Foo" "1.0" "local").1 n "local" ≠
        none ∧
      get_latest_version (add_source_version emptyDB 0 "Foo" "1.0" "local").1
        n ≠ none) ∧
    ∃ l, search_sources (add_source_version emptyDB 0 "Foo" "1.0" "local").1
        "foo" = .ok l ∧
      l.map SearchRecord.name =
        sortStrings
          (((add_source_version emptyDB 0 "Foo" "1.0" "local").1.sources.map
            SourceRow.name).filter
          (fun n => decide
            (("foo".data.map asciiFold) <:+: (n.data.map asciiFold)))) ∧
      ∀ rec ∈ l,
        some rec.local_version =
          (get_latest_version_from_source
            (add_source_version emptyDB 0 "Foo" "1.0" "local").1 rec.name
            "local").map Prod.fst ∧
        some rec.latest_version =
          (get_latest_version
            (add_source_version emptyDB 0 "Foo" "1.0" "local").1
            rec.name).map Prod.snd :=
  ⟨by decide, by decide,
   claim_C6_amended (add_source_version emptyDB 0 "Foo" "1.0" "local").1
     "foo" (by decide) (by decide)⟩

/-! ## Reconciler step lemmas -/

theorem add_source_version_packages (db : PackageDatabase) (now : Nat)
    (s v o : String) :
    (add_source_version db now s v o).1.packages = db.packages := by
  simp only [add_source_version]
  rcases hfind : (ensureSource db s).sources.find? (fun x => x.name = s) with
    _ | srow
  · rw [hfind]
    exact ensureSource_packages db s
  · rw [hfind]
    exact ensureSource_packages db s

theorem add_package_metadata_sources (db : PackageDatabase)
    (sn : String) (nm m hu li ca su de : Option String) :
    (add_package_metadata db sn nm m hu li ca su de).1.sources = db.sources ∧
    (add_package_metadata db sn nm m hu li ca su de).1.versions =
      db.versions ∧
    (add_package_metadata db sn nm m hu li ca su de).1.nextSourceId =
      db.nextSourceId := by
  unfold add_package_metadata
  rcases hfind : db.sources.find? (fun s => s.name = sn) with _ | srow
  · rw [hfind]
    exact ⟨rfl, rfl, rfl⟩
  · rw [hfind]
    dsimp only
    split <;> exact ⟨rfl, rfl, rfl⟩

theorem add_package_metadata_rows_sub (db : PackageDatabase)
    (sn : String) (nm m hu li ca su de : Option String) :
    ∀ row ∈ (add_package_metadata db sn nm m hu li ca su de).1.packages,
      row.name = nm.getD sn ∨ row ∈ db.packages := by
  unfold add_package_metadata
  rcases hfind : db.sources.find? (fun s => s.name = sn) with _ | srow
  · rw [hfind]
    exact fun row hrow => Or.inr hrow
  · rw [hfind]
    dsimp only
    split
    · intro row hrow
      rcases List.mem_map.1 hrow with ⟨p0, hp0, rfl⟩
      by_cases hp : p0.name = nm.getD sn
      · rw [if_pos hp]
        exact Or.inl rfl
      · rw [if_neg hp]
        exact Or.inr hp0
    · intro row hrow
      rcases List.mem_append.1 hrow with h | h
      · exact Or.inr h
      · simp only [List.mem_singleton] at h
        rw [h]
        exact Or.inl rfl

theorem get_package_by_name_none (db : PackageDatabase) (n : String)
    (h : ∀ row ∈ db.packages, row.name ≠ n) :
    get_package_by_name db n = none := by
  unfold get_package_by_name
  have : db.packages.filter (fun p => p.name = n) = [] :=
    List.filter_eq_nil_iff.2 (fun p hp => by simpa using h p hp)
  rw [this]
  rfl

theorem sourceStep_events_eq (ex ups : List String)
    (prov : String → Option String) (now : Nat)
    (st : PackageDatabase × List Event) (s : SnapshotSource) :
    ∃ new : List Event, (sourceStep ex ups prov now st s).2 = st.2 ++ new ∧
      ∀ e ∈ new, ∃ v o,
        (e = .localVersionUpdated s.name v o ∨
         e = .upstreamVersionUpdated s.name v o) ∧
        ex.contains s.name = true := by
  unfold sourceStep
  refine foldl_preserve
    (fun (st2 : PackageDatabase × List Event) => ∃ new,
      st2.2 = st.2 ++ new ∧ ∀ e ∈ new, ∃ v o,
      (e = .localVersionUpdated s.name v o ∨
       e = .upstreamVersionUpdated s.name v o) ∧
      ex.contains s.name = true) _ ups ?_ _ ?_
  · rintro st2 up hup ⟨new, hnew, hq⟩
    split
    · rcases prov s.name with _ | uv
      · exact ⟨new, hnew, hq⟩
      · dsimp only
        split
        · exact ⟨new, hnew, hq⟩
        · split
          · rcases hc : ex.contains s.name with _ | _
            · simp only [Bool.not_false]
              rw [if_pos trivial]
              refine ⟨new, hnew, ?_⟩
              intro e he
              rcases hq e he with ⟨v, o, hvo, hct⟩
              exact ⟨v, o, hvo, hc.symm.trans hct⟩
            · simp only [Bool.not_true]
              rw [if_neg (by simp)]
              refine ⟨new ++ [.upstreamVersionUpdated s.name uv up],
                by rw [hnew, List.append_assoc], ?_⟩
              intro e he
              rcases List.mem_append.1 he with h | h
              · rcases hq e h with ⟨v, o, hvo, _⟩
                exact ⟨v, o, hvo, trivial⟩
              · simp only [List.mem_singleton] at h
                exact ⟨uv, up, Or.inr h, trivial⟩
          · exact ⟨new, hnew, hq⟩
    · exact ⟨new, hnew, hq⟩
  · dsimp only
    split
    · rcases hc : ex.contains s.name with _ | _
      · simp only [Bool.not_false]
        rw [if_pos trivial]
        exact ⟨[], by rw [List.append_nil], by intro e he; cases he⟩
      · simp only [Bool.not_true]
        rw [if_neg (by simp)]
        refine ⟨[.localVersionUpdated s.name
          (effectiveLocalVersion s.version) "local"], rfl, ?_⟩
        intro e he
        simp only [List.mem_singleton] at he
        exact ⟨effectiveLocalVersion s.version, "local", Or.inl he, trivial⟩
    · exact ⟨[], by rw [List.append_nil], by intro e he; cases he⟩

theorem sourceStep_packages (ex ups : List String)
    (prov : String → Option String) (now : Nat)
    (st : PackageDatabase × List Event) (s : SnapshotSource) :
    (sourceStep ex ups prov now st s).1.packages = st.1.packages := by
  unfold sourceStep
  refine foldl_preserve
    (fun (st2 : PackageDatabase × List Event) =>
      st2.1.packages = st.1.packages) _ ups ?_ _ ?_
  · intro st2 up hup h2
    dsimp only
    split
    · rcases prov s.name with _ | uv
      · exact h2
      · dsimp only
        split
        · exact h2
        · split
          · rw [← h2]
            exact add_source_version_packages st2.1 now s.name uv up
          · exact h2
    · exact h2
  · dsimp only
    split
    · exact add_source_version_packages st.1 now s.name
        (effectiveLocalVersion s.version) "local"
    · rfl

theorem packageStep_events_eq (st : PackageDatabase × List Event)
    (p : SnapshotPackage) :
    (packageStep st p).2 = st.2 ++
      (if get_package_by_name st.1 p.name = none then
        [Event.packageAdded p.name p.source] else []) := by
  unfold packageStep
  split <;> simp_all

theorem packageStep_db (st : PackageDatabase × List Event)
    (p : SnapshotPackage) :
    (packageStep st p).1 =
      (add_package_metadata st.1 p.source (some p.name) p.maintainer
        p.homepage_url p.license p.category p.summary p.description).1 := rfl

theorem removedPackageStep_events_eq (st : PackageDatabase × List Event)
    (n : String) :
    (removedPackageStep st n).2 = st.2 ++
      (match get_package_by_name st.1 n with
       | some pr => [Event.packageRemoved n pr.2]
       | none => []) ++ [Event.deletePackageCall n] := by
  unfold removedPackageStep
  rcases get_package_by_name st.1 n with _ | pr
  · simp
  · simp

theorem removedPackageStep_db (st : PackageDatabase × List Event)
    (n : String) :
    (removedPackageStep st n).1 = (delete_package st.1 n).1 := rfl

theorem removedSourceStep_unfold (st : PackageDatabase × List Event)
    (n : String) :
    (removedSourceStep st n).1 =
      (delete_source
        ((get_packages_by_source_name st.1 n).foldl
          (fun db2 p => (delete_package db2 p.name).1) st.1) n).1 ∧
    (removedSourceStep st n).2 = st.2 ++
      (get_packages_by_source_name st.1 n).flatMap
        (fun p => [Event.packageRemoved p.name n,
                   Event.deletePackageCall p.name]) ++
      [Event.deleteSourceCall n] := by
  unfold removedSourceStep
  have key : ∀ (pks : List PackageRow) (st0 : PackageDatabase × List Event),
      (pks.foldl (fun st2 p =>
        ((delete_package st2.1 p.name).1,
         st2.2 ++ [Event.packageRemoved p.name n,
                   Event.deletePackageCall p.name])) st0) =
      ((pks.foldl (fun db2 p => (delete_package db2 p.name).1) st0.1),
       st0.2 ++ pks.flatMap
         (fun p => [Event.packageRemoved p.name n,
                    Event.deletePackageCall p.name])) := by
    intro pks
    induction pks with
    | nil => intro st0; simp
    | cons q qs ih =>
      intro st0
      simp only [List.foldl_cons, List.flatMap_cons]
      rw [ih]
      simp [List.append_assoc]
  dsimp only
  rw [key]
  exact ⟨rfl, rfl⟩

/-! ## Phase-level lemmas about update_database -/

theorem update_database_phases (db0 : PackageDatabase) (snap : Snapshot)
    (ups : List String) (prov : String → Option String) (now : Nat) :
    update_database db0 snap ups prov now =
      ((get_all_source_names db0).filter
        (fun n => !((snap.sources.map SnapshotSource.name).contains n))).foldl
        removedSourceStep
        (((get_all_package_names db0).filter
          (fun n => !((snap.pkgs.map SnapshotPackage.name).contains n))).foldl
          removedPackageStep
          (snap.pkgs.foldl packageStep
            (snap.sources.foldl
              (sourceStep (get_all_source_names db0) ups prov now)
              (db0, [])))) := rfl

theorem filter_append_nonmatching {q : Event → Bool} {evs new : List Event}
    (h : ∀ e ∈ new, q e = false) :
    (evs ++ new).filter q = evs.filter q := by
  rw [List.filter_append]
  have hnil : new.filter q = [] :=
    List.filter_eq_nil_iff.2
      (fun e he => by rw [h e he]; exact Bool.false_ne_true)
  rw [hnil, List.append_nil]

theorem srcphase_filter (q : Event → Bool) (S : List SnapshotSource)
    (ex ups : List String) (prov : String → Option String) (now : Nat)
    (st : PackageDatabase × List Event)
    (hq : ∀ s ∈ S, ex.contains s.name = true → ∀ v o,
      q (.localVersionUpdated s.name v o) = false ∧
      q (.upstreamVersionUpdated s.name v o) = false) :
    ((S.foldl (sourceStep ex ups prov now) st).2).filter q =
      st.2.filter q := by
  refine foldl_preserve
    (fun (st2 : PackageDatabase × List Event) =>
      st2.2.filter q = st.2.filter q) _ S ?_ _ rfl
  intro st2 s hs h2
  rcases sourceStep_events_eq ex ups prov now st2 s with ⟨new, hnew, hprop⟩
  rw [hnew, filter_append_nonmatching, h2]
  intro e he
  rcases hprop e he with ⟨v, o, hvo, hcont⟩
  rcases hvo with rfl | rfl
  · exact (hq s hs hcont v o).1
  · exact (hq s hs hcont v o).2

theorem srcphase_packages (S : List SnapshotSource) (ex ups : List String)
    (prov : String → Option String) (now : Nat)
    (st : PackageDatabase × List Event) :
    (S.foldl (sourceStep ex ups prov now) st).1.packages =
      st.1.packages := by
  refine foldl_preserve
    (fun (st2 : PackageDatabase × List Event) =>
      st2.1.packages = st.1.packages) _ S ?_ _ rfl
  intro st2 s hs h2
  rw [sourceStep_packages, h2]

theorem pkgphase_filter (q : Event → Bool) (L : List SnapshotPackage)
    (st : PackageDatabase × List Event)
    (hq : ∀ p ∈ L, ∀ s2, q (.packageAdded p.name s2) = false) :
    ((L.foldl packageStep st).2).filter q = st.2.filter q := by
  refine foldl_preserve
    (fun (st2 : PackageDatabase × List Event) =>
      st2.2.filter q = st.2.filter q) _ L ?_ _ rfl
  intro st2 p hp h2
  rw [packageStep_events_eq, filter_append_nonmatching, h2]
  intro e he
  split at he
  · simp only [List.mem_singleton] at he
    rw [he]
    exact hq p hp p.source
  · cases he

theorem pkgphase_rows (pk : String) (L : List SnapshotPackage)
    (st : PackageDatabase × List Event)
    (hL : ∀ p ∈ L, p.name ≠ pk)
    (h1 : ∀ row ∈ st.1.packages, row.name ≠ pk) :
    ∀ row ∈ (L.foldl packageStep st).1.packages, row.name ≠ pk := by
  refine foldl_preserve
    (fun (st2 : PackageDatabase × List Event) =>
      ∀ row ∈ st2.1.packages, row.name ≠ pk) _ L ?_ _ h1
  intro st2 p hp h2 row hrow
  rw [packageStep_db] at hrow
  rcases add_package_metadata_rows_sub st2.1 p.source (some p.name)
    p.maintainer p.homepage_url p.license p.category p.summary p.description
    row hrow with h | h
  · rw [h]
    exact hL p hp
  · exact h2 row h

theorem rempkgphase_filter (q : Event → Bool) (R : List String)
    (st : PackageDatabase × List Event)
    (hq : ∀ n ∈ R, ∀ s2, q (.packageRemoved n s2) = false ∧
      q (.deletePackageCall n) = false) :
    ((R.foldl removedPackageStep st).2).filter q = st.2.filter q := by
  refine foldl_preserve
    (fun (st2 : PackageDatabase × List Event) =>
      st2.2.filter q = st.2.filter q) _ R ?_ _ rfl
  intro st2 n hn h2
  rw [removedPackageStep_events_eq, List.append_assoc,
    filter_append_nonmatching, h2]
  intro e he
  rcases List.mem_append.1 he with h | h
  · split at h
    · simp only [List.mem_singleton] at h
      rw [h]
      exact (hq n hn _).1
    · cases h
  · simp only [List.mem_singleton] at h
    rw [h]
    exact (hq n hn "").2

theorem remsrcphase_filter (q : Event → Bool) (R : List String)
    (st : PackageDatabase × List Event)
    (hq : ∀ n ∈ R, ∀ m, q (.packageRemoved m n) = false ∧
      q (.deletePackageCall m) = false ∧ q (.deleteSourceCall n) = false) :
    ((R.foldl removedSourceStep st).2).filter q = st.2.filter q := by
  refine foldl_preserve
    (fun (st2 : PackageDatabase × List Event) =>
      st2.2.filter q = st.2.filter q) _ R ?_ _ rfl
  intro st2 n hn h2
  rw [(removedSourceStep_unfold st2 n).2, List.append_assoc,
    filter_append_nonmatching, h2]
  intro e he
  rcases List.mem_append.1 he with h | h
  · rcases List.mem_flatMap.1 h with ⟨p, hp, hmem⟩
    simp only [List.mem_cons, List.not_mem_nil, or_false] at hmem
    rcases hmem with rfl | rfl
    · exact (hq n hn p.name).1
    · exact (hq n hn p.name).2.1
  · simp only [List.mem_singleton] at h
    rw [h]
    exact (hq n hn "").2.2

theorem count_one_split (pkgs : List SnapshotPackage) (pk : String)
    (h : (pkgs.map SnapshotPackage.name).count pk = 1) :
    ∃ L1 p L2, pkgs = L1 ++ p :: L2 ∧ p.name = pk ∧
      (∀ x ∈ L1, x.name ≠ pk) ∧ (∀ x ∈ L2, x.name ≠ pk) := by
  induction pkgs with
  | nil => simp at h
  | cons q qs ih =>
    rw [List.map_cons, List.count_cons] at h
    by_cases hq : q.name = pk
    · have hbeq : (q.name == pk) = true := by simp [hq]
      rw [hbeq] at h
      simp only [if_pos] at h
      have hz : (qs.map SnapshotPackage.name).count pk = 0 :=
        Nat.succ_injective h
      have hnot := List.count_eq_zero.1 hz
      refine ⟨[], q, qs, rfl, hq, ?_, ?_⟩
      · intro x hx
        cases hx
      · intro x hx hxn
        exact hnot (hxn ▸ List.mem_map_of_mem SnapshotPackage.name hx)
    · have hbeq : (q.name == pk) = false := by simp [hq]
      rw [hbeq] at h
      simp only [if_neg, Bool.false_eq_true, Nat.add_zero] at h
      rcases ih h with ⟨L1, p, L2, hsplit, hpname, hL1, hL2⟩
      refine ⟨q :: L1, p, L2, by rw [hsplit]; rfl, hpname, ?_, hL2⟩
      intro x hx
      rcases List.mem_cons.1 hx with rfl | hx2
      · exact hq
      · exact hL1 x hx2

/-! ## C4: first-ever appearance suppression -/

/-- C4: when a source name is absent from the store at the start of a
cycle, update_database never fires on_local_version_updated or
on_upstream_version_updated for it during that cycle; and when a package
name is absent from the store at the start and appears once in the
snapshot, on_package_added fires exactly once for it. -/
theorem claim_C4_first_appearance (db0 : PackageDatabase) (snap : Snapshot)
    (ups : List String) (prov : String → Option String) (now : Nat)
    (sn pk : String)
    (hsn : sn ∉ db0.sources.map SourceRow.name)
    (hpk0 : pk ∉ db0.packages.map PackageRow.name)
    (hpk1 : (snap.pkgs.map SnapshotPackage.name).count pk = 1) :
    (∀ v o,
      Event.localVersionUpdated sn v o ∉
        (update_database db0 snap ups prov now).2 ∧
      Event.upstreamVersionUpdated sn v o ∉
        (update_database db0 snap ups prov now).2) ∧
    ((update_database db0 snap ups prov now).2.filter
      (isPackageAddedFor pk)).length = 1 := by
  have hcontain : ∀ s : SnapshotSource,
      (get_all_source_names db0).contains s.name = true → s.name ≠ sn := by
    intro s hc heq
    apply hsn
    rw [← heq]
    exact mem_sortStrings.1 (by simpa [get_all_source_names] using hc)
  constructor
  · intro v o
    have hfilter : ((update_database db0 snap ups prov now).2.filter
        (isVersionUpdFor sn)) = [] := by
      have hq1 : ∀ s ∈ snap.sources,
          (get_all_source_names db0).contains s.name = true → ∀ v2 o2,
          isVersionUpdFor sn (.localVersionUpdated s.name v2 o2) = false ∧
          isVersionUpdFor sn (.upstreamVersionUpdated s.name v2 o2) =
            false := by
        intro s hs hc v2 o2
        have hne := hcontain s hc
        constructor
        · simp [isVersionUpdFor, hne]
        · simp [isVersionUpdFor, hne]
      rw [update_database_phases]
      rw [remsrcphase_filter _ _ _ (fun n _ m => ⟨rfl, rfl, rfl⟩)]
      rw [rempkgphase_filter _ _ _ (fun n _ s2 => ⟨rfl, rfl⟩)]
      rw [pkgphase_filter _ _ _ (fun p hp s2 => rfl)]
      rw [srcphase_filter _ _ _ _ _ _ _ hq1]
      rfl
    constructor
    · intro hmem
      have : Event.localVersionUpdated sn v o ∈
          ((update_database db0 snap ups prov now).2.filter
            (isVersionUpdFor sn)) :=
        List.mem_filter.2 ⟨hmem, by simp [isVersionUpdFor]⟩
      rw [hfilter] at this
      cases this
    · intro hmem
      have : Event.upstreamVersionUpdated sn v o ∈
          ((update_database db0 snap ups prov now).2.filter
            (isVersionUpdFor sn)) :=
        List.mem_filter.2 ⟨hmem, by simp [isVersionUpdFor]⟩
      rw [hfilter] at this
      cases this
  · rcases count_one_split snap.pkgs pk hpk1 with
      ⟨L1, p, L2, hsplit, hpname, hL1, hL2⟩
    rw [update_database_phases]
    rw [remsrcphase_filter _ _ _ (fun n _ m => ⟨rfl, rfl, rfl⟩)]
    rw [rempkgphase_filter _ _ _ (fun n _ s2 => ⟨rfl, rfl⟩)]
    have hst1pkgs : (snap.sources.foldl
        (sourceStep (get_all_source_names db0) ups prov now)
        (db0, ([] : List Event))).1.packages = db0.packages :=
      srcphase_packages _ _ _ _ _ _
    have hst1filter : ((snap.sources.foldl
        (sourceStep (get_all_source_names db0) ups prov now)
        (db0, ([] : List Event))).2).filter (isPackageAddedFor pk) = [] := by
      rw [srcphase_filter _ _ _ _ _ _ _ (fun s hs hc v o => ⟨rfl, rfl⟩)]
      rfl
    rw [hsplit, List.foldl_append]
    set stA := L1.foldl packageStep
      (snap.sources.foldl
        (sourceStep (get_all_source_names db0) ups prov now)
        (db0, ([] : List Event))) with hstA
    have hrows0 : ∀ row ∈ (snap.sources.foldl
        (sourceStep (get_all_source_names db0) ups prov now)
        (db0, ([] : List Event))).1.packages, row.name ≠ pk := by
      rw [hst1pkgs]
      intro row hrow hcontra
      exact hpk0 (hcontra ▸ List.mem_map_of_mem PackageRow.name hrow)
    have hrowsA : ∀ row ∈ stA.1.packages, row.name ≠ pk :=
      pkgphase_rows pk L1 _ hL1 hrows0
    have hfilterA : stA.2.filter (isPackageAddedFor pk) = [] := by
      rw [hstA, pkgphase_filter _ _ _
        (fun x hx s2 => by simp [isPackageAddedFor, hL1 x hx]), hst1filter]
    have hnone : get_package_by_name stA.1 p.name = none := by
      apply get_package_by_name_none
      intro row hrow
      rw [hpname]
      exact hrowsA row hrow
    rw [List.foldl_cons]
    rw [pkgphase_filter _ _ _
      (fun x hx s2 => by simp [isPackageAddedFor, hL2 x hx])]
    rw [packageStep_events_eq, if_pos hnone, List.filter_append, hfilterA]
    simp [isPackageAddedFor, hpname]

/-- Witness for C4 on a concrete empty store and one-source snapshot. -/
theorem claim_C4_witness :
    ("s1" ∉ emptyDB.sources.map SourceRow.name) ∧
    ("p1" ∉ emptyDB.packages.map PackageRow.name) ∧
    ((snapOne.pkgs.map SnapshotPackage.name).count "p1" = 1) ∧
    (Event.localVersionUpdated "s1" "1.0" "local" ∉
      (update_database emptyDB snapOne [] noProvider 5).2 ∧
     Event.upstreamVersionUpdated "s1" "1.0" "local" ∉
      (update_database emptyDB snapOne [] noProvider 5).2) ∧
    ((update_database emptyDB snapOne [] noProvider 5).2.filter
      (isPackageAddedFor "p1")).length = 1 :=
  ⟨by decide, by decide, by decide,
   (claim_C4_first_appearance emptyDB snapOne [] noProvider 5 "s1" "p1"
     (by decide) (by decide) (by decide)).1 "1.0" "local",
   (claim_C4_first_appearance emptyDB snapOne [] noProvider 5 "s1" "p1"
     (by decide) (by decide) (by decide)).2⟩

/-! ## Store lemmas for the removal claims -/

theorem add_source_version_sources (db : PackageDatabase) (now : Nat)
    (s v o : String) :
    (add_source_version db now s v o).1.sources =
      (ensureSource db s).sources := by
  simp only [add_source_version]
  rcases hfind : (ensureSource db s).sources.find? (fun x => x.name = s) with
    _ | srow
  · rw [hfind]
  · rw [hfind]

theorem delete_package_sources (db : PackageDatabase) (n : String) :
    (delete_package db n).1.sources = db.sources := rfl

theorem delete_package_rows_sub (db : PackageDatabase) (n : String) :
    ∀ row ∈ (delete_package db n).1.packages, row ∈ db.packages :=
  fun _ hrow => (List.mem_filter.1 hrow).1

theorem delete_package_keep (db : PackageDatabase) (n : String)
    (row : PackageRow) (hrow : row ∈ db.packages) (hne : row.name ≠ n) :
    row ∈ (delete_package db n).1.packages :=
  List.mem_filter.2 ⟨hrow, by simp [hne]⟩

theorem delete_package_gone (db : PackageDatabase) (n : String) :
    ∀ row ∈ (delete_package db n).1.packages, row.name ≠ n := by
  intro row hrow
  have := (List.mem_filter.1 hrow).2
  simpa using this

theorem delete_package_nodup (db : PackageDatabase) (n : String)
    (h : (db.packages.map PackageRow.name).Nodup) :
    ((delete_package db n).1.packages.map PackageRow.name).Nodup :=
  List.Nodup.sublist (List.Sublist.map _ (List.filter_sublist _)) h

theorem delete_source_packages (db : PackageDatabase) (n : String) :
    (delete_source db n).1.packages = db.packages := by
  unfold delete_source
  rcases hfind : db.sources.find? (fun s => s.name = n) with _ | srow
  · rw [hfind]
  · rw [hfind]

theorem delete_source_sources_sub (db : PackageDatabase) (n : String) :
    ∀ x ∈ (delete_source db n).1.sources, x ∈ db.sources := by
  unfold delete_source
  rcases hfind : db.sources.find? (fun s => s.name = n) with _ | srow
  · rw [hfind]
    exact fun x hx => hx
  · rw [hfind]
    exact fun x hx => (List.mem_filter.1 hx).1

theorem add_package_metadata_other_rows (db : PackageDatabase)
    (sn : String) (nm m hu li ca su de : Option String)
    (row : PackageRow) (hrow : row ∈ db.packages)
    (hne : row.name ≠ nm.getD sn) :
    row ∈ (add_package_metadata db sn nm m hu li ca su de).1.packages := by
  unfold add_package_metadata
  rcases hfind : db.sources.find? (fun s => s.name = sn) with _ | srow
  · rw [hfind]
    exact hrow
  · rw [hfind]
    dsimp only
    split
    · refine List.mem_map.2 ⟨row, hrow, ?_⟩
      rw [if_neg hne]
    · exact List.mem_append_left _ hrow

theorem add_package_metadata_names_nodup (db : PackageDatabase)
    (sn : String) (nm m hu li ca su de : Option String)
    (h : (db.packages.map PackageRow.name).Nodup) :
    ((add_package_metadata db sn nm m hu li ca su de).1.packages.map
      PackageRow.name).Nodup := by
  unfold add_package_metadata
  rcases hfind : db.sources.find? (fun s => s.name = sn) with _ | srow
  · rw [hfind]
    exact h
  · rw [hfind]
    dsimp only
    split
    · have hmaps : (db.packages.map (fun p =>
          if p.name = nm.getD sn then
            (⟨nm.getD sn, srow.id, m, hu, li, ca, su, de⟩ : PackageRow)
          else p)).map PackageRow.name = db.packages.map PackageRow.name := by
        rw [List.map_map]
        apply List.map_congr_left
        intro p hp
        by_cases hn : p.name = nm.getD sn
        · simp [hn]
        · simp [hn]
      rw [hmaps]
      exact h
    · rename_i hany
      rw [List.map_append, List.nodup_append]
      refine ⟨h, List.nodup_singleton _, ?_⟩
      intro a ha hb
      simp only [List.map_cons, List.map_nil, List.mem_singleton] at hb
      rcases List.mem_map.1 ha with ⟨p0, hp0, hp0n⟩
      apply hany
      apply List.any_eq_true.2
      exact ⟨p0, hp0, by simp [hp0n, hb]⟩

theorem WF_add_package_metadata (db : PackageDatabase)
    (sn : String) (nm m hu li ca su de : Option String) (hwf : WF db) :
    WF (add_package_metadata db sn nm m hu li ca su de).1 := by
  obtain ⟨hsn2, hsi, hpn, hslt, hvlt⟩ := hwf
  rcases add_package_metadata_sources db sn nm m hu li ca su de with
    ⟨hs, hv, hn⟩
  refine ⟨?_, ?_, add_package_metadata_names_nodup db sn nm m hu li ca su de
    hpn, ?_, ?_⟩
  · rw [hs]; exact hsn2
  · rw [hs]; exact hsi
  · rw [hs, hn]; exact hslt
  · rw [hv, hn]; exact hvlt

theorem filter_name_single (l : List PackageRow) (p : String)
    (hnd : (l.map PackageRow.name).Nodup) (row : PackageRow)
    (hmem : row ∈ l) (hname : row.name = p) :
    l.filter (fun q => q.name = p) = [row] := by
  induction l with
  | nil => cases hmem
  | cons q qs ih =>
    simp only [List.map_cons, List.nodup_cons] at hnd
    rcases List.mem_cons.1 hmem with rfl | hmem2
    · rw [List.filter_cons, if_pos (by simp [hname])]
      congr 1
      apply List.filter_eq_nil_iff.2
      intro x hx
      simp only [decide_eq_true_eq]
      intro hcontra
      apply hnd.1
      rw [hname, ← hcontra]
      exact List.mem_map_of_mem PackageRow.name hx
    · rw [List.filter_cons, if_neg ?_]
      · exact ih hnd.2 hmem2
      · simp only [decide_eq_true_eq]
        intro hcontra
        apply hnd.1
        rw [hcontra, ← hname]
        exact List.mem_map_of_mem PackageRow.name hmem2

theorem get_package_by_name_unique (db : PackageDatabase) (p : String)
    (hnd : (db.packages.map PackageRow.name).Nodup)
    (hids : (db.sources.map SourceRow.id).Nodup)
    (row : PackageRow) (hrow : row ∈ db.packages) (hname : row.name = p)
    (srow2 : SourceRow) (hsrow2 : srow2 ∈ db.sources)
    (hid : srow2.id = row.source_id) :
    get_package_by_name db p = some (row, srow2.name) := by
  unfold get_package_by_name
  rw [filter_name_single db.packages p hnd row hrow hname]
  have hfind : db.sources.find? (fun s => s.id = row.source_id) =
      some srow2 := by
    apply find?_eq_of_nodup_key _ _ _ hsrow2 (by simp [hid])
    intro y hy hk
    exact map_nodup_inj SourceRow.id db.sources hids hy hsrow2
      (by rw [hid]; simpa using hk)
  simp [List.findSome?, hfind]

theorem mem_nodup_split {l : List String} {a : String} (h : a ∈ l)
    (hnd : l.Nodup) :
    ∃ l1 l2, l = l1 ++ a :: l2 ∧ a ∉ l1 ∧ a ∉ l2 := by
  rcases List.append_of_mem h with ⟨s, t, rfl⟩
  rw [List.nodup_append] at hnd
  refine ⟨s, t, rfl, ?_, ?_⟩
  · intro hmem
    exact hnd.2.2 hmem (List.mem_cons_self _ _)
  · exact (List.nodup_cons.1 hnd.2.1).1

/-! ## Phase lemmas for the removal claims -/

theorem add_source_version_sources_sub (db : PackageDatabase) (now : Nat)
    (s v o : String) (x : SourceRow) (hx : x ∈ db.sources) :
    x ∈ (add_source_version db now s v o).1.sources := by
  rw [add_source_version_sources]
  exact ensureSource_sources_sub db s x hx

theorem sourceStep_WF_mem (ex ups : List String)
    (prov : String → Option String) (now : Nat)
    (st : PackageDatabase × List Event) (s : SnapshotSource)
    (srow : SourceRow) (h : WF st.1 ∧ srow ∈ st.1.sources) :
    WF (sourceStep ex ups prov now st s).1 ∧
      srow ∈ (sourceStep ex ups prov now st s).1.sources := by
  unfold sourceStep
  refine foldl_preserve
    (fun (st2 : PackageDatabase × List Event) =>
      WF st2.1 ∧ srow ∈ st2.1.sources) _ ups ?_ _ ?_
  · intro st2 up hup h2
    split
    · rcases prov s.name with _ | uv
      · exact h2
      · dsimp only
        split

        · exact h2
        · split
          · exact ⟨WF_add_source_version st2.1 now s.name uv up h2.1,
              add_source_version_sources_sub st2.1 now s.name uv up srow h2.2⟩
          · exact h2
    · exact h2
  · dsimp only
    split
    · exact ⟨WF_add_source_version st.1 now s.name
        (effectiveLocalVersion s.version) "local" h.1,
        add_source_version_sources_sub st.1 now s.name
          (effectiveLocalVersion s.version) "local" srow h.2⟩
    · exact h

theorem srcphase_WF_mem (S : List SnapshotSource) (ex ups : List String)
    (prov : String → Option String) (now : Nat)
    (st : PackageDatabase × List Event) (srow : SourceRow)
    (h : WF st.1 ∧ srow ∈ st.1.sources) :
    WF (S.foldl (sourceStep ex ups prov now) st).1 ∧
      srow ∈ (S.foldl (sourceStep ex ups prov now) st).1.sources := by
  refine foldl_preserve
    (fun (st2 : PackageDatabase × List Event) =>
      WF st2.1 ∧ srow ∈ st2.1.sources) _ S ?_ _ h
  intro st2 s hs h2
  exact sourceStep_WF_mem ex ups prov now st2 s srow h2

theorem pkgphase_sources (L : List SnapshotPackage)
    (st : PackageDatabase × List Event) :
    (L.foldl packageStep st).1.sources = st.1.sources := by
  refine foldl_preserve
    (fun (st2 : PackageDatabase × List Event) =>
      st2.1.sources = st.1.sources) _ L ?_ _ rfl
  intro st2 p hp h2
  rw [packageStep_db,
    (add_package_metadata_sources st2.1 p.source (some p.name) p.maintainer
      p.homepage_url p.license p.category p.summary p.description).1, h2]

theorem pkgphase_names_nodup (L : List SnapshotPackage)
    (st : PackageDatabase × List Event)
    (h : (st.1.packages.map PackageRow.name).Nodup) :
    ((L.foldl packageStep st).1.packages.map PackageRow.name).Nodup := by
  refine foldl_preserve
    (fun (st2 : PackageDatabase × List Event) =>
      (st2.1.packages.map PackageRow.name).Nodup) _ L ?_ _ h
  intro st2 p hp h2
  rw [packageStep_db]
  exact add_package_metadata_names_nodup st2.1 p.source (some p.name)
    p.maintainer p.homepage_url p.license p.category p.summary p.description
    h2

theorem pkgphase_keep_row (L : List SnapshotPackage)
    (st : PackageDatabase × List Event) (row : PackageRow)
    (hrow : row ∈ st.1.packages) (hL : ∀ p ∈ L, p.name ≠ row.name) :
    row ∈ (L.foldl packageStep st).1.packages := by
  refine foldl_preserve
    (fun (st2 : PackageDatabase × List Event) =>
      row ∈ st2.1.packages) _ L ?_ _ hrow
  intro st2 p hp h2
  rw [packageStep_db]
  apply add_package_metadata_other_rows st2.1 p.source (some p.name)
    p.maintainer p.homepage_url p.license p.category p.summary p.description
    row h2
  simp only [Option.getD_some]
  intro hcontra
  exact hL p hp hcontra.symm

theorem rempkgphase_sources (R : List String)
    (st : PackageDatabase × List Event) :
    (R.foldl removedPackageStep st).1.sources = st.1.sources := by
  refine foldl_preserve
    (fun (st2 : PackageDatabase × List Event) =>
      st2.1.sources = st.1.sources) _ R ?_ _ rfl
  intro st2 n hn h2
  rw [removedPackageStep_db, delete_package_sources, h2]

theorem rempkgphase_nodup (R : List String)
    (st : PackageDatabase × List Event)
    (h : (st.1.packages.map PackageRow.name).Nodup) :
    ((R.foldl removedPackageStep st).1.packages.map PackageRow.name).Nodup := by
  refine foldl_preserve
    (fun (st2 : PackageDatabase × List Event) =>
      (st2.1.packages.map PackageRow.name).Nodup) _ R ?_ _ h
  intro st2 n hn h2
  rw [removedPackageStep_db]
  exact delete_package_nodup st2.1 n h2

theorem rempkgphase_keep_row (R : List String)
    (st : PackageDatabase × List Event) (row : PackageRow)
    (hrow : row ∈ st.1.packages) (hR : ∀ r ∈ R, r ≠ row.name) :
    row ∈ (R.foldl removedPackageStep st).1.packages := by
  refine foldl_preserve
    (fun (st2 : PackageDatabase × List Event) =>
      row ∈ st2.1.packages) _ R ?_ _ hrow
  intro st2 n hn h2
  rw [removedPackageStep_db]
  exact delete_package_keep st2.1 n row h2 (fun hc => hR n hn hc.symm)

theorem rempkgphase_rows_sub (R : List String)
    (st : PackageDatabase × List Event) :
    ∀ row ∈ (R.foldl removedPackageStep st).1.packages,
      row ∈ st.1.packages := by
  refine foldl_preserve
    (fun (st2 : PackageDatabase × List Event) =>
      ∀ row ∈ st2.1.packages, row ∈ st.1.packages) _ R ?_ _
    (fun row h => h)
  intro st2 n hn h2 row hrow
  rw [removedPackageStep_db] at hrow
  exact h2 row (delete_package_rows_sub st2.1 n row hrow)

theorem get_packages_by_source_name_sub (db : PackageDatabase) (n : String) :
    ∀ row ∈ get_packages_by_source_name db n, row ∈ db.packages := by
  unfold get_packages_by_source_name
  rcases hfind : db.sources.find? (fun s => s.name = n) with _ | srow
  · rw [hfind]
    intro row hrow
    cases hrow
  · rw [hfind]
    intro row hrow
    exact (List.mem_filter.1 hrow).1

theorem remsrcstep_rows_sub (st : PackageDatabase × List Event) (n : String) :
    ∀ row ∈ (removedSourceStep st n).1.packages, row ∈ st.1.packages := by
  rw [(removedSourceStep_unfold st n).1]
  intro row hrow
  rw [delete_source_packages] at hrow
  revert row hrow
  refine foldl_preserve
    (fun (db2 : PackageDatabase) => ∀ row ∈ db2.packages,
      row ∈ st.1.packages) _ (get_packages_by_source_name st.1 n) ?_ _
    (fun row h => h)
  intro db2 p hp h2 row hrow
  exact h2 row (delete_package_rows_sub db2 p.name row hrow)

theorem remsrcphase_norow_filter (q : Event → Bool) (R : List String)
    (pk : String) (st : PackageDatabase × List Event)
    (hq : ∀ e : Event, (∀ m s2, e = .packageRemoved m s2 → m ≠ pk) →
      (match e with
       | .packageRemoved _ _ => True
       | .deletePackageCall _ => True
       | .deleteSourceCall _ => True
       | _ => False) → q e = false)
    (hnorow : ∀ row ∈ st.1.packages, row.name ≠ pk) :
    ((R.foldl removedSourceStep st).2).filter q = st.2.filter q := by
  have main := foldl_preserve
    (fun (st2 : PackageDatabase × List Event) =>
      (∀ row ∈ st2.1.packages, row.name ≠ pk) ∧
      st2.2.filter q = st.2.filter q) removedSourceStep R ?_ st ⟨hnorow, rfl⟩
  · exact main.2
  · intro st2 n hn h2
    constructor
    · intro row hrow
      exact h2.1 row (remsrcstep_rows_sub st2 n row hrow)
    · rw [(removedSourceStep_unfold st2 n).2, List.append_assoc,
        filter_append_nonmatching, h2.2]
      intro e he
      rcases List.mem_append.1 he with h | h
      · rcases List.mem_flatMap.1 h with ⟨p, hp, hmem⟩
        simp only [List.mem_cons, List.not_mem_nil, or_false] at hmem
        have hpname : p.name ≠ pk :=
          h2.1 p (get_packages_by_source_name_sub st2.1 n p hp)
        rcases hmem with rfl | rfl
        · exact hq _ (fun m s2 hm => by
            injection hm with h1 h2x
            rw [← h1]
            exact hpname) trivial
        · exact hq _ (fun m s2 hm => by cases hm) trivial
      · simp only [List.mem_singleton] at h
        rw [h]
        exact hq _ (fun m s2 hm => by cases hm) trivial

theorem remsrcstep_dsc_filter (st : PackageDatabase × List Event)
    (n m : String) :
    ((removedSourceStep st n).2).filter (isDeleteSourceCallFor m) =
      st.2.filter (isDeleteSourceCallFor m) ++
      (if n = m then [Event.deleteSourceCall n] else []) := by
  rw [(removedSourceStep_unfold st n).2, List.filter_append,
    List.filter_append]
  have hflat : ((get_packages_by_source_name st.1 n).flatMap
      (fun p => [Event.packageRemoved p.name n,
                 Event.deletePackageCall p.name])).filter
      (isDeleteSourceCallFor m) = [] := by
    apply List.filter_eq_nil_iff.2
    intro e he
    rcases List.mem_flatMap.1 he with ⟨p, hp, hmem⟩
    simp only [List.mem_cons, List.not_mem_nil, or_false] at hmem
    rcases hmem with rfl | rfl
    · simp [isDeleteSourceCallFor]
    · simp [isDeleteSourceCallFor]
  rw [hflat, List.append_nil]
  by_cases hnm : n = m
  · simp [isDeleteSourceCallFor, hnm]
  · simp [isDeleteSourceCallFor, hnm]

theorem get_all_package_names_eq (db : PackageDatabase) :
    get_all_package_names db =
      sortStrings (db.packages.map PackageRow.name) := rfl

theorem get_all_source_names_eq (db : PackageDatabase) :
    get_all_source_names db =
      sortStrings (db.sources.map SourceRow.name) := rfl

/-! ## C3: a removed source yields one removal per owned package -/

/-- C3: if a source row is in the store at the start of a cycle and
neither the source nor any of the packages it owns appears in the live
snapshot, then update_database fires on_package_removed exactly once per
owned package (naming the owning source), with no duplicate across the
removed-package and removed-source sweeps, and calls delete_source
exactly once for that source. -/
theorem claim_C3_removed_source (db0 : PackageDatabase) (snap : Snapshot)
    (ups : List String) (prov : String → Option String) (now : Nat)
    (srow : SourceRow) (hwf : WF db0) (hsrow : srow ∈ db0.sources)
    (hsrc_gone : srow.name ∉ snap.sources.map SnapshotSource.name)
    (hpkg_gone : ∀ pn ∈ (db0.packages.filter
      (fun q => q.source_id = srow.id)).map PackageRow.name,
      pn ∉ snap.pkgs.map SnapshotPackage.name) :
    (∀ pn ∈ (db0.packages.filter
      (fun q => q.source_id = srow.id)).map PackageRow.name,
      ((update_database db0 snap ups prov now).2.filter
        (isPackageRemovedFor pn)) = [Event.packageRemoved pn srow.name]) ∧
    ((update_database db0 snap ups prov now).2.filter
      (isDeleteSourceCallFor srow.name)).length = 1 := by
  rw [update_database_phases]
  set ex := get_all_source_names db0 with hex
  set st1 := snap.sources.foldl (sourceStep ex ups prov now)
    (db0, ([] : List Event)) with hst1
  set st2 := snap.pkgs.foldl packageStep st1 with hst2
  set R := (get_all_package_names db0).filter
    (fun n => !((snap.pkgs.map SnapshotPackage.name).contains n)) with hR
  set st3 := R.foldl removedPackageStep st2 with hst3
  set Rs := ex.filter
    (fun n => !((snap.sources.map SnapshotSource.name).contains n)) with hRs
  have h1 : WF st1.1 ∧ srow ∈ st1.1.sources := by
    rw [hst1]
    exact srcphase_WF_mem _ _ _ _ _ _ _ ⟨hwf, hsrow⟩
  have h1pkgs : st1.1.packages = db0.packages := by
    rw [hst1]
    exact srcphase_packages _ _ _ _ _ _
  have h2sources : st2.1.sources = st1.1.sources := by
    rw [hst2]
    exact pkgphase_sources _ _
  have h2nodup : (st2.1.packages.map PackageRow.name).Nodup := by
    rw [hst2]
    apply pkgphase_names_nodup
    rw [h1pkgs]
    exact hwf.2.2.1
  constructor
  · intro pn hpn
    rcases List.mem_map.1 hpn with ⟨row, hrowf, rfl⟩
    have hrow0 : row ∈ db0.packages := (List.mem_filter.1 hrowf).1
    have hrowsid : row.source_id = srow.id := by
      simpa using (List.mem_filter.1 hrowf).2
    have hrow1 : row ∈ st1.1.packages := by
      rw [h1pkgs]
      exact hrow0
    have hsnapne : ∀ p ∈ snap.pkgs, p.name ≠ row.name := by
      intro p hp hcontra
      exact hpkg_gone row.name hpn
        (hcontra ▸ List.mem_map_of_mem SnapshotPackage.name hp)
    have hrow2 : row ∈ st2.1.packages := by
      rw [hst2]
      exact pkgphase_keep_row _ _ _ hrow1 hsnapne
    have hmemR : row.name ∈ R := by
      rw [hR]
      apply List.mem_filter.2
      refine ⟨?_, ?_⟩
      · rw [get_all_package_names_eq]
        exact mem_sortStrings.2 (List.mem_map_of_mem PackageRow.name hrow0)
      · simpa using hpkg_gone row.name hpn
    have hRnodup : R.Nodup := by
      rw [hR]
      apply List.Nodup.filter
      rw [get_all_package_names_eq]
      exact nodup_sortStrings hwf.2.2.1
    rcases mem_nodup_split hmemR hRnodup with ⟨R1, R2, hRsplit, hR1, hR2⟩
    set stP := R1.foldl removedPackageStep st2 with hstP
    have hPsources : stP.1.sources = st2.1.sources := by
      rw [hstP]
      exact rempkgphase_sources _ _
    have hPnodup : (stP.1.packages.map PackageRow.name).Nodup := by
      rw [hstP]
      exact rempkgphase_nodup _ _ h2nodup
    have hProw : row ∈ stP.1.packages := by
      rw [hstP]
      exact rempkgphase_keep_row _ _ _ hrow2
        (fun r hr hc => hR1 (hc ▸ hr))
    have hsrowP : srow ∈ stP.1.sources := by
      rw [hPsources, h2sources]
      exact h1.2
    have hidsP : (stP.1.sources.map SourceRow.id).Nodup := by
      rw [hPsources, h2sources]
      exact h1.1.2.1
    have hget : get_package_by_name stP.1 row.name =
        some (row, srow.name) :=
      get_package_by_name_unique stP.1 row.name hPnodup hidsP row hProw rfl
        srow hsrowP hrowsid.symm
    have hfilter1 : st1.2.filter (isPackageRemovedFor row.name) = [] := by
      rw [hst1,
        srcphase_filter _ _ _ _ _ _ _ (fun s hs hc v o => ⟨rfl, rfl⟩)]
      rfl
    have hfilter2 : st2.2.filter (isPackageRemovedFor row.name) = [] := by
      rw [hst2, pkgphase_filter _ _ _ (fun p hp s2 => rfl)]
      exact hfilter1
    have hfilterP : stP.2.filter (isPackageRemovedFor row.name) = [] := by
      rw [hstP, rempkgphase_filter _ _ _ ?_]
      · exact hfilter2
      intro n hn s2
      refine ⟨?_, rfl⟩
      have : n ≠ row.name := fun hc => hR1 (hc ▸ hn)
      simp [isPackageRemovedFor, this]
    have hstep_filter : ((removedPackageStep stP row.name).2).filter
        (isPackageRemovedFor row.name) =
        [Event.packageRemoved row.name srow.name] := by
      rw [removedPackageStep_events_eq, hget, List.filter_append,
        List.filter_append, hfilterP]
      simp [isPackageRemovedFor]
    have hstep_norow : ∀ r2 ∈ (removedPackageStep stP row.name).1.packages,
        r2.name ≠ row.name := by
      rw [removedPackageStep_db]
      exact delete_package_gone stP.1 row.name
    have hfilter3 : ((R2.foldl removedPackageStep
        (removedPackageStep stP row.name)).2).filter
        (isPackageRemovedFor row.name) =
        [Event.packageRemoved row.name srow.name] := by
      rw [rempkgphase_filter _ _ _ ?_, hstep_filter]
      intro n hn s2
      refine ⟨?_, rfl⟩
      have : n ≠ row.name := fun hc => hR2 (hc ▸ hn)
      simp [isPackageRemovedFor, this]
    have hnorow3 : ∀ r2 ∈ (R2.foldl removedPackageStep
        (removedPackageStep stP row.name)).1.packages,
        r2.name ≠ row.name := by
      intro r2 hr2
      exact hstep_norow r2 (rempkgphase_rows_sub _ _ r2 hr2)
    have hst3eq : st3 = R2.foldl removedPackageStep
        (removedPackageStep stP row.name) := by
      rw [hst3, hRsplit, List.foldl_append, List.foldl_cons, hstP]
    rw [hst3eq]
    rw [remsrcphase_norow_filter (isPackageRemovedFor row.name) Rs row.name
      _ ?_ hnorow3]
    · exact hfilter3
    · intro e hno hshape
      cases e with
      | packageRemoved m s2 => simp [isPackageRemovedFor, hno m s2 rfl]
      | deletePackageCall _ => rfl
      | deleteSourceCall _ => rfl
      | packageAdded _ _ => rfl
      | localVersionUpdated _ _ _ => rfl
      | upstreamVersionUpdated _ _ _ => rfl
  · have hbase1 : st1.2.filter (isDeleteSourceCallFor srow.name) = [] := by
      rw [hst1,
        srcphase_filter _ _ _ _ _ _ _ (fun s hs hc v o => ⟨rfl, rfl⟩)]
      rfl
    have hbase2 : st2.2.filter (isDeleteSourceCallFor srow.name) = [] := by
      rw [hst2, pkgphase_filter _ _ _ (fun p hp s2 => rfl)]
      exact hbase1
    have hbase3 : st3.2.filter (isDeleteSourceCallFor srow.name) = [] := by
      rw [hst3, rempkgphase_filter _ _ _ (fun n hn s2 => ⟨rfl, rfl⟩)]
      exact hbase2
    have hmemRs : srow.name ∈ Rs := by
      rw [hRs]
      apply List.mem_filter.2
      refine ⟨?_, by simpa using hsrc_gone⟩
      rw [hex, get_all_source_names_eq]
      exact mem_sortStrings.2 (List.mem_map_of_mem SourceRow.name hsrow)
    have hRsnodup : Rs.Nodup := by
      rw [hRs]
      apply List.Nodup.filter
      rw [hex, get_all_source_names_eq]
      exact nodup_sortStrings hwf.1
    rcases mem_nodup_split hmemRs hRsnodup with ⟨S1, S2, hSsplit, hS1, hS2⟩
    rw [hSsplit, List.foldl_append, List.foldl_cons]
    have hS1filter : ((S1.foldl removedSourceStep st3).2).filter
        (isDeleteSourceCallFor srow.name) = [] := by
      rw [remsrcphase_filter _ _ _ ?_]
      · exact hbase3
      intro n hn m
      refine ⟨rfl, rfl, ?_⟩
      have : n ≠ srow.name := fun hc => hS1 (hc ▸ hn)
      simp [isDeleteSourceCallFor, this]
    have hstepS : ((removedSourceStep (S1.foldl removedSourceStep st3)
        srow.name).2).filter (isDeleteSourceCallFor srow.name) =
        [Event.deleteSourceCall srow.name] := by
      rw [remsrcstep_dsc_filter, hS1filter, if_pos rfl]
      rfl
    rw [remsrcphase_filter _ _ _ ?_, hstepS]
    · rfl
    · intro n hn m
      refine ⟨rfl, rfl, ?_⟩
      have : n ≠ srow.name := fun hc => hS2 (hc ▸ hn)
      simp [isDeleteSourceCallFor, this]

/-- Witness for C3 on a concrete store whose source s2 owns p2 and p3
while the snapshot contains neither. -/
theorem claim_C3_witness :
    WF dbTwoOwned ∧
    (⟨0, "s2"⟩ : SourceRow) ∈ dbTwoOwned.sources ∧
    ("s2" ∉ snapOne.sources.map SnapshotSource.name) ∧
    ((update_database dbTwoOwned snapOne [] noProvider 7).2.filter
      (isPackageRemovedFor "p2")) = [Event.packageRemoved "p2" "s2"] ∧
    ((update_database dbTwoOwned snapOne [] noProvider 7).2.filter
      (isDeleteSourceCallFor "s2")).length = 1 :=
  ⟨by decide, by decide, by decide,
   (claim_C3_removed_source dbTwoOwned snapOne [] noProvider 7 ⟨0, "s2"⟩
     (by decide) (by decide) (by decide) (by decide)).1 "p2" (by decide),
   (claim_C3_removed_source dbTwoOwned snapOne [] noProvider 7 ⟨0, "s2"⟩
     (by decide) (by decide) (by decide) (by decide)).2⟩

/-! ## C2: idempotence of reconciliation -/

/-- C2 counterexample: against the unchanged snapshot whose only package
references the undeclared source ghost, the second update_database run
again fires on_package_added for that package (the metadata upsert fails
each run because the source is unknown, so the package never enters the
store), so the second run does not invoke zero callbacks. -/
theorem claim_C2_counterexample :
    (update_database (update_database emptyDB snapDangling [] noProvider 0).1
      snapDangling [] noProvider 1).2 =
      [Event.packageAdded "p" "ghost"] ∧
    (((update_database
        (update_database emptyDB snapDangling [] noProvider 0).1
        snapDangling [] noProvider 1).2.filter
        (isPackageAddedFor "p")).length = 1) := by
  constructor
  · decide
  · decide

theorem WF_delete_package (db : PackageDatabase) (n : String)
    (hwf : WF db) : WF (delete_package db n).1 := by
  obtain ⟨hsn, hsi, hpn, hslt, hvlt⟩ := hwf
  exact ⟨hsn, hsi, delete_package_nodup db n hpn, hslt, hvlt⟩

theorem WF_delete_source (db : PackageDatabase) (n : String)
    (hwf : WF db) : WF (delete_source db n).1 := by
  obtain ⟨hsn, hsi, hpn, hslt, hvlt⟩ := hwf
  unfold delete_source
  rcases hfind : db.sources.find? (fun s => s.name = n) with _ | srow
  · rw [hfind]
    exact ⟨hsn, hsi, hpn, hslt, hvlt⟩
  · rw [hfind]
    refine ⟨?_, ?_, hpn, ?_, ?_⟩
    · exact List.Nodup.sublist (List.Sublist.map _ (List.filter_sublist _)) hsn
    · exact List.Nodup.sublist (List.Sublist.map _ (List.filter_sublist _)) hsi
    · intro x hx
      exact hslt x (List.mem_filter.1 hx).1
    · intro r hr
      exact hvlt r (List.mem_filter.1 hr).1

theorem remsrcstep_WF (st : PackageDatabase × List Event) (n : String)
    (hwf : WF st.1) : WF (removedSourceStep st n).1 := by
  rw [(removedSourceStep_unfold st n).1]
  apply WF_delete_source
  revert hwf
  refine foldl_preserve (fun (db2 : PackageDatabase) => WF st.1 → WF db2)
    _ (get_packages_by_source_name st.1 n) ?_ _ (fun h => h)
  intro db2 p hp h2 h0
  exact WF_delete_package db2 p.name (h2 h0)

theorem remsrcphase_WF (R : List String)
    (st : PackageDatabase × List Event) (hwf : WF st.1) :
    WF ((R.foldl removedSourceStep st).1) := by
  refine foldl_preserve
    (fun (st2 : PackageDatabase × List Event) => WF st2.1) _ R ?_ _ hwf
  intro st2 n hn h2
  exact remsrcstep_WF st2 n h2

theorem rempkgphase_WF (R : List String)
    (st : PackageDatabase × List Event) (hwf : WF st.1) :
    WF ((R.foldl removedPackageStep st).1) := by
  refine foldl_preserve
    (fun (st2 : PackageDatabase × List Event) => WF st2.1) _ R ?_ _ hwf
  intro st2 n hn h2
  rw [removedPackageStep_db]
  exact WF_delete_package st2.1 n h2

theorem pkgphase_WF (L : List SnapshotPackage)
    (st : PackageDatabase × List Event) (hwf : WF st.1) :
    WF ((L.foldl packageStep st).1) := by
  refine foldl_preserve
    (fun (st2 : PackageDatabase × List Event) => WF st2.1) _ L ?_ _ hwf
  intro st2 p hp h2
  rw [packageStep_db]
  exact WF_add_package_metadata st2.1 p.source (some p.name) p.maintainer
    p.homepage_url p.license p.category p.summary p.description h2

/-! ## Lemmas about joinedRows under the store operations -/

theorem joinedRows_eq_of (db db2 : PackageDatabase) (n o : String)
    (hv : db2.versions = db.versions) (hs : db2.sources = db.sources) :
    joinedRows db2 n o = joinedRows db n o := by
  unfold joinedRows
  rw [hv, hs]

theorem maxByTimestamp_mem {l : List VersionRow} {r : VersionRow}
    (h : maxByTimestamp l = some r) : r ∈ l := by
  induction l generalizing r with
  | nil => cases h
  | cons a rest ih =>
    simp only [maxByTimestamp] at h
    rcases hrest : maxByTimestamp rest with _ | m
    · rw [hrest] at h
      simp only [Option.some.injEq] at h
      rw [← h]
      exact List.mem_cons_self _ _
    · rw [hrest] at h
      dsimp only at h
      split at h
      · simp only [Option.some.injEq] at h
        rw [← h]
        exact List.mem_cons_self _ _
      · simp only [Option.some.injEq] at h
        exact List.mem_cons_of_mem _ (ih (h ▸ hrest))

theorem maxByTimestamp_append_strict {l : List VersionRow}
    {r : VersionRow} (h : ∀ x ∈ l, x.timestamp < r.timestamp) :
    maxByTimestamp (l ++ [r]) = some r := by
  induction l with
  | nil => rfl
  | cons a rest ih =>
    have ha := h a (List.mem_cons_self _ _)
    rw [List.cons_append]
    simp only [maxByTimestamp]
    rw [ih (fun x hx => h x (List.mem_cons_of_mem _ hx))]
    dsimp only
    rw [if_neg]
    exact fun hge => absurd ha (Nat.not_lt.2 hge)

theorem get_latest_some_source (db : PackageDatabase) (n o : String)
    (h : get_latest_version_from_source db n o ≠ none) :
    ∃ x ∈ db.sources, x.name = n := by
  unfold get_latest_version_from_source at h
  rcases hmax : maxByTimestamp (joinedRows db n o) with _ | r
  · rw [hmax] at h
    exact absurd rfl h
  · have hr := maxByTimestamp_mem hmax
    unfold joinedRows at hr
    have := (List.mem_filter.1 hr).2
    simp only [Bool.and_eq_true, decide_eq_true_eq, List.any_eq_true] at this
    rcases this.2 with ⟨x, hx, hxid, hxn⟩
    exact ⟨x, hx, hxn⟩

theorem mem_joinedRows (db : PackageDatabase) (n o : String)
    (r : VersionRow) :
    r ∈ joinedRows db n o ↔
      r ∈ db.versions ∧ r.source = o ∧
      ∃ x ∈ db.sources, x.id = r.source_id ∧ x.name = n := by
  unfold joinedRows
  rw [List.mem_filter]
  simp only [Bool.and_eq_true, decide_eq_true_eq, List.any_eq_true,
    and_assoc]

theorem updater_congr (db db2 : PackageDatabase) (n o : String)
    (h : joinedRows db2 n o = joinedRows db n o) :
    updater_get_latest_version db2 n o = updater_get_latest_version db n o := by
  unfold updater_get_latest_version get_latest_version_from_source
  rw [h]

theorem pkgphase_versions (L : List SnapshotPackage)
    (st : PackageDatabase × List Event) :
    (L.foldl packageStep st).1.versions = st.1.versions := by
  refine foldl_preserve
    (fun (st2 : PackageDatabase × List Event) =>
      st2.1.versions = st.1.versions) _ L ?_ _ rfl
  intro st2 p hp h2
  rw [packageStep_db,
    (add_package_metadata_sources st2.1 p.source (some p.name) p.maintainer
      p.homepage_url p.license p.category p.summary p.description).2.1, h2]

theorem rempkgphase_versions (R : List String)
    (st : PackageDatabase × List Event) :
    (R.foldl removedPackageStep st).1.versions = st.1.versions := by
  refine foldl_preserve
    (fun (st2 : PackageDatabase × List Event) =>
      st2.1.versions = st.1.versions) _ R ?_ _ rfl
  intro st2 n hn h2
  rw [removedPackageStep_db]
  exact h2

theorem updater_latest_after_add (db : PackageDatabase) (t : Nat)
    (n v o : String) (hwf : WF db)
    (hold : ∀ r ∈ joinedRows db n o, r.timestamp < t) :
    updater_get_latest_version (add_source_version db t n v o).1 n o =
      some v := by
  rcases add_source_version_spec db t n v o hwf.1 with
    ⟨srow, hfind, hname, hmem, huniq, heq⟩
  set newRow : VersionRow :=
    ⟨(ensureSource db n).nextVersionId, srow.id, v, o, t⟩ with hnew
  have hensuresrc : ∀ x ∈ (ensureSource db n).sources,
      x ∈ db.sources ∨ x.id = db.nextSourceId := by
    intro x hx
    unfold ensureSource at hx
    split at hx
    · exact Or.inl hx
    · rcases List.mem_append.1 hx with h | h
      · exact Or.inl h
      · simp only [List.mem_singleton] at h
        rw [h]
        exact Or.inr rfl
  have heq1 : (add_source_version db t n v o).1 =
      ({ ensureSource db n with
         versions := (ensureSource db n).versions.filter
           (fun r => !(r.source_id = srow.id && r.version = v &&
             r.source = o)) ++ [newRow],
         nextVersionId := (ensureSource db n).nextVersionId + 1 } :
        PackageDatabase) := by
    rw [heq]
  have hjoined : joinedRows
      ({ ensureSource db n with
         versions := (ensureSource db n).versions.filter
           (fun r => !(r.source_id = srow.id && r.version = v &&
             r.source = o)) ++ [newRow],
         nextVersionId := (ensureSource db n).nextVersionId + 1 } :
        PackageDatabase) n o =
      ((ensureSource db n).versions.filter
        (fun r => !(r.source_id = srow.id && r.version = v &&
          r.source = o))).filter
        (fun r => r.source = o &&
          (ensureSource db n).sources.any
            (fun x => x.id = r.source_id && x.name = n)) ++ [newRow] := by
    unfold joinedRows
    rw [List.filter_append]
    congr 1
    have : newRow.source = o := rfl
    simp only [List.filter, this, decide_True, Bool.true_and]
    have hany : (ensureSource db n).sources.any
        (fun x => decide (x.id = newRow.source_id) &&
          decide (x.name = n)) = true :=
      List.any_eq_true.2 ⟨srow, hmem, by simp [hname, hnew]⟩
    simp [hany]
  unfold updater_get_latest_version get_latest_version_from_source
  rw [heq1, hjoined]
  rw [maxByTimestamp_append_strict ?_]
  · rfl
  · intro x hx
    have hx1 := List.mem_filter.1 hx
    have hx2 := List.mem_filter.1 hx1.1
    have hx3 : x ∈ (ensureSource db n).versions := hx2.1
    rw [ensureSource_versions] at hx3
    have hprop := hx1.2
    simp only [Bool.and_eq_true, decide_eq_true_eq, List.any_eq_true]
      at hprop
    rcases hprop.2 with ⟨y, hy, hyid, hyn⟩
    have hydb : y ∈ db.sources := by
      rcases hensuresrc y hy with h | h
      · exact h
      · exfalso
        have := hwf.2.2.2.2 x hx3
        rw [← hyid] at this
        rw [h] at this
        exact Nat.lt_irrefl _ this
    have hxj : x ∈ joinedRows db n o :=
      (mem_joinedRows db n o x).2 ⟨hx3, hprop.1, y, hydb, hyid, hyn⟩
    exact hold x hxj

theorem bool_eq_of_iff {a b : Bool} (h : a = true ↔ b = true) : a = b := by
  cases a <;> cases b <;> simp_all

theorem band_elim {a b : Bool} (h : (a && b) = true) :
    a = true ∧ b = true := by
  simp_all

theorem band_intro {a b : Bool} (h1 : a = true) (h2 : b = true) :
    (a && b) = true := by
  simp_all

theorem ensureSource_sources_cases (db : PackageDatabase) (s : String) :
    ∀ x ∈ (ensureSource db s).sources,
      x ∈ db.sources ∨ x.id = db.nextSourceId := by
  intro x hx
  unfold ensureSource at hx
  split at hx
  · exact Or.inl hx
  · rcases List.mem_append.1 hx with h | h
    · exact Or.inl h
    · simp only [List.mem_singleton] at h
      rw [h]
      exact Or.inr rfl

theorem joinedRows_add_stable (db : PackageDatabase) (t : Nat)
    (n v o m o2 : String) (hwf : WF db) (hne : m ≠ n ∨ o2 ≠ o) :
    joinedRows (add_source_version db t n v o).1 m o2 =
      joinedRows db m o2 := by
  rcases add_source_version_spec db t n v o hwf.1 with
    ⟨srow, hfind, hname, hmem, huniq, heq⟩
  set newRow : VersionRow :=
    ⟨(ensureSource db n).nextVersionId, srow.id, v, o, t⟩ with hnew
  have hidsn : ((ensureSource db n).sources.map SourceRow.id).Nodup :=
    (WF_ensureSource db n hwf).2.1
  have heq1 : (add_source_version db t n v o).1 =
      ({ ensureSource db n with
         versions := (ensureSource db n).versions.filter
           (fun r => !(r.source_id = srow.id && r.version = v &&
             r.source = o)) ++ [newRow],
         nextVersionId := (ensureSource db n).nextVersionId + 1 } :
        PackageDatabase) := by
    rw [heq]
  rw [heq1]
  unfold joinedRows
  show (((ensureSource db n).versions.filter
      (fun r => !(r.source_id = srow.id && r.version = v &&
        r.source = o))) ++ [newRow]).filter
      (fun r => r.source = o2 &&
        (ensureSource db n).sources.any
          (fun x => x.id = r.source_id && x.name = m)) =
    db.versions.filter
      (fun r => r.source = o2 &&
        db.sources.any (fun x => x.id = r.source_id && x.name = m))
  rw [List.filter_append, ensureSource_versions]
  have hnil : List.filter
      (fun r => decide (r.source = o2) &&
        (ensureSource db n).sources.any
          (fun x => decide (x.id = r.source_id) && decide (x.name = m)))
      [newRow] = [] := by
    apply List.filter_eq_nil_iff.2
    intro a ha
    simp only [List.mem_singleton] at ha
    subst ha
    intro hp
    obtain ⟨h1, h2⟩ := band_elim hp
    rcases List.any_eq_true.1 h2 with ⟨x, hx, hxp⟩
    obtain ⟨hxid, hxnm⟩ := band_elim hxp
    rw [decide_eq_true_eq] at h1 hxid hxnm
    have hxs : x = srow :=
      map_nodup_inj SourceRow.id _ hidsn hx hmem (by rw [hxid, hnew])
    rcases hne with hne | hne
    · exact hne (by rw [← hxnm, hxs, hname])
    · rw [hnew] at h1
      exact hne h1.symm
  rw [hnil, List.append_nil, List.filter_filter]
  apply List.filter_congr
  intro r hr
  apply bool_eq_of_iff
  constructor
  · intro h
    obtain ⟨hP, hK⟩ := band_elim h
    obtain ⟨hsrc, hany⟩ := band_elim hP
    rcases List.any_eq_true.1 hany with ⟨x, hx, hxp⟩
    obtain ⟨hxid, hxnm⟩ := band_elim hxp
    rw [decide_eq_true_eq] at hxid hxnm
    rcases ensureSource_sources_cases db n x hx with hxdb | hxnew
    · exact band_intro hsrc
        (List.any_eq_true.2 ⟨x, hxdb,
          band_intro (decide_eq_true hxid) (decide_eq_true hxnm)⟩)
    · exfalso
      have hlt := hwf.2.2.2.2 r hr
      rw [← hxid, hxnew] at hlt
      exact Nat.lt_irrefl _ hlt
  · intro h
    obtain ⟨hsrc, hany⟩ := band_elim h
    rcases List.any_eq_true.1 hany with ⟨x, hx, hxp⟩
    obtain ⟨hxid, hxnm⟩ := band_elim hxp
    rw [decide_eq_true_eq] at hxid hxnm
    refine band_intro (band_intro hsrc
      (List.any_eq_true.2 ⟨x, ensureSource_sources_sub db n x hx,
        band_intro (decide_eq_true hxid) (decide_eq_true hxnm)⟩)) ?_
    rw [Bool.not_eq_true']
    apply Bool.eq_false_iff.2
    intro hA
    obtain ⟨hA12, hA3⟩ := band_elim hA
    obtain ⟨hA1, hA2⟩ := band_elim hA12
    rw [decide_eq_true_eq] at hA1 hA2 hA3
    rw [decide_eq_true_eq] at hsrc
    rcases hne with hne | hne
    · have hxs : x = srow :=
        map_nodup_inj SourceRow.id _ hidsn
          (ensureSource_sources_sub db n x hx) hmem (by rw [hxid, hA1])
      exact hne (by rw [← hxnm, hxs, hname])
    · exact hne (by rw [← hsrc, hA3])

theorem delete_package_versions (db : PackageDatabase) (n : String) :
    (delete_package db n).1.versions = db.versions := rfl

theorem delete_source_joined (db : PackageDatabase) (n m o2 : String)
    (hids : (db.sources.map SourceRow.id).Nodup) (hne : m ≠ n) :
    joinedRows (delete_source db n).1 m o2 = joinedRows db m o2 := by
  unfold delete_source
  rcases hfind : db.sources.find? (fun s => s.name = n) with _ | srow
  · rw [hfind]
  · rw [hfind]
    have hsn : srow.name = n := by
      have := List.find?_some hfind
      simpa using this
    have hsmem : srow ∈ db.sources := List.mem_of_find?_eq_some hfind
    unfold joinedRows
    show (db.versions.filter (fun r => !(r.source_id = srow.id))).filter
        (fun r => r.source = o2 &&
          (db.sources.filter (fun s => !(s.id = srow.id))).any
            (fun x => x.id = r.source_id && x.name = m)) =
      db.versions.filter
        (fun r => r.source = o2 &&
          db.sources.any (fun x => x.id = r.source_id && x.name = m))
    rw [List.filter_filter]
    apply List.filter_congr
    intro r hr
    apply bool_eq_of_iff
    constructor
    · intro h
      obtain ⟨hP, hkeep⟩ := band_elim h
      obtain ⟨hsrc, hany⟩ := band_elim hP
      rcases List.any_eq_true.1 hany with ⟨x, hx, hxp⟩
      exact band_intro hsrc
        (List.any_eq_true.2 ⟨x, (List.mem_filter.1 hx).1, hxp⟩)
    · intro h
      obtain ⟨hsrc, hany⟩ := band_elim h
      rcases List.any_eq_true.1 hany with ⟨x, hx, hxp⟩
      obtain ⟨hxid, hxnm⟩ := band_elim hxp
      rw [decide_eq_true_eq] at hxid hxnm
      have hxid2 : ¬(x.id = srow.id) := by
        intro hcon
        have hxs : x = srow := map_nodup_inj SourceRow.id _ hids hx hsmem hcon
        rw [hxs, hsn] at hxnm
        exact hne hxnm.symm
      refine band_intro (band_intro hsrc
        (List.any_eq_true.2 ⟨x, List.mem_filter.2
          ⟨hx, by simpa using hxid2⟩,
          band_intro (decide_eq_true hxid) (decide_eq_true hxnm)⟩)) ?_
      have : ¬(r.source_id = srow.id) := by
        intro hcon
        rw [← hxid] at hcon
        exact hxid2 hcon
      simpa using this

theorem dponly_fold_shape (pks : List PackageRow) (db : PackageDatabase) :
    (pks.foldl (fun db2 p => (delete_package db2 p.name).1) db).versions =
      db.versions ∧
    (pks.foldl (fun db2 p => (delete_package db2 p.name).1) db).sources =
      db.sources := by
  induction pks generalizing db with
  | nil => exact ⟨rfl, rfl⟩
  | cons q qs ih => exact ih _

theorem remsrcstep_joined (st : PackageDatabase × List Event)
    (n m o2 : String) (hids : (st.1.sources.map SourceRow.id).Nodup)
    (hne : m ≠ n) :
    joinedRows (removedSourceStep st n).1 m o2 = joinedRows st.1 m o2 := by
  rw [(removedSourceStep_unfold st n).1]
  have hsh := dponly_fold_shape (get_packages_by_source_name st.1 n) st.1
  calc joinedRows (delete_source
        ((get_packages_by_source_name st.1 n).foldl
          (fun db2 p => (delete_package db2 p.name).1) st.1) n).1 m o2
      = joinedRows ((get_packages_by_source_name st.1 n).foldl
          (fun db2 p => (delete_package db2 p.name).1) st.1) m o2 :=
        delete_source_joined _ n m o2 (by rw [hsh.2]; exact hids) hne
    _ = joinedRows st.1 m o2 := joinedRows_eq_of _ _ _ _ hsh.1 hsh.2

theorem remsrcphase_joined (R : List String)
    (st : PackageDatabase × List Event) (m o2 : String) (hwf : WF st.1)
    (hR : ∀ n ∈ R, n ≠ m) :
    joinedRows (R.foldl removedSourceStep st).1 m o2 =
      joinedRows st.1 m o2 := by
  induction R generalizing st with
  | nil => rfl
  | cons n rest ih =>
    rw [List.foldl_cons]
    rw [ih (removedSourceStep st n) (remsrcstep_WF st n hwf)
      (fun n2 hn2 => hR n2 (List.mem_cons_of_mem _ hn2))]
    exact remsrcstep_joined st n m o2 hwf.2.1
      (fun hcon => hR n (List.mem_cons_self _ _) hcon.symm)

theorem res_get_ne_none (db : PackageDatabase) (pn : String)
    (allowed : List String) (h : resolvableVia db pn allowed) :
    get_package_by_name db pn ≠ none := by
  obtain ⟨row, hrow, hrn, y, hy, hyid, hyn⟩ := h
  unfold get_package_by_name
  intro hcon
  have hfe := List.findSome?_eq_none_iff.1 hcon row
    (List.mem_filter.2 ⟨hrow, by simpa using hrn⟩)
  rcases hfind : db.sources.find? (fun s => s.id = row.source_id) with _ | z
  · have := List.find?_eq_none.1 hfind y hy
    exact this (by simpa using hyid)
  · rw [hfind] at hfe
    cases hfe

theorem get_ne_none_res (db : PackageDatabase) (pn : String)
    (h : get_package_by_name db pn ≠ none) :
    resolvableVia db pn (db.sources.map SourceRow.name) := by
  unfold get_package_by_name at h
  rcases hget : (db.packages.filter (fun p => p.name = pn)).findSome?
      (fun p => (db.sources.find? (fun s => s.id = p.source_id)).map
        (fun s => (p, s.name))) with _ | pr
  · rw [hget] at h
    exact absurd rfl h
  · rcases List.exists_of_findSome?_eq_some hget with ⟨row, hrowf, hmap⟩
    have hrow := List.mem_filter.1 hrowf
    have hrn : row.name = pn := by simpa using hrow.2
    rcases hfind : db.sources.find? (fun s => s.id = row.source_id) with
      _ | z
    · rw [hfind] at hmap
      cases hmap
    · have hz := List.mem_of_find?_eq_some hfind
      have hzid : z.id = row.source_id := by
        have := List.find?_some hfind
        simpa using this
      exact ⟨row, hrow.1, hrn, z, hz, hzid,
        List.mem_map.2 ⟨z, hz, rfl⟩⟩

theorem add_package_metadata_preserves_res (db : PackageDatabase)
    (sn : String) (nm m hu li ca su de : Option String)
    (pn : String) (allowed : List String)
    (hres : resolvableVia db pn allowed) (hsn : sn ∈ allowed) :
    resolvableVia (add_package_metadata db sn nm m hu li ca su de).1 pn
      allowed := by
  obtain ⟨row, hrow, hrn, y, hy, hyid, hyn⟩ := hres
  unfold add_package_metadata
  rcases hfind : db.sources.find? (fun s => s.name = sn) with _ | srow
  · rw [hfind]
    exact ⟨row, hrow, hrn, y, hy, hyid, hyn⟩
  · rw [hfind]
    have hsrow := List.mem_of_find?_eq_some hfind
    have hsname : srow.name = sn := by
      have := List.find?_some hfind
      simpa using this
    dsimp only
    by_cases hany : (db.packages.any (fun p => p.name = nm.getD sn)) = true
    · rw [if_pos hany]
      by_cases hrowp : row.name = nm.getD sn
      · refine ⟨⟨nm.getD sn, srow.id, m, hu, li, ca, su, de⟩,
          List.mem_map.2 ⟨row, hrow, by rw [if_pos hrowp]⟩, ?_,
          srow, hsrow, rfl, by rw [hsname]; exact hsn⟩
        show nm.getD sn = pn
        rw [← hrowp]
        exact hrn
      · exact ⟨row, List.mem_map.2 ⟨row, hrow, by rw [if_neg hrowp]⟩,
          hrn, y, hy, hyid, hyn⟩
    · rw [if_neg hany]
      exact ⟨row, List.mem_append_left _ hrow, hrn, y, hy, hyid, hyn⟩

theorem packageStep_establish_res (st : PackageDatabase × List Event)
    (p : SnapshotPackage) (allowed : List String)
    (hsrc : ∃ x ∈ st.1.sources, x.name = p.source)
    (hal : p.source ∈ allowed) :
    resolvableVia (packageStep st p).1 p.name allowed := by
  rw [packageStep_db]
  unfold add_package_metadata
  rcases hfind : st.1.sources.find? (fun s => s.name = p.source) with
    _ | srow
  · exfalso
    obtain ⟨x, hx, hxn⟩ := hsrc
    exact List.find?_eq_none.1 hfind x hx (by simpa using hxn)
  · rw [hfind]
    have hsrow := List.mem_of_find?_eq_some hfind
    have hsname : srow.name = p.source := by
      have := List.find?_some hfind
      simpa using this
    dsimp only
    by_cases hany :
        (st.1.packages.any (fun q => q.name = (some p.name).getD p.source))
          = true
    · rw [if_pos hany]
      rcases List.any_eq_true.1 hany with ⟨w, hw, hwp⟩
      have hwn : w.name = (some p.name).getD p.source := by simpa using hwp
      refine ⟨⟨(some p.name).getD p.source, srow.id, p.maintainer,
        p.homepage_url, p.license, p.category, p.summary, p.description⟩,
        List.mem_map.2 ⟨w, hw, by rw [if_pos hwn]⟩, rfl,
        srow, hsrow, rfl, by rw [hsname]; exact hal⟩
    · rw [if_neg hany]
      refine ⟨⟨(some p.name).getD p.source, srow.id, p.maintainer,
        p.homepage_url, p.license, p.category, p.summary, p.description⟩,
        List.mem_append_right _ (List.mem_singleton.2 rfl), rfl,
        srow, hsrow, rfl, by rw [hsname]; exact hal⟩

theorem delete_package_preserves_res (db : PackageDatabase) (n pn : String)
    (allowed : List String) (hne : pn ≠ n)
    (h : resolvableVia db pn allowed) :
    resolvableVia (delete_package db n).1 pn allowed := by
  obtain ⟨row, hrow, hrn, y, hy, hyid, hyn⟩ := h
  exact ⟨row, delete_package_keep db n row hrow (by rw [hrn]; exact hne),
    hrn, y, hy, hyid, hyn⟩

theorem delete_source_preserves_res (db : PackageDatabase) (n pn : String)
    (allowed : List String) (hids : (db.sources.map SourceRow.id).Nodup)
    (hn : n ∉ allowed) (h : resolvableVia db pn allowed) :
    resolvableVia (delete_source db n).1 pn allowed := by
  obtain ⟨row, hrow, hrn, y, hy, hyid, hyn⟩ := h
  unfold delete_source
  rcases hfind : db.sources.find? (fun s => s.name = n) with _ | srow
  · rw [hfind]
    exact ⟨row, hrow, hrn, y, hy, hyid, hyn⟩
  · rw [hfind]
    have hsrow := List.mem_of_find?_eq_some hfind
    have hsname : srow.name = n := by
      have := List.find?_some hfind
      simpa using this
    have hyne : ¬(y.id = srow.id) := by
      intro hcon
      have hys : y = srow := map_nodup_inj SourceRow.id _ hids hy hsrow hcon
      rw [hys, hsname] at hyn
      exact hn hyn
    exact ⟨row, hrow, hrn, y,
      List.mem_filter.2 ⟨hy, by simpa using hyne⟩, hyid, hyn⟩

theorem get_packages_by_source_name_spec (db : PackageDatabase)
    (n : String) :
    ∀ q ∈ get_packages_by_source_name db n,
      q ∈ db.packages ∧
      ∃ z, db.sources.find? (fun s => s.name = n) = some z ∧
        q.source_id = z.id := by
  unfold get_packages_by_source_name
  rcases hfind : db.sources.find? (fun s => s.name = n) with _ | z
  · rw [hfind]
    intro q hq
    cases hq
  · rw [hfind]
    intro q hq
    have hq2 := List.mem_filter.1 hq
    exact ⟨hq2.1, z, rfl, by simpa using hq2.2⟩

theorem dponly_fold_preserves_res (pks : List PackageRow)
    (db : PackageDatabase) (pn : String) (allowed : List String)
    (hq : ∀ q ∈ pks, q.name ≠ pn)
    (h : resolvableVia db pn allowed) :
    resolvableVia
      (pks.foldl (fun db2 p => (delete_package db2 p.name).1) db) pn
      allowed := by
  induction pks generalizing db with
  | nil => exact h
  | cons q qs ih =>
    rw [List.foldl_cons]
    exact ih _ (fun q2 hq2 => hq q2 (List.mem_cons_of_mem _ hq2))
      (delete_package_preserves_res db q.name pn allowed
        (Ne.symm (hq q (List.mem_cons_self _ _))) h)

theorem remsrcstep_preserves_res (st : PackageDatabase × List Event)
    (n pn : String) (allowed : List String) (hwf : WF st.1)
    (hn : n ∉ allowed) (h : resolvableVia st.1 pn allowed) :
    resolvableVia (removedSourceStep st n).1 pn allowed := by
  rw [(removedSourceStep_unfold st n).1]
  have hsh := dponly_fold_shape (get_packages_by_source_name st.1 n) st.1
  have hq : ∀ q ∈ get_packages_by_source_name st.1 n, q.name ≠ pn := by
    intro q hqmem hqname
    obtain ⟨row, hrow, hrn, y, hy, hyid, hyn⟩ := h
    obtain ⟨hqpkg, z, hzfind, hqid⟩ :=
      get_packages_by_source_name_spec st.1 n q hqmem
    have hqrow : q = row :=
      map_nodup_inj PackageRow.name _ hwf.2.2.1 hqpkg hrow
        (by rw [hqname, hrn])
    have hzmem := List.mem_of_find?_eq_some hzfind
    have hzname : z.name = n := by
      have := List.find?_some hzfind
      simpa using this
    have hyz : y = z := by
      apply map_nodup_inj SourceRow.id _ hwf.2.1 hy hzmem
      rw [hyid, ← hqid, hqrow]
    rw [hyz, hzname] at hyn
    exact hn hyn
  exact delete_source_preserves_res _ n pn allowed
    (by rw [hsh.2]; exact hwf.2.1) hn
    (dponly_fold_preserves_res _ _ pn allowed hq h)

theorem pkgphase_preserves_res (L : List SnapshotPackage)
    (st : PackageDatabase × List Event) (pn : String)
    (allowed : List String) (hall : ∀ q ∈ L, q.source ∈ allowed)
    (h : resolvableVia st.1 pn allowed) :
    resolvableVia (L.foldl packageStep st).1 pn allowed := by
  induction L generalizing st with
  | nil => exact h
  | cons q L2 ih =>
    rw [List.foldl_cons]
    refine ih (packageStep st q)
      (fun q2 hq2 => hall q2 (List.mem_cons_of_mem _ hq2)) ?_
    rw [packageStep_db]
    exact add_package_metadata_preserves_res st.1 q.source (some q.name)
      q.maintainer q.homepage_url q.license q.category q.summary
      q.description pn allowed h (hall q (List.mem_cons_self _ _))

theorem pkgphase_res (L : List SnapshotPackage)
    (st : PackageDatabase × List Event) (allowed : List String)
    (hpres : ∀ q ∈ L, ∃ x ∈ st.1.sources, x.name = q.source)
    (hall : ∀ q ∈ L, q.source ∈ allowed) :
    ∀ p ∈ L, resolvableVia (L.foldl packageStep st).1 p.name allowed := by
  induction L generalizing st with
  | nil =>
    intro p hp
    cases hp
  | cons q L2 ih =>
    intro p hp
    rw [List.foldl_cons]
    rcases List.mem_cons.1 hp with hpq | hp2
    · rw [hpq]
      exact pkgphase_preserves_res L2 (packageStep st q) q.name allowed
        (fun q2 hq2 => hall q2 (List.mem_cons_of_mem _ hq2))
        (packageStep_establish_res st q allowed
          (hpres q (List.mem_cons_self _ _))
          (hall q (List.mem_cons_self _ _)))
    · refine ih (packageStep st q) ?_
        (fun q2 hq2 => hall q2 (List.mem_cons_of_mem _ hq2)) p hp2
      intro q2 hq2
      rw [packageStep_db,
        (add_package_metadata_sources st.1 q.source (some q.name)
          q.maintainer q.homepage_url q.license q.category q.summary
          q.description).1]
      exact hpres q2 (List.mem_cons_of_mem _ hq2)

theorem sourceStep_eq (ex ups : List String)
    (prov : String → Option String) (now : Nat)
    (st : PackageDatabase × List Event) (s : SnapshotSource) :
    sourceStep ex ups prov now st s =
      ups.foldl (upsStep prov now s (!(ex.contains s.name)))
        (if updater_get_latest_version st.1 s.name "local" ≠
            some (effectiveLocalVersion s.version) then
          ((add_source_version st.1 now s.name
              (effectiveLocalVersion s.version) "local").1,
           if !(ex.contains s.name) then st.2
           else st.2 ++ [.localVersionUpdated s.name
             (effectiveLocalVersion s.version) "local"])
         else st) := rfl

theorem updater_add_stable (db : PackageDatabase) (t : Nat)
    (n v o m o2 : String) (hwf : WF db) (hne : m ≠ n ∨ o2 ≠ o) :
    updater_get_latest_version (add_source_version db t n v o).1 m o2 =
      updater_get_latest_version db m o2 :=
  updater_congr db _ m o2 (joinedRows_add_stable db t n v o m o2 hwf hne)

theorem estSource_add_stable (ups : List String)
    (prov : String → Option String) (s2 : SnapshotSource)
    (db : PackageDatabase) (t : Nat) (n v o : String) (hwf : WF db)
    (hne : s2.name ≠ n) (h : EstSource ups prov s2 db) :
    EstSource ups prov s2 (add_source_version db t n v o).1 := by
  refine ⟨?_, ?_⟩
  · rw [updater_add_stable db t n v o s2.name "local" hwf (Or.inl hne)]
    exact h.1
  · intro hmem uv hprov huv
    rw [updater_add_stable db t n v o s2.name "nixos" hwf (Or.inl hne)]
    exact h.2 hmem uv hprov huv

theorem add_source_version_versions_spec (db : PackageDatabase) (t : Nat)
    (n v o : String) (hnd : (db.sources.map SourceRow.name).Nodup) :
    ∀ r ∈ (add_source_version db t n v o).1.versions,
      r ∈ db.versions ∨
      (r.timestamp = t ∧ r.version = v ∧ r.source = o ∧
       ∃ x ∈ (add_source_version db t n v o).1.sources,
         x.id = r.source_id ∧ x.name = n) := by
  rcases add_source_version_spec db t n v o hnd with
    ⟨srow, hfind, hname, hmem, huniq, heq⟩
  have heq1 : (add_source_version db t n v o).1.versions =
      (ensureSource db n).versions.filter
        (fun r => !(r.source_id = srow.id && r.version = v &&
          r.source = o)) ++
        [⟨(ensureSource db n).nextVersionId, srow.id, v, o, t⟩] := by
    rw [heq]
  intro r hr
  rw [heq1] at hr
  rcases List.mem_append.1 hr with h | h
  · left
    have := (List.mem_filter.1 h).1
    rwa [ensureSource_versions] at this
  · right
    simp only [List.mem_singleton] at h
    subst h
    refine ⟨rfl, rfl, rfl, srow, ?_, rfl, hname⟩
    rw [add_source_version_sources]
    exact hmem

theorem joined_lt_of_inv (db : PackageDatabase) (now1 : Nat)
    (done : List SnapshotSource) (nm o : String)
    (hbound : ∀ r ∈ db.versions, r.timestamp ≤ now1)
    (hfresh : ∀ r ∈ db.versions, r.timestamp = now1 →
      ∀ x ∈ db.sources, x.id = r.source_id →
        x.name ∈ done.map SnapshotSource.name)
    (hnm : nm ∉ done.map SnapshotSource.name) :
    ∀ r ∈ joinedRows db nm o, r.timestamp < now1 := by
  intro r hr
  obtain ⟨hrv, hro, x, hx, hxid, hxn⟩ := (mem_joinedRows db nm o r).1 hr
  rcases Nat.lt_or_ge r.timestamp now1 with h | h
  · exact h
  · exfalso
    have hle := hbound r hrv
    have heqt : r.timestamp = now1 := Nat.le_antisymm hle h
    have := hfresh r hrv heqt x hx hxid
    rw [hxn] at this
    exact hnm this

theorem upsStep_inv (ups : List String) (prov : String → Option String)
    (now1 : Nat) (done : List SnapshotSource) (s : SnapshotSource)
    (isNew : Bool) (st2 : PackageDatabase × List Event) (up : String)
    (hdiff : ∀ s2 ∈ done, s2.name ≠ s.name)
    (h : CoreInv ups prov now1 done s st2) :
    CoreInv ups prov now1 done s (upsStep prov now1 s isNew st2 up) ∧
    (up = "nixos" →
      ∀ uv, prov s.name = some uv → uv ≠ "" →
        updater_get_latest_version (upsStep prov now1 s isNew st2 up).1
          s.name "nixos" = some uv) := by
  obtain ⟨hwf, hbound, hfresh, hloc, hD, hdone⟩ := h
  unfold upsStep
  by_cases hup : up = "nixos"
  · rw [if_pos hup]
    subst hup
    rcases hprov : prov s.name with _ | uv0
    · exact ⟨⟨hwf, hbound, hfresh, hloc, hD, hdone⟩,
        fun _ uv hpr _ => by cases hpr⟩
    · dsimp only
      by_cases hempty : uv0 = ""
      · rw [if_pos hempty]
        refine ⟨⟨hwf, hbound, hfresh, hloc, hD, hdone⟩, ?_⟩
        intro _ uv hpr huv
        cases hpr
        exact absurd hempty huv
      · rw [if_neg hempty]
        by_cases hcond : updater_get_latest_version st2.1 s.name "nixos" ≠
            some uv0
        · rw [if_pos hcond]
          have hold : ∀ r ∈ joinedRows st2.1 s.name "nixos",
              r.timestamp < now1 := by
            rcases hD uv0 hprov hempty with hD1 | hD2
            · exact absurd hD1 hcond
            · exact hD2
          have hupd : updater_get_latest_version
              (add_source_version st2.1 now1 s.name uv0 "nixos").1
              s.name "nixos" = some uv0 :=
            updater_latest_after_add st2.1 now1 s.name uv0 "nixos" hwf hold
          have hwf2 : WF (add_source_version st2.1 now1 s.name uv0
              "nixos").1 :=
            WF_add_source_version st2.1 now1 s.name uv0 "nixos" hwf
          refine ⟨⟨hwf2, ?_, ?_, ?_, fun uv hpr hne2 => ?_, ?_⟩,
            fun _ uv hpr hne2 => ?_⟩
          · intro r hr
            rcases add_source_version_versions_spec st2.1 now1 s.name uv0
                "nixos" hwf.1 r hr with hrold | hrnew
            · exact hbound r hrold
            · exact Nat.le_of_eq hrnew.1
          · intro r hr hts x hx hxid
            rcases add_source_version_versions_spec st2.1 now1 s.name uv0
                "nixos" hwf.1 r hr with hrold | hrnew
            · rw [add_source_version_sources] at hx
              rcases ensureSource_sources_cases st2.1 s.name x hx with
                hxdb | hxnew
              · exact hfresh r hrold hts x hxdb hxid
              · exfalso
                have := hwf.2.2.2.2 r hrold
                rw [← hxid, hxnew] at this
                exact Nat.lt_irrefl _ this
            · obtain ⟨_, _, _, x2, hx2, hx2id, hx2n⟩ := hrnew
              have hids : (((add_source_version st2.1 now1 s.name uv0
                  "nixos").1).sources.map SourceRow.id).Nodup := hwf2.2.1
              have hxx2 : x = x2 :=
                map_nodup_inj SourceRow.id _ hids hx hx2
                  (by rw [hxid, hx2id])
              rw [hxx2, hx2n, List.map_append]
              exact List.mem_append_right _ (List.mem_singleton.2 rfl)
          · rw [updater_add_stable st2.1 now1 s.name uv0 "nixos" s.name
              "local" hwf (Or.inr (by decide))]
            exact hloc
          · left
            rw [hprov] at hpr
            cases hpr
            exact hupd
          · intro s2 hs2
            exact estSource_add_stable ups prov s2 st2.1 now1 s.name uv0
              "nixos" hwf (hdiff s2 hs2) (hdone s2 hs2)
          · cases hpr
            exact hupd
        · rw [if_neg hcond]
          have hest : updater_get_latest_version st2.1 s.name "nixos" =
              some uv0 := Decidable.not_not.1 hcond
          refine ⟨⟨hwf, hbound, hfresh, hloc, hD, hdone⟩, ?_⟩
          intro _ uv hpr huv
          cases hpr
          exact hest
  · rw [if_neg hup]
    exact ⟨⟨hwf, hbound, hfresh, hloc, hD, hdone⟩,
      fun hcon => absurd hcon hup⟩

theorem upsStep_id_of_est (prov : String → Option String) (now1 : Nat)
    (s : SnapshotSource) (isNew : Bool)
    (st2 : PackageDatabase × List Event) (up : String)
    (hest : up = "nixos" → ∀ uv, prov s.name = some uv → uv ≠ "" →
      updater_get_latest_version st2.1 s.name "nixos" = some uv) :
    upsStep prov now1 s isNew st2 up = st2 := by
  unfold upsStep
  by_cases hup : up = "nixos"
  · subst hup
    rw [if_pos rfl]
    rcases hprov : prov s.name with _ | uv0
    · rfl
    · dsimp only
      by_cases hempty : uv0 = ""
      · rw [if_pos hempty]
      · rw [if_neg hempty,
          if_neg (not_not_intro (hest rfl uv0 hprov hempty))]
  · rw [if_neg hup]

theorem upsfold_id_of_est (prov : String → Option String) (now1 : Nat)
    (s : SnapshotSource) (isNew : Bool) (u : List String)
    (st2 : PackageDatabase × List Event)
    (hest : ∀ uv, prov s.name = some uv → uv ≠ "" →
      updater_get_latest_version st2.1 s.name "nixos" = some uv) :
    u.foldl (upsStep prov now1 s isNew) st2 = st2 := by
  induction u with
  | nil => rfl
  | cons up rest ih =>
    rw [List.foldl_cons,
      upsStep_id_of_est prov now1 s isNew st2 up (fun _ => hest)]
    exact ih

theorem upsfold_inv (ups : List String) (prov : String → Option String)
    (now1 : Nat) (done : List SnapshotSource) (s : SnapshotSource)
    (isNew : Bool) (hdiff : ∀ s2 ∈ done, s2.name ≠ s.name) :
    ∀ (u : List String) (st2 : PackageDatabase × List Event),
      CoreInv ups prov now1 done s st2 →
      CoreInv ups prov now1 done s
        (u.foldl (upsStep prov now1 s isNew) st2) ∧
      ("nixos" ∈ u → ∀ uv, prov s.name = some uv → uv ≠ "" →
        updater_get_latest_version
          (u.foldl (upsStep prov now1 s isNew) st2).1 s.name "nixos" =
          some uv) := by
  intro u
  induction u with
  | nil =>
    intro st2 h
    exact ⟨h, fun hmem => absurd hmem (List.not_mem_nil _)⟩
  | cons up rest ih =>
    intro st2 h
    rw [List.foldl_cons]
    obtain ⟨hcore2, hest2⟩ :=
      upsStep_inv ups prov now1 done s isNew st2 up hdiff h
    obtain ⟨hcoreF, hestF⟩ := ih (upsStep prov now1 s isNew st2 up) hcore2
    refine ⟨hcoreF, ?_⟩
    intro hmem uv hprov huv
    rcases List.mem_cons.1 hmem with hup | hmem2
    · have hestS := hest2 hup.symm
      rw [upsfold_id_of_est prov now1 s isNew rest _
        (fun uv2 hp2 hu2 => hestS uv2 hp2 hu2)]
      exact hestS uv hprov huv
    · exact hestF hmem2 uv hprov huv

theorem add_bound (db : PackageDatabase) (now1 : Nat) (n v o : String)
    (hwf : WF db) (hbound : ∀ r ∈ db.versions, r.timestamp ≤ now1) :
    ∀ r ∈ (add_source_version db now1 n v o).1.versions,
      r.timestamp ≤ now1 := by
  intro r hr
  rcases add_source_version_versions_spec db now1 n v o hwf.1 r hr with
    hrold | hrnew
  · exact hbound r hrold
  · exact Nat.le_of_eq hrnew.1

theorem add_fresh (db : PackageDatabase) (now1 : Nat) (n v o : String)
    (hwf : WF db) (names : List String)
    (hfresh : ∀ r ∈ db.versions, r.timestamp = now1 →
      ∀ x ∈ db.sources, x.id = r.source_id → x.name ∈ names)
    (hn : n ∈ names) :
    ∀ r ∈ (add_source_version db now1 n v o).1.versions,
      r.timestamp = now1 →
      ∀ x ∈ (add_source_version db now1 n v o).1.sources,
        x.id = r.source_id → x.name ∈ names := by
  intro r hr hts x hx hxid
  rcases add_source_version_versions_spec db now1 n v o hwf.1 r hr with
    hrold | hrnew
  · rw [add_source_version_sources] at hx
    rcases ensureSource_sources_cases db n x hx with hxdb | hxnew
    · exact hfresh r hrold hts x hxdb hxid
    · exfalso
      have := hwf.2.2.2.2 r hrold
      rw [← hxid, hxnew] at this
      exact Nat.lt_irrefl _ this
  · obtain ⟨_, _, _, x2, hx2, hx2id, hx2n⟩ := hrnew
    have hids : ((add_source_version db now1 n v o).1.sources.map
        SourceRow.id).Nodup :=
      (WF_add_source_version db now1 n v o hwf).2.1
    have hxx2 : x = x2 :=
      map_nodup_inj SourceRow.id _ hids hx hx2 (by rw [hxid, hx2id])
    rw [hxx2, hx2n]
    exact hn

theorem sourceStep_inv (ex ups : List String)
    (prov : String → Option String) (now1 : Nat)
    (done : List SnapshotSource) (st : PackageDatabase × List Event)
    (s : SnapshotSource) (hdiff : ∀ s2 ∈ done, s2.name ≠ s.name)
    (hinv : Phase1Inv ups prov now1 done st) :
    Phase1Inv ups prov now1 (done ++ [s])
      (sourceStep ex ups prov now1 st s) := by
  obtain ⟨hwf, hbound, hfresh, hdone⟩ := hinv
  rw [sourceStep_eq]
  have hnotdone : s.name ∉ done.map SnapshotSource.name := by
    intro hmem
    rcases List.mem_map.1 hmem with ⟨s2, hs2, hname⟩
    exact hdiff s2 hs2 hname
  have hjlt : ∀ o, ∀ r ∈ joinedRows st.1 s.name o, r.timestamp < now1 :=
    fun o => joined_lt_of_inv st.1 now1 done s.name o hbound hfresh
      hnotdone
  have hsmem : s.name ∈ (done ++ [s]).map SnapshotSource.name := by
    rw [List.map_append]
    exact List.mem_append_right _ (List.mem_singleton.2 rfl)
  have hfresh2 : ∀ r ∈ st.1.versions, r.timestamp = now1 →
      ∀ x ∈ st.1.sources, x.id = r.source_id →
        x.name ∈ (done ++ [s]).map SnapshotSource.name := by
    intro r hr hts x hx hxid
    rw [List.map_append]
    exact List.mem_append_left _ (hfresh r hr hts x hx hxid)
  have hcore : CoreInv ups prov now1 done s
      (if updater_get_latest_version st.1 s.name "local" ≠
          some (effectiveLocalVersion s.version) then
        ((add_source_version st.1 now1 s.name
            (effectiveLocalVersion s.version) "local").1,
         if !(ex.contains s.name) then st.2
         else st.2 ++ [.localVersionUpdated s.name
           (effectiveLocalVersion s.version) "local"])
       else st) := by
    by_cases hcond : updater_get_latest_version st.1 s.name "local" ≠
        some (effectiveLocalVersion s.version)
    · rw [if_pos hcond]
      have hwf2 := WF_add_source_version st.1 now1 s.name
        (effectiveLocalVersion s.version) "local" hwf
      refine ⟨hwf2,
        add_bound st.1 now1 s.name (effectiveLocalVersion s.version)
          "local" hwf hbound,
        add_fresh st.1 now1 s.name (effectiveLocalVersion s.version)
          "local" hwf _ hfresh2 hsmem,
        updater_latest_after_add st.1 now1 s.name
          (effectiveLocalVersion s.version) "local" hwf (hjlt "local"),
        ?_, ?_⟩
      · intro uv hpr huv
        right
        intro r hr
        rw [joinedRows_add_stable st.1 now1 s.name
          (effectiveLocalVersion s.version) "local" s.name "nixos" hwf
          (Or.inr (by decide))] at hr
        exact hjlt "nixos" r hr
      · intro s2 hs2
        exact estSource_add_stable ups prov s2 st.1 now1 s.name
          (effectiveLocalVersion s.version) "local" hwf (hdiff s2 hs2)
          (hdone s2 hs2)
    · rw [if_neg hcond]
      exact ⟨hwf, hbound, hfresh2, Decidable.not_not.1 hcond,
        fun uv _ _ => Or.inr (hjlt "nixos"), hdone⟩
  obtain ⟨hcoreF, hestF⟩ :=
    upsfold_inv ups prov now1 done s (!(ex.contains s.name)) hdiff ups _
      hcore
  obtain ⟨hwfF, hboundF, hfreshF, hlocF, hDF, hdoneF⟩ := hcoreF
  refine ⟨hwfF, hboundF, hfreshF, ?_⟩
  intro s2 hs2
  rcases List.mem_append.1 hs2 with h2 | h2
  · exact hdoneF s2 h2
  · simp only [List.mem_singleton] at h2
    subst h2
    exact ⟨hlocF, fun hmem uv hpr huv => hestF hmem uv hpr huv⟩

theorem srcphase_inv (ex ups : List String)
    (prov : String → Option String) (now1 : Nat) :
    ∀ (S : List SnapshotSource) (done : List SnapshotSource)
      (st : PackageDatabase × List Event),
      Phase1Inv ups prov now1 done st →
      ((done ++ S).map SnapshotSource.name).Nodup →
      Phase1Inv ups prov now1 (done ++ S)
        (S.foldl (sourceStep ex ups prov now1) st) := by
  intro S
  induction S with
  | nil =>
    intro done st hinv hnd
    simpa using hinv
  | cons s S2 ih =>
    intro done st hinv hnd
    have hdiff : ∀ s2 ∈ done, s2.name ≠ s.name := by
      intro s2 hs2 hcon
      rw [List.map_append] at hnd
      have hdisj := (List.nodup_append.1 hnd).2.2
      exact hdisj (List.mem_map.2 ⟨s2, hs2, rfl⟩)
        (by rw [hcon, List.map_cons]; exact List.mem_cons_self _ _)
    have hstep := sourceStep_inv ex ups prov now1 done st s hdiff hinv
    have hnd2 : (((done ++ [s]) ++ S2).map SnapshotSource.name).Nodup := by
      rw [List.append_assoc]
      exact hnd
    have := ih (done ++ [s]) (sourceStep ex ups prov now1 st s) hstep hnd2
    rw [List.append_assoc] at this
    exact this

theorem contains_true_iff {l : List String} {a : String} :
    l.contains a = true ↔ a ∈ l := by
  simp

theorem pkgphase_rows_cases (L : List SnapshotPackage)
    (st : PackageDatabase × List Event) :
    ∀ row ∈ (L.foldl packageStep st).1.packages,
      row.name ∈ L.map SnapshotPackage.name ∨ row ∈ st.1.packages := by
  induction L generalizing st with
  | nil =>
    intro row hrow
    exact Or.inr hrow
  | cons p L2 ih =>
    intro row hrow
    rw [List.foldl_cons] at hrow
    rcases ih (packageStep st p) row hrow with h | h
    · left
      rw [List.map_cons]
      exact List.mem_cons_of_mem _ h
    · rw [packageStep_db] at h
      rcases add_package_metadata_rows_sub st.1 p.source (some p.name)
          p.maintainer p.homepage_url p.license p.category p.summary
          p.description row h with h2 | h2
      · left
        rw [List.map_cons]
        exact List.mem_cons.2 (Or.inl h2)
      · exact Or.inr h2

theorem rempkgphase_gone (R : List String)
    (st : PackageDatabase × List Event) :
    ∀ n ∈ R, ∀ row ∈ (R.foldl removedPackageStep st).1.packages,
      row.name ≠ n := by
  induction R generalizing st with
  | nil =>
    intro n hn
    cases hn
  | cons a R2 ih =>
    intro n hn row hrow
    rw [List.foldl_cons] at hrow
    rcases List.mem_cons.1 hn with rfl | hn2
    · have hrow2 :=
        rempkgphase_rows_sub R2 (removedPackageStep st n) row hrow
      rw [removedPackageStep_db] at hrow2
      exact delete_package_gone st.1 _ row hrow2
    · exact ih (removedPackageStep st a) n hn2 row hrow

theorem remsrcstep_sources_sub (st : PackageDatabase × List Event)
    (n : String) :
    ∀ x ∈ (removedSourceStep st n).1.sources, x ∈ st.1.sources := by
  rw [(removedSourceStep_unfold st n).1]
  intro x hx
  have hdel := delete_source_sources_sub _ n x hx
  have hsh := dponly_fold_shape (get_packages_by_source_name st.1 n) st.1
  rw [hsh.2] at hdel
  exact hdel

theorem remsrcphase_sources_sub (R : List String)
    (st : PackageDatabase × List Event) :
    ∀ x ∈ (R.foldl removedSourceStep st).1.sources, x ∈ st.1.sources := by
  refine foldl_preserve
    (fun (st2 : PackageDatabase × List Event) =>
      ∀ x ∈ st2.1.sources, x ∈ st.1.sources) _ R ?_ _ (fun x h => h)
  intro st2 n hn h2 x hx
  exact h2 x (remsrcstep_sources_sub st2 n x hx)

theorem remsrcstep_gone (st : PackageDatabase × List Event) (n : String)
    (hwf : WF st.1) :
    ∀ x ∈ (removedSourceStep st n).1.sources, x.name ≠ n := by
  rw [(removedSourceStep_unfold st n).1]
  have hsh := dponly_fold_shape (get_packages_by_source_name st.1 n) st.1
  intro x hx
  unfold delete_source at hx
  rcases hfind : ((get_packages_by_source_name st.1 n).foldl
      (fun db2 p => (delete_package db2 p.name).1) st.1).sources.find?
      (fun s => s.name = n) with _ | z
  · rw [hfind] at hx
    intro hcon
    exact List.find?_eq_none.1 hfind x hx (by simpa using hcon)
  · rw [hfind] at hx
    have hz := List.mem_of_find?_eq_some hfind
    have hzn : z.name = n := by
      have := List.find?_some hfind
      simpa using this
    rw [hsh.2] at hz
    have hx2 := List.mem_filter.1 hx
    have hxmem : x ∈ st.1.sources := by
      have := hx2.1
      rwa [hsh.2] at this
    intro hcon
    have hxz : x = z :=
      map_nodup_inj SourceRow.name _ hwf.1 hxmem hz (by rw [hcon, hzn])
    have := hx2.2
    rw [hxz] at this
    simp at this

theorem remsrcphase_gone (R : List String)
    (st : PackageDatabase × List Event) (hwf : WF st.1) :
    ∀ n ∈ R, ∀ x ∈ (R.foldl removedSourceStep st).1.sources,
      x.name ≠ n := by
  induction R generalizing st with
  | nil =>
    intro n hn
    cases hn
  | cons a R2 ih =>
    intro n hn x hx
    rw [List.foldl_cons] at hx
    rcases List.mem_cons.1 hn with rfl | hn2
    · have hx2 := remsrcphase_sources_sub R2 (removedSourceStep st n) x hx
      exact remsrcstep_gone st _ hwf x hx2
    · exact ih (removedSourceStep st a) (remsrcstep_WF st a hwf) n hn2 x hx

theorem add_source_version_sources_shape (db : PackageDatabase) (t : Nat)
    (n v o : String) :
    ∃ ext, (add_source_version db t n v o).1.sources =
      db.sources ++ ext ∧ ∀ y ∈ ext, y.name = n := by
  rw [add_source_version_sources]
  unfold ensureSource
  split
  · exact ⟨[], by rw [List.append_nil], fun y hy => by cases hy⟩
  · refine ⟨[⟨db.nextSourceId, n⟩], rfl, ?_⟩
    intro y hy
    simp only [List.mem_singleton] at hy
    rw [hy]

theorem upsStep_sources_shape (prov : String → Option String) (now : Nat)
    (s : SnapshotSource) (isNew : Bool)
    (st2 : PackageDatabase × List Event) (up : String) :
    ∃ ext, (upsStep prov now s isNew st2 up).1.sources =
      st2.1.sources ++ ext ∧ ∀ y ∈ ext, y.name = s.name := by
  unfold upsStep
  by_cases hup : up = "nixos"
  · rw [if_pos hup]
    rcases hprov : prov s.name with _ | uv0
    · exact ⟨[], by rw [List.append_nil], fun y hy => by cases hy⟩
    · dsimp only
      by_cases hempty : uv0 = ""
      · rw [if_pos hempty]
        exact ⟨[], by rw [List.append_nil], fun y hy => by cases hy⟩
      · rw [if_neg hempty]
        by_cases hcond : updater_get_latest_version st2.1 s.name up ≠
            some uv0
        · rw [if_pos hcond]
          exact add_source_version_sources_shape st2.1 now s.name uv0 up
        · rw [if_neg hcond]
          exact ⟨[], by rw [List.append_nil], fun y hy => by cases hy⟩
  · rw [if_neg hup]
    exact ⟨[], by rw [List.append_nil], fun y hy => by cases hy⟩

theorem sourceStep_sources_shape (ex ups : List String)
    (prov : String → Option String) (now : Nat)
    (st : PackageDatabase × List Event) (s : SnapshotSource) :
    ∃ ext, (sourceStep ex ups prov now st s).1.sources =
      st.1.sources ++ ext ∧ ∀ y ∈ ext, y.name = s.name := by
  rw [sourceStep_eq]
  have hst1 : ∃ ext,
      (if updater_get_latest_version st.1 s.name "local" ≠
          some (effectiveLocalVersion s.version) then
        ((add_source_version st.1 now s.name
            (effectiveLocalVersion s.version) "local").1,
         if !(ex.contains s.name) then st.2
         else st.2 ++ [.localVersionUpdated s.name
           (effectiveLocalVersion s.version) "local"])
       else st).1.sources = st.1.sources ++ ext ∧
      ∀ y ∈ ext, y.name = s.name := by
    split
    · exact add_source_version_sources_shape st.1 now s.name
        (effectiveLocalVersion s.version) "local"
    · exact ⟨[], by rw [List.append_nil], fun y hy => by cases hy⟩
  revert hst1
  generalize (if updater_get_latest_version st.1 s.name "local" ≠
      some (effectiveLocalVersion s.version) then
    ((add_source_version st.1 now s.name
        (effectiveLocalVersion s.version) "local").1,
     if !(ex.contains s.name) then st.2
     else st.2 ++ [.localVersionUpdated s.name
       (effectiveLocalVersion s.version) "local"])
   else st) = st1
  intro hst1
  obtain ⟨ext1, hext1, hn1⟩ := hst1
  induction ups generalizing st1 ext1 with
  | nil => exact ⟨ext1, hext1, hn1⟩
  | cons up rest ih =>
    rw [List.foldl_cons]
    obtain ⟨ext2, hext2, hn2⟩ :=
      upsStep_sources_shape prov now s (!(ex.contains s.name)) st1 up
    refine ih (upsStep prov now s (!(ex.contains s.name)) st1 up)
      (ext1 ++ ext2) ?_ ?_
    · rw [hext2, hext1, List.append_assoc]
    · intro y hy
      rcases List.mem_append.1 hy with h | h
      · exact hn1 y h
      · exact hn2 y h

theorem srcphase_sources_shape (S : List SnapshotSource)
    (ex ups : List String) (prov : String → Option String) (now : Nat)
    (st : PackageDatabase × List Event) :
    ∃ ext, (S.foldl (sourceStep ex ups prov now) st).1.sources =
      st.1.sources ++ ext ∧
      ∀ y ∈ ext, y.name ∈ S.map SnapshotSource.name := by
  induction S generalizing st with
  | nil =>
    exact ⟨[], by rw [List.foldl_nil, List.append_nil], fun y hy => by cases hy⟩
  | cons s S2 ih =>
    rw [List.foldl_cons]
    obtain ⟨ext1, hext1, hn1⟩ :=
      sourceStep_sources_shape ex ups prov now st s
    obtain ⟨ext2, hext2, hn2⟩ := ih (sourceStep ex ups prov now st s)
    refine ⟨ext1 ++ ext2, ?_, ?_⟩
    · rw [hext2, hext1, List.append_assoc]
    · intro y hy
      rw [List.map_cons]
      rcases List.mem_append.1 hy with h | h
      · exact List.mem_cons.2 (Or.inl (hn1 y h))
      · exact List.mem_cons_of_mem _ (hn2 y h)

theorem estSource_congr (ups : List String)
    (prov : String → Option String) (s : SnapshotSource)
    (db db2 : PackageDatabase)
    (h : joinedRows db2 s.name "local" = joinedRows db s.name "local")
    (h2 : joinedRows db2 s.name "nixos" = joinedRows db s.name "nixos")
    (hest : EstSource ups prov s db) : EstSource ups prov s db2 := by
  refine ⟨?_, ?_⟩
  · rw [updater_congr db db2 s.name "local" h]
    exact hest.1
  · intro hm uv hp hu
    rw [updater_congr db db2 s.name "nixos" h2]
    exact hest.2 hm uv hp hu

theorem rempkgphase_preserves_res (R : List String)
    (st : PackageDatabase × List Event) (pn : String)
    (allowed : List String) (hR : ∀ n ∈ R, n ≠ pn)
    (h : resolvableVia st.1 pn allowed) :
    resolvableVia (R.foldl removedPackageStep st).1 pn allowed := by
  refine foldl_preserve
    (fun (st2 : PackageDatabase × List Event) =>
      resolvableVia st2.1 pn allowed) _ R ?_ _ h
  intro st2 n hn h2
  rw [removedPackageStep_db]
  exact delete_package_preserves_res st2.1 n pn allowed
    (Ne.symm (hR n hn)) h2

theorem remsrcphase_preserves_res (R : List String)
    (st : PackageDatabase × List Event) (pn : String)
    (allowed : List String) (hwf : WF st.1) (hR : ∀ n ∈ R, n ∉ allowed)
    (h : resolvableVia st.1 pn allowed) :
    resolvableVia (R.foldl removedSourceStep st).1 pn allowed := by
  have key : WF (R.foldl removedSourceStep st).1 ∧
      resolvableVia (R.foldl removedSourceStep st).1 pn allowed := by
    refine foldl_preserve
      (fun (st2 : PackageDatabase × List Event) =>
        WF st2.1 ∧ resolvableVia st2.1 pn allowed)
      _ R ?_ _ ⟨hwf, h⟩
    intro st2 n hn h2
    exact ⟨remsrcstep_WF st2 n h2.1,
      remsrcstep_preserves_res st2 n pn allowed h2.1 (hR n hn) h2.2⟩
  exact key.2

theorem remsrcphase_pkg_sub (R : List String)
    (st : PackageDatabase × List Event) :
    ∀ row ∈ (R.foldl removedSourceStep st).1.packages,
      row ∈ st.1.packages := by
  refine foldl_preserve
    (fun (st2 : PackageDatabase × List Event) =>
      ∀ row ∈ st2.1.packages, row ∈ st.1.packages) _ R ?_ _
    (fun row h => h)
  intro st2 n hn h2 row hrow
  exact h2 row (remsrcstep_rows_sub st2 n row hrow)

theorem updater_ne_none_source (db : PackageDatabase) (n o v : String)
    (h : updater_get_latest_version db n o = some v) :
    ∃ x ∈ db.sources, x.name = n := by
  apply get_latest_some_source db n o
  intro hc
  unfold updater_get_latest_version at h
  rw [hc] at h
  cases h

theorem run1_established (db0 : PackageDatabase) (snap : Snapshot)
    (ups : List String) (prov : String → Option String) (now1 : Nat)
    (hwf : WF db0)
    (hnodupS : (snap.sources.map SnapshotSource.name).Nodup)
    (hpsrc : ∀ p ∈ snap.pkgs,
      p.source ∈ snap.sources.map SnapshotSource.name)
    (htime : ∀ r ∈ db0.versions, r.timestamp < now1) :
    WF (update_database db0 snap ups prov now1).1 ∧
    (∀ s ∈ snap.sources,
      EstSource ups prov s (update_database db0 snap ups prov now1).1) ∧
    (∀ p ∈ snap.pkgs,
      resolvableVia (update_database db0 snap ups prov now1).1 p.name
        (snap.sources.map SnapshotSource.name)) ∧
    (∀ row ∈ (update_database db0 snap ups prov now1).1.packages,
      row.name ∈ snap.pkgs.map SnapshotPackage.name) ∧
    (∀ x ∈ (update_database db0 snap ups prov now1).1.sources,
      x.name ∈ snap.sources.map SnapshotSource.name) := by
  rw [update_database_phases]
  set ex := get_all_source_names db0 with hex
  set curS := snap.sources.map SnapshotSource.name with hcurS
  set curP := snap.pkgs.map SnapshotPackage.name with hcurP
  set R := (get_all_package_names db0).filter
    (fun n => !(curP.contains n)) with hR
  set Rs := ex.filter (fun n => !(curS.contains n)) with hRs
  set st1 := snap.sources.foldl (sourceStep ex ups prov now1)
    (db0, []) with hst1
  set st2 := snap.pkgs.foldl packageStep st1 with hst2
  set st3 := R.foldl removedPackageStep st2 with hst3
  have hRnotin : ∀ n ∈ R, n ∉ curP := by
    intro n hn
    have hcond := (List.mem_filter.1 hn).2
    rw [Bool.not_eq_true'] at hcond
    intro hmem
    rw [contains_true_iff.2 hmem] at hcond
    cases hcond
  have hRsnotin : ∀ n ∈ Rs, n ∉ curS := by
    intro n hn
    have hcond := (List.mem_filter.1 hn).2
    rw [Bool.not_eq_true'] at hcond
    intro hmem
    rw [contains_true_iff.2 hmem] at hcond
    cases hcond
  have hinv1 : Phase1Inv ups prov now1 snap.sources st1 := by
    have hinit : Phase1Inv ups prov now1 [] (db0, []) := by
      refine ⟨hwf, fun r hr => Nat.le_of_lt (htime r hr), ?_, ?_⟩
      · intro r hr hts
        exact absurd hts (Nat.ne_of_lt (htime r hr))
      · intro s2 hs2
        cases hs2
    have := srcphase_inv ex ups prov now1 snap.sources [] (db0, []) hinit
      (by simpa using hnodupS)
    simpa using this
  have hwf1 : WF st1.1 := hinv1.1
  have hwf2 : WF st2.1 := pkgphase_WF snap.pkgs st1 hwf1
  have hwf3 : WF st3.1 := rempkgphase_WF R st2 hwf2
  have hwf4 : WF ((Rs.foldl removedSourceStep st3).1) :=
    remsrcphase_WF Rs st3 hwf3
  have hjoins : ∀ m : String, m ∈ curS → ∀ o : String,
      joinedRows (Rs.foldl removedSourceStep st3).1 m o =
        joinedRows st1.1 m o := by
    intro m hm o
    have h4 : joinedRows (Rs.foldl removedSourceStep st3).1 m o =
        joinedRows st3.1 m o :=
      remsrcphase_joined Rs st3 m o hwf3
        (fun n hn hcon => hRsnotin n hn (hcon ▸ hm))
    have h3 : joinedRows st3.1 m o = joinedRows st2.1 m o :=
      joinedRows_eq_of st2.1 st3.1 m o (rempkgphase_versions R st2)
        (rempkgphase_sources R st2)
    have h2 : joinedRows st2.1 m o = joinedRows st1.1 m o :=
      joinedRows_eq_of st1.1 st2.1 m o (pkgphase_versions snap.pkgs st1)
        (pkgphase_sources snap.pkgs st1)
    rw [h4, h3, h2]
  have hest4 : ∀ s ∈ snap.sources,
      EstSource ups prov s (Rs.foldl removedSourceStep st3).1 := by
    intro s hs
    have hm : s.name ∈ curS := List.mem_map.2 ⟨s, hs, rfl⟩
    exact estSource_congr ups prov s st1.1 _
      (hjoins s.name hm "local") (hjoins s.name hm "nixos")
      (hinv1.2.2.2 s hs)
  have hpres1 : ∀ q ∈ snap.pkgs, ∃ x ∈ st1.1.sources,
      x.name = q.source := by
    intro q hq
    rcases List.mem_map.1 (hpsrc q hq) with ⟨s2, hs2, hs2n⟩
    obtain ⟨x, hx, hxn⟩ := updater_ne_none_source st1.1 s2.name "local"
      (effectiveLocalVersion s2.version) (hinv1.2.2.2 s2 hs2).1
    exact ⟨x, hx, by rw [hxn, hs2n]⟩
  have hres2 : ∀ p ∈ snap.pkgs, resolvableVia st2.1 p.name curS :=
    pkgphase_res snap.pkgs st1 curS hpres1 hpsrc
  have hres3 : ∀ p ∈ snap.pkgs, resolvableVia st3.1 p.name curS := by
    intro p hp
    exact rempkgphase_preserves_res R st2 p.name curS
      (fun n hn hcon => hRnotin n hn (hcon ▸ List.mem_map.2 ⟨p, hp, rfl⟩))
      (hres2 p hp)
  have hres4 : ∀ p ∈ snap.pkgs,
      resolvableVia (Rs.foldl removedSourceStep st3).1 p.name curS := by
    intro p hp
    exact remsrcphase_preserves_res Rs st3 p.name curS hwf3 hRsnotin
      (hres3 p hp)
  have hP4 : ∀ row ∈ (Rs.foldl removedSourceStep st3).1.packages,
      row.name ∈ curP := by
    intro row hrow
    have hrow3 : row ∈ st3.1.packages :=
      remsrcphase_pkg_sub Rs st3 row hrow
    have hrow2 : row ∈ st2.1.packages :=
      rempkgphase_rows_sub R st2 row hrow3
    rcases pkgphase_rows_cases snap.pkgs st1 row hrow2 with h | h
    · exact h
    · have hrow0 : row ∈ db0.packages := by
        rw [← srcphase_packages snap.sources ex ups prov now1 (db0, [])]
        exact h
      by_cases hname : row.name ∈ curP
      · exact hname
      · exfalso
        have hmemR : row.name ∈ R := by
          apply List.mem_filter.2
          refine ⟨?_, ?_⟩
          · exact mem_sortStrings.2 (List.mem_map.2 ⟨row, hrow0, rfl⟩)
          · rw [Bool.not_eq_true']
            apply Bool.eq_false_iff.2
            intro hc
            exact hname (contains_true_iff.1 hc)
        exact rempkgphase_gone R st2 row.name hmemR row hrow3 rfl
  have hP5 : ∀ x ∈ (Rs.foldl removedSourceStep st3).1.sources,
      x.name ∈ curS := by
    intro x hx
    obtain ⟨ext, hext, hnames⟩ :=
      srcphase_sources_shape snap.sources ex ups prov now1 (db0, [])
    have hx3 : x ∈ st3.1.sources := remsrcphase_sources_sub Rs st3 x hx
    have hx1 : x ∈ st1.1.sources := by
      rw [← pkgphase_sources snap.pkgs st1,
        ← rempkgphase_sources R st2]
      exact hx3
    rw [hext] at hx1
    rcases List.mem_append.1 hx1 with h | h
    · by_cases hname : x.name ∈ curS
      · exact hname
      · exfalso
        have hmemRs : x.name ∈ Rs := by
          apply List.mem_filter.2
          refine ⟨?_, ?_⟩
          · exact mem_sortStrings.2 (List.mem_map.2 ⟨x, h, rfl⟩)
          · rw [Bool.not_eq_true']
            apply Bool.eq_false_iff.2
            intro hc
            exact hname (contains_true_iff.1 hc)
        exact remsrcphase_gone Rs st3 hwf3 x.name hmemRs x hx rfl
    · exact hnames x h
  exact ⟨hwf4, hest4, hres4, hP4, hP5⟩

theorem sourceStep_id_of_est (ex ups : List String)
    (prov : String → Option String) (now2 : Nat) (db1 : PackageDatabase)
    (s : SnapshotSource) (hest : EstSource ups prov s db1) :
    sourceStep ex ups prov now2 (db1, []) s = (db1, []) := by
  rw [sourceStep_eq]
  rw [if_neg (not_not_intro hest.1)]
  refine foldl_preserve
    (fun (st2 : PackageDatabase × List Event) => st2 = (db1, [])) _ ups
    ?_ _ rfl
  intro st2 up hup h2
  subst h2
  apply upsStep_id_of_est
  intro hupn uv hpr huv
  exact hest.2 (hupn ▸ hup) uv hpr huv

theorem res_widen (db : PackageDatabase) (pn : String)
    (allowed : List String) (h : resolvableVia db pn allowed) :
    resolvableVia db pn (db.sources.map SourceRow.name) := by
  obtain ⟨row, hrow, hrn, y, hy, hyid, _⟩ := h
  exact ⟨row, hrow, hrn, y, hy, hyid, List.mem_map.2 ⟨y, hy, rfl⟩⟩

/-- C2 amended: starting from a well-formed store whose version facts all
predate the cycle clock, a reconciliation cycle against a snapshot whose
source names are distinct and whose packages all reference declared
snapshot sources leaves the store in agreement with the snapshot, so an
immediately repeated cycle against the same snapshot fires no callbacks
and issues no deletions at all. -/
theorem claim_C2_amended (db0 : PackageDatabase) (snap : Snapshot)
    (ups : List String) (prov : String → Option String) (now1 now2 : Nat)
    (hwf : WF db0)
    (hnodupS : (snap.sources.map SnapshotSource.name).Nodup)
    (hpsrc : ∀ p ∈ snap.pkgs,
      p.source ∈ snap.sources.map SnapshotSource.name)
    (htime : ∀ r ∈ db0.versions, r.timestamp < now1) :
    (update_database (update_database db0 snap ups prov now1).1 snap ups
      prov now2).2 = [] := by
  obtain ⟨hwf1, hest1, hres1, hP4, hP5⟩ :=
    run1_established db0 snap ups prov now1 hwf hnodupS hpsrc htime
  set db1 := (update_database db0 snap ups prov now1).1 with hdb1
  set curS := snap.sources.map SnapshotSource.name with hcurS
  set curP := snap.pkgs.map SnapshotPackage.name with hcurP
  set allowedD := db1.sources.map SourceRow.name with hallowedD
  have hsnD : ∀ q ∈ snap.pkgs, q.source ∈ allowedD := by
    intro q hq
    rcases List.mem_map.1 (hpsrc q hq) with ⟨s2, hs2, hs2n⟩
    obtain ⟨x, hx, hxn⟩ := updater_ne_none_source db1 s2.name "local"
      (effectiveLocalVersion s2.version) (hest1 s2 hs2).1
    rw [← hs2n, ← hxn]
    exact List.mem_map.2 ⟨x, hx, rfl⟩
  rw [update_database_phases]
  have hphase1 : snap.sources.foldl
      (sourceStep (get_all_source_names db1) ups prov now2) (db1, []) =
      (db1, []) := by
    refine foldl_preserve
      (fun (st2 : PackageDatabase × List Event) => st2 = (db1, [])) _
      snap.sources ?_ _ rfl
    intro st2 s hs h2
    subst h2
    exact sourceStep_id_of_est (get_all_source_names db1) ups prov now2
      db1 s (hest1 s hs)
  rw [hphase1]
  have hphase2 : (snap.pkgs.foldl packageStep (db1, [])).2 = [] ∧
      ∀ row ∈ (snap.pkgs.foldl packageStep (db1, [])).1.packages,
        row ∈ (snap.pkgs.foldl packageStep (db1, [])).1.packages := by
    refine ⟨?_, fun row h => h⟩
    have key : (snap.pkgs.foldl packageStep (db1, [])).2 = [] ∧
        (∀ p ∈ snap.pkgs, resolvableVia
          (snap.pkgs.foldl packageStep (db1, [])).1 p.name allowedD) := by
      have := foldl_preserve
        (fun (st2 : PackageDatabase × List Event) =>
          st2.2 = [] ∧
          ∀ p ∈ snap.pkgs, resolvableVia st2.1 p.name allowedD)
        packageStep snap.pkgs ?_ (db1, [])
        ⟨rfl, fun p hp => res_widen db1 p.name curS (hres1 p hp)⟩
      · exact this
      · intro st2 q hq h2
        refine ⟨?_, ?_⟩
        · rw [packageStep_events_eq, h2.1]
          rw [if_neg (res_get_ne_none st2.1 q.name allowedD
            (h2.2 q hq))]
          rfl
        · intro p hp
          rw [packageStep_db]
          exact add_package_metadata_preserves_res st2.1 q.source
            (some q.name) q.maintainer q.homepage_url q.license
            q.category q.summary q.description p.name allowedD
            (h2.2 p hp) (hsnD q hq)
    exact key.1
  have hR2nil : (get_all_package_names db1).filter
      (fun n => !(curP.contains n)) = [] := by
    apply List.filter_eq_nil_iff.2
    intro n hn
    rcases List.mem_map.1 (mem_sortStrings.1 hn) with ⟨row, hrowdb, hrn⟩
    intro hc
    rw [Bool.not_eq_true'] at hc
    rw [contains_true_iff.2 (hrn ▸ hP4 row hrowdb)] at hc
    cases hc
  have hRs2nil : (get_all_source_names db1).filter
      (fun n => !(curS.contains n)) = [] := by
    apply List.filter_eq_nil_iff.2
    intro n hn
    rcases List.mem_map.1 (mem_sortStrings.1 hn) with ⟨x, hxdb, hxn⟩
    intro hc
    rw [Bool.not_eq_true'] at hc
    rw [contains_true_iff.2 (hxn ▸ hP5 x hxdb)] at hc
    cases hc
  rw [hR2nil, hRs2nil, List.foldl_nil, List.foldl_nil]
  exact hphase2.1

/-- Witness for C2 amended: a clean store and a consistent one-source
one-package snapshot, cycled at time 0 and again at time 1. -/
theorem claim_C2_witness :
    (update_database (update_database emptyDB snapOne [] noProvider 0).1
      snapOne [] noProvider 1).2 = [] :=
  claim_C2_amended emptyDB snapOne [] noProvider 0 1 (by decide)
    (by decide) (by decide) (by decide)

end Xbdistro
